import Mathlib

/-!
# A verification of the `futil` directory utilities

This file gives a shallow embedding, in Lean, of the `futil` Go library
(files `futil.go`, `util.go`, and the unnamed second variant of the same
package) and proves properties of the embedded code: the ordering policy of
`Ls`, the visit/skip/abort semantics of `Walk`, the path projection of
`WalkFromTo`, the byte-level behaviour of `Cp`, the fallback behaviour of the
two `Mv`/`MvDir` variants, and the archive layout produced by `MZipDir`.

Modelling conventions:
* Go byte slices are `List Nat`; Go `error` values are `Option GoErr` where
  `none` is Go's `nil` error.  The sentinel `ErrSkipDir` is compared by
  identity in Go (`err == ErrSkipDir`), which the constructor `GoErr.skipDir`
  models; every other concrete error value is `GoErr.notFound` (the
  `*PathError` produced by opening a missing file) or `GoErr.other n`.
* A directory tree is the pair of mutual inductives `FEntry`/`FList`; a tree
  is the forest of children of the walked root.  `Walk` in the source
  re-reads each directory from the filesystem by the joined path; on a
  filesystem that is a consistent tree (no concurrent mutation, every joined
  path resolving to the corresponding child) this is exactly structural
  recursion over the tree, which is how the embedding is written.
* Recursion that Go writes as loops is written with an explicit fuel
  parameter so that every definition is executable by kernel reduction; the
  public wrappers apply fuel that provably suffices, so fuel exhaustion is
  unreachable there.
* External environment outcomes that the library only observes (a failing
  `os.Rename`, a write fault inside `io.Copy`, a failing `os.Mkdir` or
  `os.RemoveAll`) are supplied by an explicit environment record `Env`.
-/

/-- Go `error` values as observed by this library.  `Option GoErr` is a Go
error, with `none` for `nil`. -/
inductive GoErr where
  | skipDir
  | notFound
  | other (n : Nat)
deriving Repr, DecidableEq

/-- `ErrSkipDir` from `futil.go`: the sentinel a walk function returns to
skip walking a directory. -/
def ErrSkipDir : GoErr := GoErr.skipDir

/-- The part of `os.FileInfo` that `futil` consumes: `Name()` and
`IsDir()`. -/
structure FileInfo where
  name : String
  isDir : Bool
deriving Repr, DecidableEq

mutual
/-- A filesystem object: a file with byte content, or a directory with
children. -/
inductive FEntry : Type where
  | file (name : String) (content : List Nat) : FEntry
  | dir (name : String) (children : FList) : FEntry
deriving Repr, DecidableEq
/-- A forest of filesystem objects (the children of one directory). -/
inductive FList : Type where
  | nil : FList
  | cons (e : FEntry) (rest : FList) : FList
deriving Repr, DecidableEq
end

mutual
/-- Size measure of an entry, used to compute sufficient walk fuel. -/
def szE : FEntry → Nat
  | .file _ _ => 1
  | .dir _ cs => 2 + szL cs
/-- Size measure of a forest, used to compute sufficient walk fuel. -/
def szL : FList → Nat
  | .nil => 0
  | .cons e r => szE e + szL r
end

/-- View a forest as a `List` of entries. -/
def FList.toList : FList → List FEntry
  | .nil => []
  | .cons e r => e :: r.toList

/-- The `os.FileInfo` snapshot that listing an entry produces. -/
def FEntry.info : FEntry → FileInfo
  | .file n _ => ⟨n, false⟩
  | .dir n _ => ⟨n, true⟩

/-- Name of an entry. -/
def FEntry.name : FEntry → String
  | .file n _ => n
  | .dir n _ => n

/-! ## Go's `sort.Sort`

`Ls` calls `sort.Sort(FileInfoByType(files))`.  `sort.Sort` is modelled by
the classic Go implementation (Go ≤ 1.18, the vintage matching this
`ioutil.ReadDir`-era library): introsort with a depth limit, median-of-three
pivoting, heapsort fallback, and — for ranges of at most 12 elements — a
single gap-6 shell pass followed by insertion sort.  The model is generic in
the comparator `lt` (the `Less` method of the `sort.Interface`).  All loops
carry explicit fuel; the fuel supplied by `sortGo` is provably sufficient
because every nested call strictly shrinks the range `b - a`. -/

/-- `data.Swap(i, j)` on a list (out-of-range indices are a no-op; Go never
produces them). -/
def swapL {α : Type} (l : List α) (i j : Nat) : List α :=
  match l[i]?, l[j]? with
  | some x, some y => (l.set i y).set j x
  | _, _ => l

/-- `data.Less(i, j)` on a list (out-of-range indices yield `false`; Go never
produces them). -/
def lessAt {α : Type} (lt : α → α → Bool) (l : List α) (i j : Nat) : Bool :=
  match l[i]?, l[j]? with
  | some x, some y => lt x y
  | _, _ => false

/-- Inner loop of Go `insertionSort`: `for j := i; j > a && Less(j, j-1); j--
{ Swap(j, j-1) }`. -/
def insInner {α : Type} (lt : α → α → Bool) : Nat → List α → Nat → Nat → List α
  | 0, l, _, _ => l
  | fuel+1, l, a, j =>
    if a < j ∧ lessAt lt l j (j-1) then insInner lt fuel (swapL l j (j-1)) a (j-1) else l

/-- Outer loop of Go `insertionSort`: `for i := a + 1; i < b; i++`. -/
def insOuter {α : Type} (lt : α → α → Bool) : Nat → List α → Nat → Nat → Nat → List α
  | 0, l, _, _, _ => l
  | fuel+1, l, a, b, i =>
    if i < b then insOuter lt fuel (insInner lt i l a i) a b (i+1) else l

/-- Go `insertionSort(data, a, b)`. -/
def insertionSortGo {α : Type} (lt : α → α → Bool) (l : List α) (a b : Nat) : List α :=
  insOuter lt (b+1) l a b (a+1)

/-- The gap-6 shell pass Go runs before `insertionSort` on ranges of at most
12 elements: `for i := a + 6; i < b; i++ { if Less(i, i-6) { Swap(i, i-6) }
}`. -/
def shellGo {α : Type} (lt : α → α → Bool) : Nat → List α → Nat → Nat → List α
  | 0, l, _, _ => l
  | fuel+1, l, b, i =>
    if i < b then
      shellGo lt fuel (if lessAt lt l i (i-6) then swapL l i (i-6) else l) b (i+1)
    else l

/-- Go `siftDown(data, lo, hi, first)` (the `root` argument is Go's local
`root`, initially `lo`). -/
def siftDownGo {α : Type} (lt : α → α → Bool) : Nat → List α → Nat → Nat → Nat → List α
  | 0, l, _, _, _ => l
  | fuel+1, l, root, hi, first =>
    let child0 := 2*root+1
    if child0 ≥ hi then l
    else
      let child :=
        if child0+1 < hi ∧ lessAt lt l (first+child0) (first+child0+1) then child0+1 else child0
      if ¬ lessAt lt l (first+root) (first+child) then l
      else siftDownGo lt fuel (swapL l (first+root) (first+child)) child hi first

/-- Heap-building loop of Go `heapSort`: `for i := (hi-1)/2; i >= 0; i--`. -/
def heapBuild {α : Type} (lt : α → α → Bool) : Nat → List α → Nat → Nat → Nat → List α
  | 0, l, _, _, _ => l
  | fuel+1, l, i, hi, first =>
    let l1 := siftDownGo lt (hi+1) l i hi first
    if i = 0 then l1 else heapBuild lt fuel l1 (i-1) hi first

/-- Extraction loop of Go `heapSort`: `for i := hi - 1; i >= 0; i-- {
Swap(first, first+i); siftDown(lo, i, first) }`. -/
def heapExtract {α : Type} (lt : α → α → Bool) : Nat → List α → Nat → Nat → List α
  | 0, l, _, _ => l
  | fuel+1, l, i, first =>
    let l1 := siftDownGo lt (i+1) (swapL l first (first+i)) 0 i first
    if i = 0 then l1 else heapExtract lt fuel l1 (i-1) first

/-- Go `heapSort(data, a, b)`. -/
def heapSortGo {α : Type} (lt : α → α → Bool) (l : List α) (a b : Nat) : List α :=
  let hi := b - a
  if hi = 0 then l
  else heapExtract lt hi (heapBuild lt hi l ((hi-1)/2) hi a) (hi-1) a

/-- Go `medianOfThree(data, m1, m0, m2)`. -/
def medianOfThree {α : Type} (lt : α → α → Bool) (l : List α) (m1 m0 m2 : Nat) : List α :=
  let l1 := if lessAt lt l m1 m0 then swapL l m1 m0 else l
  if lessAt lt l1 m2 m1 then
    let l2 := swapL l1 m2 m1
    if lessAt lt l2 m1 m0 then swapL l2 m1 m0 else l2
  else l1

/-- Initial scan of Go `doPivot`: `for ; a < c && Less(a, pivot); a++`. -/
def scanA {α : Type} (lt : α → α → Bool) : Nat → List α → Nat → Nat → Nat → Nat
  | 0, _, a, _, _ => a
  | fuel+1, l, a, c, pivot =>
    if a < c ∧ lessAt lt l a pivot then scanA lt fuel l (a+1) c pivot else a

/-- Forward scan inside `doPivot`'s partition loop: `for ; b < c &&
!Less(pivot, b); b++`. -/
def scanB {α : Type} (lt : α → α → Bool) : Nat → List α → Nat → Nat → Nat → Nat
  | 0, _, b, _, _ => b
  | fuel+1, l, b, c, pivot =>
    if b < c ∧ ¬ lessAt lt l pivot b then scanB lt fuel l (b+1) c pivot else b

/-- Backward scan inside `doPivot`'s partition loop: `for ; b < c &&
Less(pivot, c-1); c--`. -/
def scanC {α : Type} (lt : α → α → Bool) : Nat → List α → Nat → Nat → Nat → Nat
  | 0, _, _, c, _ => c
  | fuel+1, l, b, c, pivot =>
    if b < c ∧ lessAt lt l pivot (c-1) then scanC lt fuel l b (c-1) pivot else c

/-- Main partition loop of Go `doPivot`. -/
def partLoop {α : Type} (lt : α → α → Bool) : Nat → List α → Nat → Nat → Nat → (List α × Nat × Nat)
  | 0, l, b, c, _ => (l, b, c)
  | fuel+1, l, b, c, pivot =>
    let b1 := scanB lt (c+1) l b c pivot
    let c1 := scanC lt (c+1) l b1 c pivot
    if b1 ≥ c1 then (l, b1, c1)
    else partLoop lt fuel (swapL l b1 (c1-1)) (b1+1) (c1-1) pivot

/-- Backward scan of `doPivot`'s equal-elements (`protect`) loop. -/
def protLoopB {α : Type} (lt : α → α → Bool) : Nat → List α → Nat → Nat → Nat → Nat
  | 0, _, _, b, _ => b
  | fuel+1, l, a, b, pivot =>
    if a < b ∧ ¬ lessAt lt l (b-1) pivot then protLoopB lt fuel l a (b-1) pivot else b

/-- Forward scan of `doPivot`'s equal-elements (`protect`) loop. -/
def protLoopA {α : Type} (lt : α → α → Bool) : Nat → List α → Nat → Nat → Nat → Nat
  | 0, _, a, _, _ => a
  | fuel+1, l, a, b, pivot =>
    if a < b ∧ lessAt lt l a pivot then protLoopA lt fuel l (a+1) b pivot else a

/-- Equal-elements (`protect`) loop of Go `doPivot`. -/
def protLoop {α : Type} (lt : α → α → Bool) : Nat → List α → Nat → Nat → Nat → (List α × Nat)
  | 0, l, _, b, _ => (l, b)
  | fuel+1, l, a, b, pivot =>
    let b1 := protLoopB lt (b+1) l a b pivot
    let a1 := protLoopA lt (b1+1) l a b1 pivot
    if a1 ≥ b1 then (l, b1)
    else protLoop lt fuel (swapL l a1 (b1-1)) (a1+1) (b1-1) pivot

/-- The median-of-three preliminaries of Go `doPivot` (with the ninther for
ranges longer than 40), producing the list on which partitioning starts. -/
def doPivotInit {α : Type} (lt : α → α → Bool) (l : List α) (lo hi m : Nat) : List α :=
  let l0 :=
    if hi - lo > 40 then
      let s := (hi - lo) / 8
      let la := medianOfThree lt l lo (lo+s) (lo+2*s)
      let lb := medianOfThree lt la m (m-s) (m+s)
      medianOfThree lt lb (hi-1) (hi-1-s) (hi-1-2*s)
    else l
  medianOfThree lt l0 lo m (hi-1)

/-- The `dups` counting step of Go `doPivot` (entered when the partition put
few elements after `c`): returns the adjusted list, `b`, `c`, and the new
`protect` flag. -/
def doPivotDups {α : Type} (lt : α → α → Bool) (l2 : List α) (pivot m hi b0 c0 : Nat) :
    List α × Nat × Nat × Bool :=
  let qa : List α × Nat × Nat :=
    if ¬ lessAt lt l2 pivot (hi-1) then (swapL l2 c0 (hi-1), c0+1, 1) else (l2, c0, 0)
  let qb : Nat × Nat :=
    if ¬ lessAt lt qa.1 (b0-1) pivot then (b0-1, qa.2.2+1) else (b0, qa.2.2)
  let qc : List α × Nat × Nat :=
    if ¬ lessAt lt qa.1 m pivot then (swapL qa.1 (qb.1-1) m, qb.1-1, qb.2+1)
    else (qa.1, qb.1, qb.2)
  (qc.1, qc.2.1, qa.2.1, decide (qc.2.2 > 1))

/-- The tail of Go `doPivot` after the partition loop: the `protect`
decision, the optional `dups`/equal-elements handling, and the final swap of
the pivot into place (`pivot` is `lo`). -/
def doPivotPost {α : Type} (lt : α → α → Bool) (l2 : List α) (b0 c0 lo hi m a0 : Nat) :
    List α × Nat × Nat :=
  let hic := hi - c0
  let protect0 : Bool := decide (hic < 5)
  let q : List α × Nat × Nat × Bool :=
    if ¬ protect0 = true ∧ hic < (hi - lo)/4 then doPivotDups lt l2 lo m hi b0 c0
    else (l2, b0, c0, protect0)
  let pl : List α × Nat :=
    if q.2.2.2 then protLoop lt (hi+1) q.1 a0 q.2.1 lo
    else (q.1, q.2.1)
  (swapL pl.1 lo (pl.2-1), pl.2-1, q.2.2.1)

/-- Go `doPivot(data, lo, hi)`: returns the list after partitioning together
with `(midlo, midhi)`. -/
def doPivotGo {α : Type} (lt : α → α → Bool) (l : List α) (lo hi : Nat) : (List α × Nat × Nat) :=
  let m := (lo + hi) / 2
  let l1 := doPivotInit lt l lo hi m
  let a0 := scanA lt (hi+1) l1 (lo+1) (hi-1) lo
  let pr := partLoop lt (hi+1) l1 a0 (hi-1) lo
  doPivotPost lt pr.1 pr.2.1 pr.2.2 lo hi m a0

/-- Go `quickSort(data, a, b, maxDepth)`: the `for b-a > 12` loop is the
tail call that continues with the narrowed range. -/
def quickSortGo {α : Type} (lt : α → α → Bool) : Nat → List α → Nat → Nat → Nat → List α
  | 0, l, _, _, _ => l
  | fuel+1, l, a, b, maxDepth =>
    if b - a > 12 then
      if maxDepth = 0 then heapSortGo lt l a b
      else
        let md := maxDepth - 1
        let dp := doPivotGo lt l a b
        let l1 := dp.1
        let mlo := dp.2.1
        let mhi := dp.2.2
        if mlo - a < b - mhi then
          let l2 := quickSortGo lt fuel l1 a mlo md
          quickSortGo lt fuel l2 mhi b md
        else
          let l2 := quickSortGo lt fuel l1 mhi b md
          quickSortGo lt fuel l2 a mlo md
    else if b - a > 1 then
      insertionSortGo lt (shellGo lt (b+1) l b (a+6)) a b
    else l

/-- The loop in Go `maxDepth(n)` counting the bits of `n`. -/
def maxDepthLoop : Nat → Nat → Nat
  | 0, _ => 0
  | fuel+1, i => if i > 0 then 1 + maxDepthLoop fuel (i/2) else 0

/-- Go `maxDepth(n) = 2 * (number of bits of n)`. -/
def maxDepthGo (n : Nat) : Nat := 2 * maxDepthLoop n n

/-- Go `sort.Sort(data)` = `quickSort(data, 0, n, maxDepth(n))`.  The fuel
`n + 1` bounds the length of any chain of nested `quickSort` activations
because every nested activation has a strictly smaller range. -/
def sortGo {α : Type} (lt : α → α → Bool) (l : List α) : List α :=
  quickSortGo lt (l.length + 1) l 0 l.length (maxDepthGo l.length)

/-- The comparator of `FileInfoByType.Less` from `util.go`: rank 0 for
directories, rank 1 for everything else, compare ranks with `<`. -/
def typeRank (i : FileInfo) : Nat := if i.isDir then 0 else 1

/-- `FileInfoByType.Less` as a comparator on `FileInfo`. -/
def fileInfoLess (x y : FileInfo) : Bool := decide (typeRank x < typeRank y)

/-- The same comparator read on tree entries (the listing that `Walk`
iterates is the directory's children, compared by their `FileInfo`). -/
def entryLess (x y : FEntry) : Bool := fileInfoLess x.info y.info

/-- `Ls` from `futil.go` on the children of a directory that exists: sort
the listing with `sort.Sort(FileInfoByType(files))` (directories first).
The error result of `ioutil.ReadDir` is `nil` for an existing directory, so
it does not appear here; `Walk` below walks directories that exist. -/
def Ls (es : FList) : List FEntry := sortGo entryLess es.toList

/-! ## Go `path.Clean`, `path.Join`, `strings.TrimPrefix`

`futil.go` uses the slash-only `path` package; the unnamed variant uses
`path/filepath`.  On a slash-separator platform (the platform this library
targets in practice) `filepath.Clean`/`filepath.Join` run the identical
algorithm with separator `/`, so one model serves both; the distinction is
kept in the names below.  The output buffer of Go's `lazybuf` is kept in
reversed order (`outRev`), so Go's `out.append` is `::` and the `..`
backtracking pops from the head; `out.w` is `outRev.length`. -/

/-- The inner backtracking loop of `path.Clean`'s `..` case: after the first
`out.w--` has dropped `lastDropped`, keep dropping while the just-dropped
character is not `/` and `out.w > dotdot`. -/
def btLoop (dotdot : Nat) : List Char → Char → List Char
  | remaining, lastDropped =>
    if remaining.length > dotdot ∧ lastDropped ≠ '/' then
      match remaining with
      | [] => []
      | c :: rest => btLoop dotdot rest c
    else remaining

/-- The `out.w > dotdot` branch of `path.Clean`'s `..` case: `out.w--`
followed by the backtracking loop. -/
def backtrack (outRev : List Char) (dotdot : Nat) : List Char :=
  match outRev with
  | [] => []
  | c :: rest => btLoop dotdot rest c

/-- The main scanning loop of Go `path.Clean` (`for r < n`), consuming the
remaining input `p`.  Each iteration consumes at least one input character,
so fuel `length + 1` suffices. -/
def cleanLoop (rooted : Bool) : Nat → List Char → List Char → Nat → List Char
  | 0, _, outRev, _ => outRev
  | fuel+1, p, outRev, dotdot =>
    match p with
    | [] => outRev
    | c :: rest =>
      if c = '/' then cleanLoop rooted fuel rest outRev dotdot
      else if c = '.' ∧ (rest = [] ∨ rest.head? = some '/') then
        cleanLoop rooted fuel rest outRev dotdot
      else if c = '.' ∧ rest.head? = some '.' ∧ (rest.tail = [] ∨ rest.tail.head? = some '/') then
        let rest2 := rest.tail
        if outRev.length > dotdot then
          cleanLoop rooted fuel rest2 (backtrack outRev dotdot) dotdot
        else if ¬ rooted then
          let out1 := if outRev.length > 0 then '/' :: outRev else outRev
          let out2 := '.' :: '.' :: out1
          cleanLoop rooted fuel rest2 out2 out2.length
        else cleanLoop rooted fuel rest2 outRev dotdot
      else
        let seg := p.takeWhile (· ≠ '/')
        let rest3 := p.dropWhile (· ≠ '/')
        let sep : Bool := (rooted ∧ outRev.length ≠ 1) ∨ (¬ rooted ∧ outRev.length ≠ 0)
        let out1 := if sep then '/' :: outRev else outRev
        cleanLoop rooted fuel rest3 (seg.reverse ++ out1) dotdot

/-- Go `path.Clean`. -/
def goClean (s : String) : String :=
  match s.data with
  | [] => "."
  | c :: rest =>
    let rooted := c = '/'
    let start := if rooted then (rest, ['/'], 1) else (c :: rest, ([] : List Char), 0)
    let outRev := cleanLoop rooted (s.data.length + 1) start.1 start.2.1 start.2.2
    if outRev.length = 0 then "." else ⟨outRev.reverse⟩

/-- Go `path.Join(a, b)` (two arguments, as this library always calls it):
skip leading empty elements, join with `/`, `Clean` the result. -/
def pathJoin (a b : String) : String :=
  if a ≠ "" then goClean ⟨a.data ++ '/' :: b.data⟩
  else if b ≠ "" then goClean b
  else ""

/-- Go `path/filepath.Join(a, b)` on a slash-separator platform: the same
algorithm as `path.Join` with `Separator = '/'`. -/
def filepathJoin (a b : String) : String := pathJoin a b

/-- Go `strings.TrimPrefix(s, pre)`: drop `pre` if it is a prefix of `s`,
otherwise return `s` unchanged. -/
def trimPre (s pre : String) : String :=
  if pre.data = s.data.take pre.data.length then ⟨s.data.drop pre.data.length⟩ else s

/-! ## `Walk`

`Walk(dir, fn)` from `futil.go`: list the directory with `Ls`, then for each
entry of the sorted listing call `fn(dir, v)`; a directory entry whose call
returns `ErrSkipDir` is skipped (`continue`), any other non-nil result of
`fn` aborts the walk, a directory entry with a nil result is recursed into
at `path.Join(dir, v.Name())`, and a non-nil result on a file entry aborts.

The visitor `fn` is a Go closure that may mutate captured state (the whole
library is built on such closures), so the embedding threads an explicit
visitor state `σ`: `fn s dir info = (verdict, s-after)`.  `walkF` is written
with a phase flag: phase `false` sorts the current listing, phase `true`
iterates an already-sorted listing. -/

/-- The walk engine.  `walkF fn fuel false dir s es` is `Walk(dir, fn)` run
on the children `es`, with visitor state `s`; it returns the final state and
Go's returned error.  Fuel exhaustion yields the marker `GoErr.other 999`,
unreachable under the fuel supplied by `Walk`. -/
def walkF {σ : Type} (fn : σ → String → FileInfo → Option GoErr × σ) :
    Nat → Bool → String → σ → List FEntry → σ × Option GoErr
  | 0, _, _, s, _ => (s, some (GoErr.other 999))
  | fuel+1, false, dir, s, es => walkF fn fuel true dir s (sortGo entryLess es)
  | _+1, true, _, s, [] => (s, none)
  | fuel+1, true, dir, s, e :: rest =>
    match e with
    | .dir name children =>
      let r := fn s dir ⟨name, true⟩
      match r.1 with
      | some GoErr.skipDir => walkF fn fuel true dir r.2 rest
      | some err => (r.2, some err)
      | none =>
        let r2 := walkF fn fuel false (pathJoin dir name) r.2 children.toList
        match r2.2 with
        | some err => (r2.1, some err)
        | none => walkF fn fuel true dir r2.1 rest
    | .file name _ =>
      let r := fn s dir ⟨name, false⟩
      match r.1 with
      | some err => (r.2, some err)
      | none => walkF fn fuel true dir r.2 rest

/-- Fuel that provably suffices for walking the forest `es`. -/
def wFuel (es : FList) : Nat := 2 + 2 * szL es

/-- `Walk` from `futil.go`, on the tree `es` rooted at path `dir`, with a
stateful visitor. -/
def Walk {σ : Type} (fn : σ → String → FileInfo → Option GoErr × σ) (dir : String)
    (s : σ) (es : FList) : σ × Option GoErr :=
  walkF fn (wFuel es) false dir s es.toList

/-- A pure visitor lifted to walk state that records the sequence of
visitor invocations (the pairs `(dir, info)` passed to `fn`, in call
order). -/
def traceFn (visit : String → FileInfo → Option GoErr) :
    List (String × FileInfo) → String → FileInfo → Option GoErr × List (String × FileInfo) :=
  fun tr d i => (visit d i, tr ++ [(d, i)])

/-- `Walk` with a pure visitor, instrumented to record its invocations. -/
def WalkTrace (visit : String → FileInfo → Option GoErr) (dir : String) (es : FList) :
    List (String × FileInfo) × Option GoErr :=
  Walk (traceFn visit) dir [] es

/-- `WalkFromTo` from `futil.go`: walk `from` and hand the visitor the
source path together with the projected destination path
`path.Join(to, strings.TrimPrefix(source, from))`. -/
def WalkFromTo {σ : Type} (from_ to_ : String)
    (fn : σ → String → String → FileInfo → Option GoErr × σ) (s : σ) (es : FList) :
    σ × Option GoErr :=
  Walk (fun s source info => fn s source (pathJoin to_ (trimPre source from_)) info) from_ s es

/-! ## `sort.Sort` permutes its input

Every mutation the sort performs is a `Swap`, so the result of every loop is
a permutation of its input, for any fuel.  This is the only fact about the
quicksort/heapsort paths that the development needs; the 12-element
insertion-sort path additionally gets an ordering result below. -/

theorem cons_set_perm {α : Type} (t : List α) (m : Nat) (a y : α) (h : t[m]? = some y) :
    List.Perm (y :: t.set m a) (a :: t) := by
  have hm : m < t.length := by
    by_contra hc
    simp [List.getElem?_eq_none (Nat.le_of_not_lt hc)] at h
  have hy : t[m] = y := by
    have := List.getElem?_eq_getElem hm (l := t)
    rw [this] at h; exact Option.some_injective _ h
  have hdecomp : t = t.take m ++ y :: t.drop (m+1) := by
    conv_lhs => rw [← List.take_append_drop m t]
    congr 1
    rw [← hy, List.getElem_cons_drop]
  have hset : t.set m a = t.take m ++ a :: t.drop (m+1) :=
    List.set_eq_take_cons_drop a hm
  rw [hset]
  conv_rhs => rw [hdecomp]
  exact ((List.Perm.cons y List.perm_middle).trans
    ((List.Perm.swap a y _).trans (List.Perm.cons a List.perm_middle.symm)))

theorem set_set_swap_perm {α : Type} :
    ∀ (l : List α) (i j : Nat) (x y : α), l[i]? = some x → l[j]? = some y →
    List.Perm ((l.set i y).set j x) l := by
  intro l
  induction l with
  | nil => intro i j x y h1 _; simp at h1
  | cons a t ih =>
    intro i j x y h1 h2
    match i, j with
    | 0, 0 =>
      simp at h1 h2; subst h1; subst h2; simp
    | 0, m+1 =>
      simp at h1; subst h1
      simp only [List.set_cons_zero, List.set_cons_succ]
      simp at h2
      exact cons_set_perm t m a y h2
    | n+1, 0 =>
      simp at h2; subst h2
      simp only [List.set_cons_succ, List.set_cons_zero]
      simp at h1
      exact cons_set_perm t n a x h1
    | n+1, m+1 =>
      simp only [List.set_cons_succ]
      simp at h1 h2
      exact List.Perm.cons a (ih n m x y h1 h2)

theorem swapL_perm {α : Type} (l : List α) (i j : Nat) : List.Perm (swapL l i j) l := by
  unfold swapL
  cases h1 : l[i]? with
  | none => exact List.Perm.refl l
  | some x =>
    cases h2 : l[j]? with
    | none => exact List.Perm.refl l
    | some y => exact set_set_swap_perm l i j x y h1 h2

theorem insInner_perm {α : Type} (lt : α → α → Bool) :
    ∀ (fuel : Nat) (l : List α) (a j : Nat), List.Perm (insInner lt fuel l a j) l := by
  intro fuel
  induction fuel with
  | zero => intro l a j; exact List.Perm.refl l
  | succ n ih =>
    intro l a j
    simp only [insInner]
    split
    · exact (ih _ _ _).trans (swapL_perm _ _ _)
    · exact List.Perm.refl l

theorem insOuter_perm {α : Type} (lt : α → α → Bool) :
    ∀ (fuel : Nat) (l : List α) (a b i : Nat), List.Perm (insOuter lt fuel l a b i) l := by
  intro fuel
  induction fuel with
  | zero => intro l a b i; exact List.Perm.refl l
  | succ n ih =>
    intro l a b i
    simp only [insOuter]
    split
    · exact (ih _ _ _ _).trans (insInner_perm lt _ _ _ _)
    · exact List.Perm.refl l

theorem insertionSortGo_perm {α : Type} (lt : α → α → Bool) (l : List α) (a b : Nat) :
    List.Perm (insertionSortGo lt l a b) l := insOuter_perm lt _ l a b _

theorem shellGo_perm {α : Type} (lt : α → α → Bool) :
    ∀ (fuel : Nat) (l : List α) (b i : Nat), List.Perm (shellGo lt fuel l b i) l := by
  intro fuel
  induction fuel with
  | zero => intro l b i; exact List.Perm.refl l
  | succ n ih =>
    intro l b i
    simp only [shellGo]
    split
    · refine (ih _ _ _).trans ?_
      split
      · exact swapL_perm _ _ _
      · exact List.Perm.refl l
    · exact List.Perm.refl l

theorem siftDownGo_perm {α : Type} (lt : α → α → Bool) :
    ∀ (fuel : Nat) (l : List α) (root hi first : Nat),
      List.Perm (siftDownGo lt fuel l root hi first) l := by
  intro fuel
  induction fuel with
  | zero => intro l root hi first; exact List.Perm.refl l
  | succ n ih =>
    intro l root hi first
    simp only [siftDownGo]
    split
    · exact List.Perm.refl l
    · split <;> split <;>
        first
          | exact List.Perm.refl l
          | exact (ih _ _ _ _).trans (swapL_perm _ _ _)

theorem heapBuild_perm {α : Type} (lt : α → α → Bool) :
    ∀ (fuel : Nat) (l : List α) (i hi first : Nat),
      List.Perm (heapBuild lt fuel l i hi first) l := by
  intro fuel
  induction fuel with
  | zero => intro l i hi first; exact List.Perm.refl l
  | succ n ih =>
    intro l i hi first
    simp only [heapBuild]
    split
    · exact siftDownGo_perm lt _ _ _ _ _
    · exact (ih _ _ _ _).trans (siftDownGo_perm lt _ _ _ _ _)

theorem heapExtract_perm {α : Type} (lt : α → α → Bool) :
    ∀ (fuel : Nat) (l : List α) (i first : Nat),
      List.Perm (heapExtract lt fuel l i first) l := by
  intro fuel
  induction fuel with
  | zero => intro l i first; exact List.Perm.refl l
  | succ n ih =>
    intro l i first
    simp only [heapExtract]
    split
    · exact (siftDownGo_perm lt _ _ _ _ _).trans (swapL_perm _ _ _)
    · exact (ih _ _ _).trans ((siftDownGo_perm lt _ _ _ _ _).trans (swapL_perm _ _ _))

theorem heapSortGo_perm {α : Type} (lt : α → α → Bool) (l : List α) (a b : Nat) :
    List.Perm (heapSortGo lt l a b) l := by
  simp only [heapSortGo]
  split
  · exact List.Perm.refl l
  · exact (heapExtract_perm lt _ _ _ _).trans (heapBuild_perm lt _ _ _ _ _)

theorem medianOfThree_perm {α : Type} (lt : α → α → Bool) (l : List α) (m1 m0 m2 : Nat) :
    List.Perm (medianOfThree lt l m1 m0 m2) l := by
  simp only [medianOfThree]
  split_ifs <;>
    (repeat
      first
        | exact List.Perm.refl l
        | refine (swapL_perm _ _ _).trans ?_)

theorem partLoop_perm {α : Type} (lt : α → α → Bool) :
    ∀ (fuel : Nat) (l : List α) (b c pivot : Nat),
      List.Perm (partLoop lt fuel l b c pivot).1 l := by
  intro fuel
  induction fuel with
  | zero => intro l b c pivot; exact List.Perm.refl l
  | succ n ih =>
    intro l b c pivot
    simp only [partLoop]
    split
    · exact List.Perm.refl l
    · exact (ih _ _ _ _).trans (swapL_perm _ _ _)

theorem protLoop_perm {α : Type} (lt : α → α → Bool) :
    ∀ (fuel : Nat) (l : List α) (a b pivot : Nat),
      List.Perm (protLoop lt fuel l a b pivot).1 l := by
  intro fuel
  induction fuel with
  | zero => intro l a b pivot; exact List.Perm.refl l
  | succ n ih =>
    intro l a b pivot
    simp only [protLoop]
    split
    · exact List.Perm.refl l
    · exact (ih _ _ _ _).trans (swapL_perm _ _ _)

theorem doPivotInit_perm {α : Type} (lt : α → α → Bool) (l : List α) (lo hi m : Nat) :
    List.Perm (doPivotInit lt l lo hi m) l := by
  simp only [doPivotInit]
  refine (medianOfThree_perm lt _ _ _ _).trans ?_
  split
  · exact (medianOfThree_perm lt _ _ _ _).trans
      ((medianOfThree_perm lt _ _ _ _).trans (medianOfThree_perm lt _ _ _ _))
  · exact List.Perm.refl l

theorem doPivotDups_fst_perm {α : Type} (lt : α → α → Bool) (l2 : List α)
    (pivot m hi b0 c0 : Nat) : List.Perm (doPivotDups lt l2 pivot m hi b0 c0).1 l2 := by
  simp only [doPivotDups]
  split
  · split
    · exact (swapL_perm _ _ _).trans (swapL_perm _ _ _)
    · exact swapL_perm _ _ _
  · split
    · exact swapL_perm _ _ _
    · exact List.Perm.refl l2

theorem doPivotPost_fst_perm {α : Type} (lt : α → α → Bool) (l2 : List α)
    (b0 c0 lo hi m a0 : Nat) : List.Perm (doPivotPost lt l2 b0 c0 lo hi m a0).1 l2 := by
  simp only [doPivotPost]
  refine (swapL_perm _ _ _).trans ?_
  split <;> split <;>
    first
      | exact List.Perm.refl l2
      | exact doPivotDups_fst_perm lt _ _ _ _ _ _
      | exact protLoop_perm lt _ _ _ _ _
      | exact (protLoop_perm lt _ _ _ _ _).trans (doPivotDups_fst_perm lt _ _ _ _ _ _)

theorem doPivotGo_fst_perm {α : Type} (lt : α → α → Bool) (l : List α) (lo hi : Nat) :
    List.Perm (doPivotGo lt l lo hi).1 l := by
  simp only [doPivotGo]
  exact (doPivotPost_fst_perm lt _ _ _ _ _ _ _).trans
    ((partLoop_perm lt _ _ _ _ _).trans (doPivotInit_perm lt l lo hi _))

theorem quickSortGo_perm {α : Type} (lt : α → α → Bool) :
    ∀ (fuel : Nat) (l : List α) (a b md : Nat), List.Perm (quickSortGo lt fuel l a b md) l := by
  intro fuel
  induction fuel with
  | zero => intro l a b md; exact List.Perm.refl l
  | succ n ih =>
    intro l a b md
    simp only [quickSortGo]
    split
    · split
      · exact heapSortGo_perm lt l a b
      · split
        · exact (ih _ _ _ _).trans ((ih _ _ _ _).trans (doPivotGo_fst_perm lt l a b))
        · exact (ih _ _ _ _).trans ((ih _ _ _ _).trans (doPivotGo_fst_perm lt l a b))
    · split
      · exact (insertionSortGo_perm lt _ a b).trans (shellGo_perm lt _ l b (a+6))
      · exact List.Perm.refl l

theorem sortGo_perm {α : Type} (lt : α → α → Bool) (l : List α) :
    List.Perm (sortGo lt l) l := quickSortGo_perm lt _ l 0 l.length _

/-- `Ls` returns exactly the directory's entries, reordered. -/
theorem Ls_perm (es : FList) : List.Perm (Ls es) es.toList := sortGo_perm entryLess es.toList

/-! ## The sort only looks at the comparator

`FileInfoByType.Less` factors through the 0/1 rank of an entry, so the whole
sort commutes with mapping the rank function over the list.  This reduces
any ordering question about `Ls` to the same question about rank lists over
`{0, 1}`, where it can be decided by enumeration. -/

section SortMap

variable {α β : Type} (f : α → β) (lta : α → α → Bool) (ltb : β → β → Bool)
variable (hf : ∀ x y, ltb (f x) (f y) = lta x y)

theorem lessAt_map (hf : ∀ x y, ltb (f x) (f y) = lta x y) (l : List α) (i j : Nat) :
    lessAt ltb (l.map f) i j = lessAt lta l i j := by
  unfold lessAt
  rw [List.getElem?_map, List.getElem?_map]
  cases l[i]? <;> cases l[j]? <;> simp [hf]

theorem swapL_map (l : List α) (i j : Nat) : (swapL l i j).map f = swapL (l.map f) i j := by
  unfold swapL
  rw [List.getElem?_map, List.getElem?_map]
  cases l[i]? <;> cases l[j]? <;> simp

include hf

theorem insInner_map : ∀ (fuel : Nat) (l : List α) (a j : Nat),
    (insInner lta fuel l a j).map f = insInner ltb fuel (l.map f) a j := by
  intro fuel
  induction fuel with
  | zero => intro l a j; rfl
  | succ n ih =>
    intro l a j
    simp only [insInner, lessAt_map f lta ltb hf]
    split
    · rw [ih, swapL_map]
    · rfl

theorem insOuter_map : ∀ (fuel : Nat) (l : List α) (a b i : Nat),
    (insOuter lta fuel l a b i).map f = insOuter ltb fuel (l.map f) a b i := by
  intro fuel
  induction fuel with
  | zero => intro l a b i; rfl
  | succ n ih =>
    intro l a b i
    simp only [insOuter]
    split
    · rw [ih, insInner_map f lta ltb hf]
    · rfl

theorem insertionSortGo_map (l : List α) (a b : Nat) :
    (insertionSortGo lta l a b).map f = insertionSortGo ltb (l.map f) a b :=
  insOuter_map f lta ltb hf _ l a b _

theorem shellGo_map : ∀ (fuel : Nat) (l : List α) (b i : Nat),
    (shellGo lta fuel l b i).map f = shellGo ltb fuel (l.map f) b i := by
  intro fuel
  induction fuel with
  | zero => intro l b i; rfl
  | succ n ih =>
    intro l b i
    simp only [shellGo, lessAt_map f lta ltb hf]
    split
    · rw [ih]
      split
      · rw [swapL_map]
      · rfl
    · rfl

theorem siftDownGo_map : ∀ (fuel : Nat) (l : List α) (root hi first : Nat),
    (siftDownGo lta fuel l root hi first).map f = siftDownGo ltb fuel (l.map f) root hi first := by
  intro fuel
  induction fuel with
  | zero => intro l root hi first; rfl
  | succ n ih =>
    intro l root hi first
    simp only [siftDownGo, lessAt_map f lta ltb hf]
    split
    · rfl
    · split <;> split <;> first | rfl | rw [ih, swapL_map]

theorem heapBuild_map : ∀ (fuel : Nat) (l : List α) (i hi first : Nat),
    (heapBuild lta fuel l i hi first).map f = heapBuild ltb fuel (l.map f) i hi first := by
  intro fuel
  induction fuel with
  | zero => intro l i hi first; rfl
  | succ n ih =>
    intro l i hi first
    simp only [heapBuild]
    split
    · rw [siftDownGo_map f lta ltb hf]
    · rw [ih, siftDownGo_map f lta ltb hf]

theorem heapExtract_map : ∀ (fuel : Nat) (l : List α) (i first : Nat),
    (heapExtract lta fuel l i first).map f = heapExtract ltb fuel (l.map f) i first := by
  intro fuel
  induction fuel with
  | zero => intro l i first; rfl
  | succ n ih =>
    intro l i first
    simp only [heapExtract]
    split
    · rw [siftDownGo_map f lta ltb hf, swapL_map]
    · rw [ih, siftDownGo_map f lta ltb hf, swapL_map]

theorem heapSortGo_map (l : List α) (a b : Nat) :
    (heapSortGo lta l a b).map f = heapSortGo ltb (l.map f) a b := by
  simp only [heapSortGo]
  split
  · rfl
  · rw [heapExtract_map f lta ltb hf, heapBuild_map f lta ltb hf]

theorem medianOfThree_map (l : List α) (m1 m0 m2 : Nat) :
    (medianOfThree lta l m1 m0 m2).map f = medianOfThree ltb (l.map f) m1 m0 m2 := by
  simp only [medianOfThree, lessAt_map f lta ltb hf, ← swapL_map f,
    ← apply_ite (List.map f)]

theorem scanA_map : ∀ (fuel : Nat) (l : List α) (a c pivot : Nat),
    scanA ltb fuel (l.map f) a c pivot = scanA lta fuel l a c pivot := by
  intro fuel
  induction fuel with
  | zero => intro l a c pivot; rfl
  | succ n ih =>
    intro l a c pivot
    simp only [scanA, lessAt_map f lta ltb hf]
    split
    · rw [ih]
    · rfl

theorem scanB_map : ∀ (fuel : Nat) (l : List α) (b c pivot : Nat),
    scanB ltb fuel (l.map f) b c pivot = scanB lta fuel l b c pivot := by
  intro fuel
  induction fuel with
  | zero => intro l b c pivot; rfl
  | succ n ih =>
    intro l b c pivot
    simp only [scanB, lessAt_map f lta ltb hf]
    split
    · rw [ih]
    · rfl

theorem scanC_map : ∀ (fuel : Nat) (l : List α) (b c pivot : Nat),
    scanC ltb fuel (l.map f) b c pivot = scanC lta fuel l b c pivot := by
  intro fuel
  induction fuel with
  | zero => intro l b c pivot; rfl
  | succ n ih =>
    intro l b c pivot
    simp only [scanC, lessAt_map f lta ltb hf]
    split
    · rw [ih]
    · rfl

theorem partLoop_map : ∀ (fuel : Nat) (l : List α) (b c pivot : Nat),
    partLoop ltb fuel (l.map f) b c pivot =
      ((partLoop lta fuel l b c pivot).1.map f, (partLoop lta fuel l b c pivot).2) := by
  intro fuel
  induction fuel with
  | zero => intro l b c pivot; rfl
  | succ n ih =>
    intro l b c pivot
    simp only [partLoop, scanB_map f lta ltb hf, scanC_map f lta ltb hf]
    split
    · rfl
    · rw [← swapL_map f, ih]

theorem protLoopB_map : ∀ (fuel : Nat) (l : List α) (a b pivot : Nat),
    protLoopB ltb fuel (l.map f) a b pivot = protLoopB lta fuel l a b pivot := by
  intro fuel
  induction fuel with
  | zero => intro l a b pivot; rfl
  | succ n ih =>
    intro l a b pivot
    simp only [protLoopB, lessAt_map f lta ltb hf]
    split
    · rw [ih]
    · rfl

theorem protLoopA_map : ∀ (fuel : Nat) (l : List α) (a b pivot : Nat),
    protLoopA ltb fuel (l.map f) a b pivot = protLoopA lta fuel l a b pivot := by
  intro fuel
  induction fuel with
  | zero => intro l a b pivot; rfl
  | succ n ih =>
    intro l a b pivot
    simp only [protLoopA, lessAt_map f lta ltb hf]
    split
    · rw [ih]
    · rfl

theorem protLoop_map : ∀ (fuel : Nat) (l : List α) (a b pivot : Nat),
    protLoop ltb fuel (l.map f) a b pivot =
      ((protLoop lta fuel l a b pivot).1.map f, (protLoop lta fuel l a b pivot).2) := by
  intro fuel
  induction fuel with
  | zero => intro l a b pivot; rfl
  | succ n ih =>
    intro l a b pivot
    simp only [protLoop, protLoopA_map f lta ltb hf, protLoopB_map f lta ltb hf]
    split
    · rfl
    · rw [← swapL_map f, ih]

theorem doPivotInit_map (l : List α) (lo hi m : Nat) :
    (doPivotInit lta l lo hi m).map f = doPivotInit ltb (l.map f) lo hi m := by
  simp only [doPivotInit]
  split
  · rw [← medianOfThree_map f lta ltb hf, ← medianOfThree_map f lta ltb hf,
      ← medianOfThree_map f lta ltb hf, ← medianOfThree_map f lta ltb hf]
  · rw [← medianOfThree_map f lta ltb hf]

theorem doPivotDups_map (l2 : List α) (pivot m hi b0 c0 : Nat) :
    doPivotDups ltb (l2.map f) pivot m hi b0 c0 =
      ((doPivotDups lta l2 pivot m hi b0 c0).1.map f,
        (doPivotDups lta l2 pivot m hi b0 c0).2) := by
  by_cases h1 : lessAt lta l2 pivot (hi-1) = true <;>
    by_cases h2a : lessAt lta (swapL l2 c0 (hi-1)) (b0-1) pivot = true <;>
    by_cases h2b : lessAt lta l2 (b0-1) pivot = true <;>
    by_cases h3a : lessAt lta (swapL l2 c0 (hi-1)) m pivot = true <;>
    by_cases h3b : lessAt lta l2 m pivot = true <;>
    simp [doPivotDups, lessAt_map f lta ltb hf, ← swapL_map f, h1, h2a, h2b, h3a, h3b]

theorem doPivotPost_map (l2 : List α) (b0 c0 lo hi m a0 : Nat) :
    doPivotPost ltb (l2.map f) b0 c0 lo hi m a0 =
      ((doPivotPost lta l2 b0 c0 lo hi m a0).1.map f,
        (doPivotPost lta l2 b0 c0 lo hi m a0).2) := by
  by_cases hP : (¬ (decide (hi - c0 < 5)) = true ∧ hi - c0 < (hi - lo)/4)
  · by_cases hQ : (doPivotDups lta l2 lo m hi b0 c0).2.2.2 = true
    · simp [doPivotPost, doPivotDups_map f lta ltb hf, hP, hQ,
        protLoop_map f lta ltb hf, ← swapL_map f]
    · simp [doPivotPost, doPivotDups_map f lta ltb hf, hP, hQ, ← swapL_map f]
  · by_cases hp5 : decide (hi - c0 < 5) = true
    · simp [doPivotPost, hP, hp5, protLoop_map f lta ltb hf, ← swapL_map f]
    · have hB : ¬ (hi - c0 < (hi - lo)/4) := fun hb => hP ⟨hp5, hb⟩
      simp [doPivotPost, hP, hp5, hB, ← swapL_map f]

theorem doPivotGo_map (l : List α) (lo hi : Nat) :
    doPivotGo ltb (l.map f) lo hi =
      ((doPivotGo lta l lo hi).1.map f, (doPivotGo lta l lo hi).2) := by
  simp only [doPivotGo]
  rw [← doPivotInit_map f lta ltb hf, scanA_map f lta ltb hf, partLoop_map f lta ltb hf,
    doPivotPost_map f lta ltb hf]

theorem quickSortGo_map : ∀ (fuel : Nat) (l : List α) (a b md : Nat),
    (quickSortGo lta fuel l a b md).map f = quickSortGo ltb fuel (l.map f) a b md := by
  intro fuel
  induction fuel with
  | zero => intro l a b md; rfl
  | succ n ih =>
    intro l a b md
    simp only [quickSortGo]
    split
    · split
      · exact heapSortGo_map f lta ltb hf l a b
      · rw [doPivotGo_map f lta ltb hf]
        split
        · rw [← ih, ← ih]
        · rw [← ih, ← ih]
    · split
      · rw [← shellGo_map f lta ltb hf, ← insertionSortGo_map f lta ltb hf]
      · rfl

theorem sortGo_map (l : List α) : (sortGo lta l).map f = sortGo ltb (l.map f) := by
  simp only [sortGo, List.length_map]
  exact quickSortGo_map f lta ltb hf _ l 0 l.length _

end SortMap

/-! ## The 12-element path of `sort.Sort` sorts

For a range of at most 12 elements `quickSort` runs the gap-6 shell pass
followed by a full insertion sort, and an insertion sort sorts whatever list
it is given.  This section proves that the insertion sort does sort, by
characterising the inner loop as a functional insert into the prefix. -/

/-- The comparator `FileInfoByType.Less` seen on ranks. -/
def natLt (x y : Nat) : Bool := decide (x < y)

/-- Rank of a tree entry: 0 for directories, 1 for files. -/
def entRank (e : FEntry) : Nat := typeRank e.info

/-- Specification-side functional insert: bubble `x` from the right end of a
prefix whose reversal is `R`, exactly as the insertion-sort inner loop
does. -/
def insRev (x : Nat) : List Nat → List Nat
  | [] => [x]
  | u :: rest => if natLt x u then u :: insRev x rest else x :: u :: rest

theorem getElem?_append_cons {α : Type} :
    ∀ (A : List α) (y : α) (S : List α), (A ++ y :: S)[A.length]? = some y := by
  intro A
  induction A with
  | nil => intro y S; simp
  | cons a A ih => intro y S; simpa using ih y S

theorem set_append_cons {α : Type} :
    ∀ (A : List α) (y z : α) (S : List α), (A ++ y :: S).set A.length z = A ++ z :: S := by
  intro A
  induction A with
  | nil => intro y z S; rfl
  | cons a A ih => intro y z S; simp [ih y z S]

theorem getElem?_append_cons_succ {α : Type} (A : List α) (u x : α) (S : List α) :
    (A ++ u :: x :: S)[A.length + 1]? = some x := by
  have h : A ++ u :: x :: S = (A ++ [u]) ++ x :: S := by simp
  have h2 : A.length + 1 = (A ++ [u]).length := by simp
  rw [h, h2, getElem?_append_cons]

theorem lessAt_adj {α : Type} (lt : α → α → Bool) (A : List α) (u x : α) (S : List α) :
    lessAt lt (A ++ u :: x :: S) (A.length + 1) A.length = lt x u := by
  simp only [lessAt, getElem?_append_cons_succ, getElem?_append_cons]

theorem swapL_adj {α : Type} (A : List α) (u x : α) (S : List α) :
    swapL (A ++ u :: x :: S) (A.length + 1) A.length = A ++ x :: u :: S := by
  simp only [swapL, getElem?_append_cons_succ, getElem?_append_cons]
  have h : A ++ u :: x :: S = (A ++ [u]) ++ x :: S := by simp
  have h2 : A.length + 1 = (A ++ [u]).length := by simp
  rw [h, h2, set_append_cons]
  have h3 : (A ++ [u]) ++ u :: S = A ++ u :: u :: S := by simp
  rw [h3, set_append_cons]

/-- Characterisation of the insertion-sort inner loop: starting at the
element `x` that sits right after the prefix `R.reverse`, the loop computes
the functional insert `insRev`. -/
theorem insInner_eq : ∀ (R : List Nat) (fuel : Nat) (x : Nat) (S : List Nat),
    R.length ≤ fuel →
    insInner natLt fuel (R.reverse ++ x :: S) 0 R.length = (insRev x R).reverse ++ S := by
  intro R
  induction R with
  | nil =>
    intro fuel x S _
    cases fuel with
    | zero => rfl
    | succ f => simp [insInner, insRev]
  | cons u R ih =>
    intro fuel x S hfuel
    cases fuel with
    | zero => simp at hfuel
    | succ f =>
      have hR : (u :: R).reverse ++ x :: S = R.reverse ++ u :: x :: S := by simp
      have hj : (u :: R).length = R.length + 1 := by simp
      rw [hR, hj]
      have hla : lessAt natLt (R.reverse ++ u :: x :: S) (R.length + 1) R.length = natLt x u := by
        simpa using lessAt_adj natLt R.reverse u x S
      have hsw : swapL (R.reverse ++ u :: x :: S) (R.length + 1) R.length =
          R.reverse ++ x :: u :: S := by
        simpa using swapL_adj R.reverse u x S
      simp only [insInner, Nat.add_sub_cancel, hla, hsw]
      by_cases hx : natLt x u = true
      · have hf : R.length ≤ f := by simp at hfuel; omega
        simp only [hx, Nat.zero_lt_succ, true_and, if_true, ih f x (u :: S) hf]
        simp [insRev, hx]
      · simp only [hx, and_false, if_false]
        simp [insRev, hx]

theorem mem_insRev : ∀ (R : List Nat) (x z : Nat), z ∈ insRev x R → z = x ∨ z ∈ R := by
  intro R
  induction R with
  | nil => intro x z h; simp [insRev] at h; exact Or.inl h
  | cons u R ih =>
    intro x z h
    simp only [insRev] at h
    split at h
    · rcases List.mem_cons.mp h with h1 | h2
      · exact Or.inr (by simp [h1])
      · rcases ih x z h2 with h3 | h4
        · exact Or.inl h3
        · exact Or.inr (List.mem_cons_of_mem u h4)
    · rcases List.mem_cons.mp h with h1 | h2
      · exact Or.inl h1
      · exact Or.inr h2

theorem insRev_pairwise : ∀ (R : List Nat) (x : Nat),
    R.Pairwise (fun a b => b ≤ a) → (insRev x R).Pairwise (fun a b => b ≤ a) := by
  intro R
  induction R with
  | nil => intro x _; simp [insRev]
  | cons u R ih =>
    intro x hp
    rcases List.pairwise_cons.mp hp with ⟨hu, hR⟩
    simp only [insRev]
    by_cases hx : natLt x u = true
    · simp only [hx, if_true]
      refine List.pairwise_cons.mpr ⟨?_, ih x hR⟩
      intro z hz
      rcases mem_insRev R x z hz with h1 | h2
      · subst h1
        simp only [natLt, decide_eq_true_eq] at hx
        omega
      · exact hu z h2
    · simp only [hx, if_false]
      refine List.pairwise_cons.mpr ⟨?_, hp⟩
      intro z hz
      simp only [natLt, decide_eq_true_eq] at hx
      rcases List.mem_cons.mp hz with h1 | h2
      · subst h1; omega
      · exact Nat.le_trans (hu z h2) (by omega)

theorem insRev_length : ∀ (R : List Nat) (x : Nat), (insRev x R).length = R.length + 1 := by
  intro R
  induction R with
  | nil => intro x; rfl
  | cons u R ih =>
    intro x
    simp only [insRev]
    split
    · simp [ih x]
    · simp

/-- The insertion-sort outer loop, run from an already-sorted prefix `P`,
produces a sorted list. -/
theorem insOuter_sorted : ∀ (S P : List Nat) (fuel : Nat),
    S.length + 1 ≤ fuel → P.Pairwise (fun a b => a ≤ b) →
    (insOuter natLt fuel (P ++ S) 0 (P.length + S.length) P.length).Pairwise
      (fun a b => a ≤ b) := by
  intro S
  induction S with
  | nil =>
    intro P fuel hfuel hp
    cases fuel with
    | zero => omega
    | succ f => simpa [insOuter] using hp
  | cons x S ih =>
    intro P fuel hfuel hp
    cases fuel with
    | zero => omega
    | succ f =>
      have hcond : P.length < P.length + (x :: S).length := by simp
      simp only [insOuter, hcond, if_true]
      have hinner : insInner natLt P.length (P ++ x :: S) 0 P.length =
          (insRev x P.reverse).reverse ++ S := by
        have := insInner_eq P.reverse P.length x S (by simp)
        simpa using this
      rw [hinner]
      have hq : ((insRev x P.reverse).reverse).Pairwise (fun a b => a ≤ b) := by
        rw [List.pairwise_reverse]
        exact insRev_pairwise P.reverse x (List.pairwise_reverse.mpr (by simpa using hp))
      have hlen : ((insRev x P.reverse).reverse).length = P.length + 1 := by
        simp [insRev_length]
      have hb : P.length + (x :: S).length =
          ((insRev x P.reverse).reverse).length + S.length := by
        simp only [hlen, List.length_cons]
        omega
      have hi : P.length + 1 = ((insRev x P.reverse).reverse).length := by
        simp [hlen]
      rw [hb, hi]
      exact ih _ f (by simpa using hfuel) hq

/-- `insertionSort(data, 0, n)` sorts any list of `n` elements. -/
theorem insertionSortGo_sorted (l : List Nat) :
    (insertionSortGo natLt l 0 l.length).Pairwise (fun a b => a ≤ b) := by
  cases l with
  | nil => simp [insertionSortGo, insOuter]
  | cons y rest =>
    have h := insOuter_sorted rest [y] ((y :: rest).length + 1) (by simp) (by simp)
    simp only [insertionSortGo]
    simpa [Nat.add_comm] using h

/-- On ranges of at most 12 elements (directory listings of at most 12
entries), `sort.Sort` takes the shell-pass/insertion-sort path, which
sorts. -/
theorem sortGo_sorted_le12 (l : List Nat) (h : l.length ≤ 12) :
    (sortGo natLt l).Pairwise (fun a b => a ≤ b) := by
  by_cases h1 : l.length > 1
  · have h12 : ¬ (l.length - 0 > 12) := by omega
    have h1b : l.length - 0 > 1 := by omega
    simp only [sortGo, quickSortGo, h12, if_false, h1b, if_true]
    set l2 := shellGo natLt (l.length+1) l l.length (0+6) with hl2
    have hlen : l2.length = l.length :=
      (shellGo_perm natLt (l.length+1) l l.length (0+6)).length_eq
    rw [← hlen]
    exact insertionSortGo_sorted l2
  · have h12 : ¬ (l.length - 0 > 12) := by omega
    have h1b : ¬ (l.length - 0 > 1) := by omega
    simp only [sortGo, quickSortGo, h12, if_false, h1b]
    match l, h1 with
    | [], _ => simp
    | [x], _ => simp
    | x :: y :: r, h1 => simp at h1

/-- `Ls` and the rank of its entries commute. -/
theorem Ls_map_rank (es : FList) :
    (Ls es).map entRank = sortGo natLt (es.toList.map entRank) :=
  sortGo_map entRank entryLess natLt (fun _ _ => rfl) es.toList

/-- For listings of at most 12 entries, `Ls` puts every directory before
every file. -/
theorem Ls_dirsFirst (es : FList) (h : es.toList.length ≤ 12) :
    (Ls es).Pairwise (fun x y => entRank x ≤ entRank y) := by
  have hm : ((Ls es).map entRank).Pairwise (fun a b => a ≤ b) := by
    rw [Ls_map_rank]
    exact sortGo_sorted_le12 _ (by simpa using h)
  exact (List.pairwise_map).mp hm


/-! ## Pointwise view, sorted ranges, range permutations -/

/-- The value at index `i`, defaulting to 0 out of range. -/
def gD (l : List Nat) (i : Nat) : Nat := (l[i]?).getD 0

/-- The slice `[lo, hi)` of a list. -/
def segN (l : List Nat) (lo hi : Nat) : List Nat := (l.drop lo).take (hi - lo)

/-- The range `[lo, hi)` is sorted. -/
def SortedRange (l : List Nat) (lo hi : Nat) : Prop :=
  ∀ i j, lo ≤ i → i ≤ j → j < hi → gD l i ≤ gD l j

/-- `l'` is `l` with the range `[lo, hi)` permuted and everything else
untouched. -/
def RPerm (l l' : List Nat) (lo hi : Nat) : Prop :=
  l'.length = l.length ∧ (∀ k, k < lo ∨ hi ≤ k → gD l' k = gD l k) ∧
    List.Perm (segN l' lo hi) (segN l lo hi)

theorem gD_eq_getElem (l : List Nat) (i : Nat) (h : i < l.length) : gD l i = l[i] := by
  simp [gD, List.getElem?_eq_getElem h]

theorem ext_gD (l l' : List Nat) (hlen : l.length = l'.length)
    (h : ∀ k, k < l.length → gD l k = gD l' k) : l = l' := by
  apply List.ext_getElem hlen
  intro i h1 h2
  have := h i h1
  rwa [gD_eq_getElem _ _ h1, gD_eq_getElem _ _ h2] at this

theorem lessAt_natLt_true {l : List Nat} {i j : Nat} (h : lessAt natLt l i j = true) :
    i < l.length ∧ j < l.length ∧ gD l i < gD l j := by
  unfold lessAt at h
  cases hi : l[i]? with
  | none => rw [hi] at h; cases l[j]? <;> simp at h
  | some x =>
    cases hj : l[j]? with
    | none => rw [hi, hj] at h; simp at h
    | some y =>
      rw [hi, hj] at h
      simp only [natLt, decide_eq_true_eq] at h
      refine ⟨?_, ?_, ?_⟩
      · by_contra hc
        rw [List.getElem?_eq_none (Nat.le_of_not_lt hc)] at hi
        cases hi
      · by_contra hc
        rw [List.getElem?_eq_none (Nat.le_of_not_lt hc)] at hj
        cases hj
      · simpa [gD, hi, hj] using h

theorem lessAt_natLt_eq {l : List Nat} {i j : Nat} (hi : i < l.length) (hj : j < l.length) :
    lessAt natLt l i j = decide (gD l i < gD l j) := by
  unfold lessAt
  rw [List.getElem?_eq_getElem hi, List.getElem?_eq_getElem hj]
  rw [gD_eq_getElem _ _ hi, gD_eq_getElem _ _ hj]
  rfl

theorem lessAt_natLt_false {l : List Nat} {i j : Nat} (hi : i < l.length) (hj : j < l.length)
    (h : lessAt natLt l i j = false) : gD l j ≤ gD l i := by
  rw [lessAt_natLt_eq hi hj] at h
  simp at h
  omega

theorem swapL_length {α : Type} (l : List α) (i j : Nat) : (swapL l i j).length = l.length := by
  unfold swapL
  cases l[i]? <;> cases l[j]? <;> simp

theorem swapL_gD {l : List Nat} {i j : Nat} (hi : i < l.length) (hj : j < l.length) (k : Nat) :
    gD (swapL l i j) k = if k = i then gD l j else if k = j then gD l i else gD l k := by
  unfold swapL
  rw [List.getElem?_eq_getElem hi, List.getElem?_eq_getElem hj]
  simp only [gD]
  by_cases hki : k = i
  · subst hki
    by_cases hkj : k = j
    · subst hkj
      simp [List.getElem?_set_self, hj, List.getElem?_eq_getElem hj, List.getElem?_eq_getElem hi]
    · rw [List.getElem?_set_ne (fun h => hkj h.symm)]
      simp [List.getElem?_set_self, hi, List.getElem?_eq_getElem hi, List.getElem?_eq_getElem hj]
  · by_cases hkj : k = j
    · subst hkj
      simp [List.getElem?_set_self, List.length_set, hj, hki, List.getElem?_eq_getElem hi,
        List.getElem?_eq_getElem hj]
    · rw [List.getElem?_set_ne (fun h => hkj h.symm), List.getElem?_set_ne (fun h => hki h.symm)]
      simp [hki, hkj]

theorem segN_getElem? (l : List Nat) (lo hi k : Nat) (hk : k < hi - lo) :
    (segN l lo hi)[k]? = l[lo + k]? := by
  unfold segN
  rw [List.getElem?_take, if_pos hk, List.getElem?_drop]

theorem segN_length (l : List Nat) (lo hi : Nat) (hhi : hi ≤ l.length) (hlo : lo ≤ hi) :
    (segN l lo hi).length = hi - lo := by
  unfold segN
  rw [List.length_take, List.length_drop]
  omega

theorem segN_decomp (l : List Nat) (lo hi : Nat) (h : lo ≤ hi) :
    l = l.take lo ++ segN l lo hi ++ l.drop hi := by
  unfold segN
  rw [List.append_assoc]
  conv_lhs => rw [← List.take_append_drop lo l]
  congr 1
  have : l.drop hi = (l.drop lo).drop (hi - lo) := by
    rw [List.drop_drop]
    congr 1
    omega
  rw [this, List.take_append_drop]

theorem take_eq_of_frame (l l' : List Nat) (lo : Nat) (hlen : l'.length = l.length)
    (h : ∀ k, k < lo → gD l' k = gD l k) : l'.take lo = l.take lo := by
  apply ext_gD
  · rw [List.length_take, List.length_take, hlen]
  · intro k hk
    rw [List.length_take] at hk
    have hk1 : k < lo := lt_of_lt_of_le hk (min_le_left _ _)
    have hk2 : k < l'.length := lt_of_lt_of_le hk (min_le_right _ _)
    have hgd : ∀ (m : List Nat), k < m.length → gD (m.take lo) k = gD m k := by
      intro m hm
      simp [gD, List.getElem?_take, hk1]
    rw [hgd l' hk2, hgd l (by omega), h k hk1]

theorem drop_eq_of_frame (l l' : List Nat) (hi : Nat) (hlen : l'.length = l.length)
    (h : ∀ k, hi ≤ k → gD l' k = gD l k) : l'.drop hi = l.drop hi := by
  apply ext_gD
  · rw [List.length_drop, List.length_drop, hlen]
  · intro k hk
    have hgd : ∀ (m : List Nat), gD (m.drop hi) k = gD m (hi + k) := by
      intro m
      simp [gD, List.getElem?_drop]
    rw [hgd l', hgd l, h (hi + k) (by omega)]

theorem rperm_of_global (l l' : List Nat) (lo hi : Nat) (hlo : lo ≤ hi)
    (hlen : l'.length = l.length) (hperm : List.Perm l' l)
    (hframe : ∀ k, k < lo ∨ hi ≤ k → gD l' k = gD l k) : RPerm l l' lo hi := by
  refine ⟨hlen, hframe, ?_⟩
  have hd : l = l.take lo ++ segN l lo hi ++ l.drop hi := segN_decomp l lo hi hlo
  have hd' : l' = l'.take lo ++ segN l' lo hi ++ l'.drop hi := segN_decomp l' lo hi hlo
  have ht : l'.take lo = l.take lo :=
    take_eq_of_frame l l' lo hlen (fun k hk => hframe k (Or.inl hk))
  have hdr : l'.drop hi = l.drop hi :=
    drop_eq_of_frame l l' hi hlen (fun k hk => hframe k (Or.inr hk))
  have hp := hperm
  rw [hd, hd'] at hp
  rw [ht, hdr] at hp
  rw [List.append_assoc, List.append_assoc] at hp
  have hp2 := (List.perm_append_left_iff _).mp hp
  exact (List.perm_append_right_iff _).mp hp2

theorem RPerm.global {l l' : List Nat} {lo hi : Nat} (h : RPerm l l' lo hi) (hlo : lo ≤ hi) :
    List.Perm l' l := by
  obtain ⟨hlen, hframe, hseg⟩ := h
  have hd : l = l.take lo ++ segN l lo hi ++ l.drop hi := segN_decomp l lo hi hlo
  have hd' : l' = l'.take lo ++ segN l' lo hi ++ l'.drop hi := segN_decomp l' lo hi hlo
  have ht : l'.take lo = l.take lo :=
    take_eq_of_frame l l' lo hlen (fun k hk => hframe k (Or.inl hk))
  have hdr : l'.drop hi = l.drop hi :=
    drop_eq_of_frame l l' hi hlen (fun k hk => hframe k (Or.inr hk))
  conv_lhs => rw [hd']
  conv_rhs => rw [hd]
  rw [ht, hdr]
  rw [List.append_assoc, List.append_assoc]
  exact ((hseg.append_right _).append_left _)

theorem RPerm.refl (l : List Nat) (lo hi : Nat) : RPerm l l lo hi :=
  ⟨rfl, fun _ _ => rfl, List.Perm.refl _⟩

theorem RPerm.trans {l l' l'' : List Nat} {lo hi : Nat}
    (h1 : RPerm l l' lo hi) (h2 : RPerm l' l'' lo hi) : RPerm l l'' lo hi :=
  ⟨h2.1.trans h1.1, fun k hk => (h2.2.1 k hk).trans (h1.2.1 k hk), h2.2.2.trans h1.2.2⟩

theorem RPerm.extend {l l' : List Nat} {lo' hi' : Nat} (lo hi : Nat)
    (h : RPerm l l' lo' hi') (hlo : lo ≤ lo') (hmid : lo' ≤ hi') (hhi : hi' ≤ hi) :
    RPerm l l' lo hi := by
  refine rperm_of_global l l' lo hi (by omega) h.1 (h.global hmid) ?_
  intro k hk
  exact h.2.1 k (by omega)

theorem gD_mem_segN {l : List Nat} {lo hi i : Nat} (hlo : lo ≤ i) (hi2 : i < hi)
    (hhi : hi ≤ l.length) : gD l i ∈ segN l lo hi := by
  have hk : i - lo < hi - lo := by omega
  have := segN_getElem? l lo hi (i - lo) hk
  rw [show lo + (i - lo) = i by omega] at this
  have hil : i < l.length := by omega
  rw [List.getElem?_eq_getElem hil] at this
  have hmem := List.getElem?_mem this
  rwa [gD_eq_getElem _ _ hil]

theorem mem_segN {l : List Nat} {lo hi : Nat} {v : Nat} (h : v ∈ segN l lo hi) :
    ∃ i, lo ≤ i ∧ i < hi ∧ gD l i = v := by
  obtain ⟨k, hk, hv⟩ := List.getElem_of_mem h
  have hk2 : k < hi - lo := by
    have : (segN l lo hi).length ≤ hi - lo := by
      unfold segN
      exact le_trans (List.length_take_le _ _) (Nat.le_refl _)
    omega
  have := segN_getElem? l lo hi k hk2
  rw [List.getElem?_eq_getElem hk] at this
  refine ⟨lo + k, by omega, by omega, ?_⟩
  rw [gD, ← this, hv]
  rfl

theorem RPerm.bound {l l' : List Nat} {lo hi : Nat} (h : RPerm l l' lo hi)
    (hhi : hi ≤ l.length) (P : Nat → Prop) (hP : ∀ i, lo ≤ i → i < hi → P (gD l i)) :
    ∀ i, lo ≤ i → i < hi → P (gD l' i) := by
  intro i hlo hi2
  have hmem : gD l' i ∈ segN l' lo hi := gD_mem_segN hlo hi2 (by rw [h.1]; exact hhi)
  have hmem2 : gD l' i ∈ segN l lo hi := h.2.2.subset hmem
  obtain ⟨j, hj1, hj2, hj3⟩ := mem_segN hmem2
  rw [← hj3]
  exact hP j hj1 hj2

theorem swapL_RPerm {l : List Nat} {lo hi i j : Nat} (hi1 : lo ≤ i) (hi2 : i < hi)
    (hj1 : lo ≤ j) (hj2 : j < hi) (hhi : hi ≤ l.length) : RPerm l (swapL l i j) lo hi := by
  have hil : i < l.length := by omega
  have hjl : j < l.length := by omega
  refine rperm_of_global l _ lo hi (by omega) (swapL_length l i j) (swapL_perm l i j) ?_
  intro k hk
  rw [swapL_gD hil hjl]
  rw [if_neg (by omega), if_neg (by omega)]

/-! ## Insertion sort sorts any range -/

/-- Glue for the insertion inner-loop invariant: the sorted prefix, the
shifted sorted suffix, and the bridges around the moving element combine
into sortedness of the whole range. -/
theorem sorted_glue (l : List Nat) (a j i : Nat) (haj : a ≤ j) (hji : j ≤ i)
    (hA : SortedRange l a j) (hB : SortedRange l (j+1) (i+1))
    (hC : j < i → gD l j < gD l (j+1))
    (hD : ∀ p, a ≤ p → p < j → j < i → gD l p ≤ gD l (j+1))
    (hbridge : a < j → gD l (j-1) ≤ gD l j) :
    SortedRange l a (i+1) := by
  intro p q hp hpq hq
  by_cases hpj : p < j
  · by_cases hqj : q < j
    · exact hA p q hp hpq hqj
    · by_cases hqj2 : q = j
      · subst hqj2
        have h1 : gD l p ≤ gD l (q-1) := by
          by_cases hpq1 : p = q - 1
          · subst hpq1; exact Nat.le_refl _
          · exact hA p (q-1) hp (by omega) (by omega)
        have h2 := hbridge (by omega)
        omega
      · have hji2 : j < i := by omega
        have h1 := hD p hp hpj hji2
        have h2 : gD l (j+1) ≤ gD l q := hB (j+1) q (Nat.le_refl _) (by omega) hq
        omega
  · by_cases hpj2 : p = j
    · subst hpj2
      by_cases hqj2 : q = p
      · subst hqj2; exact Nat.le_refl _
      · have hji2 : p < i := by omega
        have h1 := hC hji2
        have h2 : gD l (p+1) ≤ gD l q := hB (p+1) q (Nat.le_refl _) (by omega) hq
        omega
    · exact hB p q (by omega) hpq hq

theorem insInner_spec : ∀ (fuel : Nat) (l : List Nat) (a j i : Nat),
    i < l.length → a ≤ j → j ≤ i → j - a ≤ fuel →
    SortedRange l a j →
    SortedRange l (j+1) (i+1) →
    (j < i → gD l j < gD l (j+1)) →
    (∀ p, a ≤ p → p < j → j < i → gD l p ≤ gD l (j+1)) →
    SortedRange (insInner natLt fuel l a j) a (i+1) ∧
      RPerm l (insInner natLt fuel l a j) a (i+1) := by
  intro fuel
  induction fuel with
  | zero =>
    intro l a j i hi haj hji hfuel hA hB hC hD
    have hja : j = a := by omega
    refine ⟨?_, RPerm.refl _ _ _⟩
    refine sorted_glue l a j i haj hji hA hB hC hD ?_
    intro hcontra
    exact absurd hcontra (by omega)
  | succ f ih =>
    intro l a j i hi haj hji hfuel hA hB hC hD
    simp only [insInner]
    by_cases hcond : a < j ∧ lessAt natLt l j (j-1) = true
    · rw [if_pos (by exact ⟨hcond.1, hcond.2⟩)]
      obtain ⟨haj2, hlt⟩ := hcond
      obtain ⟨hjlen, hj1len, hval⟩ := lessAt_natLt_true hlt
      have hg : ∀ k, gD (swapL l j (j-1)) k =
          if k = j then gD l (j-1) else if k = j-1 then gD l j else gD l k :=
        swapL_gD hjlen hj1len
      have hA' : SortedRange (swapL l j (j-1)) a (j-1) := by
        intro p q hp hpq hq
        rw [hg p, hg q, if_neg (by omega), if_neg (by omega), if_neg (by omega),
          if_neg (by omega)]
        exact hA p q hp hpq (by omega)
      have hB' : SortedRange (swapL l j (j-1)) ((j-1)+1) (i+1) := by
        intro p q hp hpq hq
        rw [show j - 1 + 1 = j by omega] at hp
        rw [hg p, hg q]
        by_cases hpj : p = j
        · subst hpj
          rw [if_pos rfl]
          by_cases hqj : q = p
          · subst hqj
            rw [if_pos rfl]
          · rw [if_neg hqj, if_neg (by omega)]
            have h1 : gD l (p-1) ≤ gD l (p+1) := hD (p-1) (by omega) (by omega) (by omega)
            have h2 : gD l (p+1) ≤ gD l q := hB (p+1) q (Nat.le_refl _) (by omega) hq
            omega
        · rw [if_neg hpj, if_neg (by omega), if_neg (by omega), if_neg (by omega)]
          exact hB p q (by omega) hpq hq
      have hC' : j-1 < i → gD (swapL l j (j-1)) (j-1) < gD (swapL l j (j-1)) ((j-1)+1) := by
        intro _
        rw [show j - 1 + 1 = j by omega, hg (j-1), hg j, if_neg (by omega), if_pos rfl,
          if_pos rfl]
        exact hval
      have hD' : ∀ p, a ≤ p → p < j-1 → j-1 < i →
          gD (swapL l j (j-1)) p ≤ gD (swapL l j (j-1)) ((j-1)+1) := by
        intro p hp hpj _
        rw [show j - 1 + 1 = j by omega, hg p, hg j, if_neg (by omega), if_neg (by omega),
          if_pos rfl]
        exact hA p (j-1) hp (by omega) (by omega)
      have hres := ih (swapL l j (j-1)) a (j-1) i (by rw [swapL_length]; exact hi)
        (by omega) (by omega) (by omega) hA' hB' hC' hD'
      refine ⟨hres.1, ?_⟩
      exact (swapL_RPerm (by omega) (by omega) (by omega) (by omega) (by omega)).trans hres.2
    · rw [if_neg hcond]
      refine ⟨?_, RPerm.refl _ _ _⟩
      refine sorted_glue l a j i haj hji hA hB hC hD ?_
      intro haj2
      rcases Decidable.not_and_iff_or_not.mp hcond with hc1 | hc2
      · omega
      · have hjlen : j < l.length := by omega
        have hj1len : j - 1 < l.length := by omega
        exact lessAt_natLt_false hjlen hj1len (by simpa using hc2)

theorem insOuter_spec : ∀ (fuel : Nat) (l : List Nat) (a b i : Nat),
    b ≤ l.length → a + 1 ≤ i → b - i ≤ fuel → SortedRange l a i →
    SortedRange (insOuter natLt fuel l a b i) a b ∧
      RPerm l (insOuter natLt fuel l a b i) a b := by
  intro fuel
  induction fuel with
  | zero =>
    intro l a b i hb hai hfuel hS
    refine ⟨fun p q hp hpq hq => hS p q hp hpq (by omega), RPerm.refl _ _ _⟩
  | succ f ih =>
    intro l a b i hb hai hfuel hS
    simp only [insOuter]
    by_cases hib : i < b
    · rw [if_pos hib]
      have hinner := insInner_spec i l a i i (by omega) (by omega) (Nat.le_refl _) (by omega)
        hS (fun p q hp hpq hq => by omega) (fun h => absurd h (by omega))
        (fun p _ _ h => absurd h (by omega))
      have houter := ih (insInner natLt i l a i) a b (i+1)
        (by rw [hinner.2.1]; exact hb) (by omega) (by omega) hinner.1
      refine ⟨houter.1, ?_⟩
      exact ((hinner.2.extend a b (Nat.le_refl _) (by omega) (by omega)).trans houter.2)
    · rw [if_neg hib]
      refine ⟨fun p q hp hpq hq => hS p q hp hpq (by omega), RPerm.refl _ _ _⟩

theorem insertionSortGo_spec (l : List Nat) (a b : Nat) (hb : b ≤ l.length) :
    SortedRange (insertionSortGo natLt l a b) a b ∧
      RPerm l (insertionSortGo natLt l a b) a b := by
  unfold insertionSortGo
  refine insOuter_spec (b+1) l a b (a+1) hb (Nat.le_refl _) (by omega) ?_
  intro p q hp hpq hq
  have hpq2 : p = q := by omega
  subst hpq2
  exact Nat.le_refl _

/-! ## The shell pass permutes its range -/

theorem shellGo_spec : ∀ (fuel : Nat) (l : List Nat) (b i lo : Nat),
    b ≤ l.length → lo + 6 ≤ i →
    RPerm l (shellGo natLt fuel l b i) lo b := by
  intro fuel
  induction fuel with
  | zero => intro l b i lo _ _; exact RPerm.refl _ _ _
  | succ f ih =>
    intro l b i lo hb hlo
    simp only [shellGo]
    by_cases hib : i < b
    · rw [if_pos hib]
      by_cases hsw : lessAt natLt l i (i-6) = true
      · rw [if_pos hsw]
        have h1 : RPerm l (swapL l i (i-6)) lo b :=
          swapL_RPerm (by omega) (by omega) (by omega) (by omega) hb
        exact h1.trans (ih (swapL l i (i-6)) b (i+1) lo (by rw [swapL_length]; exact hb)
          (by omega))
      · rw [if_neg hsw]
        exact ih l b (i+1) lo hb (by omega)
    · rw [if_neg hib]
      exact RPerm.refl _ _ _

/-! ## `doPivot` partitions its range -/

theorem condSwap_RPerm (x : List Nat) (i j lo hi : Nat) (hi1 : lo ≤ i) (hi2 : i < hi)
    (hj1 : lo ≤ j) (hj2 : j < hi) (hx : hi ≤ x.length) :
    RPerm x (if lessAt natLt x i j = true then swapL x i j else x) lo hi := by
  split
  · exact swapL_RPerm hi1 hi2 hj1 hj2 hx
  · exact RPerm.refl _ _ _

theorem medianOfThree_RPerm (l : List Nat) (m1 m0 m2 lo hi : Nat)
    (h1 : lo ≤ m1) (h1' : m1 < hi) (h0 : lo ≤ m0) (h0' : m0 < hi)
    (h2 : lo ≤ m2) (h2' : m2 < hi) (hhi : hi ≤ l.length) :
    RPerm l (medianOfThree natLt l m1 m0 m2) lo hi := by
  unfold medianOfThree
  have s1 := condSwap_RPerm l m1 m0 lo hi h1 h1' h0 h0' hhi
  set l1 := if lessAt natLt l m1 m0 = true then swapL l m1 m0 else l with hl1
  have hlen1 : hi ≤ l1.length := by rw [s1.1]; exact hhi
  by_cases c2 : lessAt natLt l1 m2 m1 = true
  · rw [if_pos c2]
    have s2 : RPerm l1 (swapL l1 m2 m1) lo hi := swapL_RPerm h2 h2' h1 h1' hlen1
    have hlen2 : hi ≤ (swapL l1 m2 m1).length := by rw [s2.1]; exact hlen1
    have s3 := condSwap_RPerm (swapL l1 m2 m1) m1 m0 lo hi h1 h1' h0 h0' hlen2
    exact s1.trans (s2.trans s3)
  · rw [if_neg c2]
    exact s1

theorem medianOfThree_tail (x : List Nat) (m1 m0 m2 : Nat)
    (hm1 : m1 < x.length) (hm0 : m0 < x.length) (hm2 : m2 < x.length)
    (h01 : m0 ≠ m1) (h12 : m1 ≠ m2) (h02 : m0 ≠ m2)
    (hbase : gD x m0 ≤ gD x m1) :
    gD (if lessAt natLt x m2 m1 = true then
          (if lessAt natLt (swapL x m2 m1) m1 m0 = true then swapL (swapL x m2 m1) m1 m0
            else swapL x m2 m1)
        else x) m0 ≤
      gD (if lessAt natLt x m2 m1 = true then
          (if lessAt natLt (swapL x m2 m1) m1 m0 = true then swapL (swapL x m2 m1) m1 m0
            else swapL x m2 m1)
        else x) m1 ∧
    gD (if lessAt natLt x m2 m1 = true then
          (if lessAt natLt (swapL x m2 m1) m1 m0 = true then swapL (swapL x m2 m1) m1 m0
            else swapL x m2 m1)
        else x) m1 ≤
      gD (if lessAt natLt x m2 m1 = true then
          (if lessAt natLt (swapL x m2 m1) m1 m0 = true then swapL (swapL x m2 m1) m1 m0
            else swapL x m2 m1)
        else x) m2 := by
  by_cases c2 : lessAt natLt x m2 m1 = true
  · rw [if_pos c2]
    have v2 : gD x m2 < gD x m1 := (lessAt_natLt_true c2).2.2
    have hgy : ∀ k, gD (swapL x m2 m1) k =
        if k = m2 then gD x m1 else if k = m1 then gD x m2 else gD x k := swapL_gD hm2 hm1
    have hylen : (swapL x m2 m1).length = x.length := swapL_length x m2 m1
    have e1 : gD (swapL x m2 m1) m1 = gD x m2 := by rw [hgy m1, if_neg h12, if_pos rfl]
    have e2 : gD (swapL x m2 m1) m0 = gD x m0 := by rw [hgy m0, if_neg h02, if_neg h01]
    have e3 : gD (swapL x m2 m1) m2 = gD x m1 := by rw [hgy m2, if_pos rfl]
    by_cases c3 : lessAt natLt (swapL x m2 m1) m1 m0 = true
    · rw [if_pos c3]
      have v3 : gD (swapL x m2 m1) m1 < gD (swapL x m2 m1) m0 := (lessAt_natLt_true c3).2.2
      rw [e1, e2] at v3
      have hgz : ∀ k, gD (swapL (swapL x m2 m1) m1 m0) k =
          if k = m1 then gD (swapL x m2 m1) m0 else if k = m0 then gD (swapL x m2 m1) m1
          else gD (swapL x m2 m1) k :=
        swapL_gD (by rw [hylen]; exact hm1) (by rw [hylen]; exact hm0)
      have f1 : gD (swapL (swapL x m2 m1) m1 m0) m1 = gD (swapL x m2 m1) m0 := by
        rw [hgz m1, if_pos rfl]
      have f2 : gD (swapL (swapL x m2 m1) m1 m0) m0 = gD (swapL x m2 m1) m1 := by
        rw [hgz m0, if_neg h01, if_pos rfl]
      have f3 : gD (swapL (swapL x m2 m1) m1 m0) m2 = gD (swapL x m2 m1) m2 := by
        rw [hgz m2, if_neg (Ne.symm h12), if_neg (Ne.symm h02)]
      constructor
      · rw [f2, f1, e1, e2]
        omega
      · rw [f1, f3, e2, e3]
        omega
    · rw [if_neg c3]
      have v3 : gD (swapL x m2 m1) m0 ≤ gD (swapL x m2 m1) m1 :=
        lessAt_natLt_false (by rw [hylen]; exact hm1) (by rw [hylen]; exact hm0)
          (by simpa using c3)
      refine ⟨v3, ?_⟩
      rw [e1, e3]
      omega
  · rw [if_neg c2]
    have v2 : gD x m1 ≤ gD x m2 := lessAt_natLt_false hm2 hm1 (by simpa using c2)
    exact ⟨hbase, v2⟩

theorem medianOfThree_order (l : List Nat) (m1 m0 m2 : Nat)
    (hm1 : m1 < l.length) (hm0 : m0 < l.length) (hm2 : m2 < l.length)
    (h01 : m0 ≠ m1) (h12 : m1 ≠ m2) (h02 : m0 ≠ m2) :
    gD (medianOfThree natLt l m1 m0 m2) m0 ≤ gD (medianOfThree natLt l m1 m0 m2) m1 ∧
      gD (medianOfThree natLt l m1 m0 m2) m1 ≤ gD (medianOfThree natLt l m1 m0 m2) m2 := by
  unfold medianOfThree
  by_cases c1 : lessAt natLt l m1 m0 = true
  · rw [if_pos c1]
    have v1 : gD l m1 < gD l m0 := (lessAt_natLt_true c1).2.2
    have hg1 : ∀ k, gD (swapL l m1 m0) k =
        if k = m1 then gD l m0 else if k = m0 then gD l m1 else gD l k := swapL_gD hm1 hm0
    have hlen1 : (swapL l m1 m0).length = l.length := swapL_length l m1 m0
    refine medianOfThree_tail (swapL l m1 m0) m1 m0 m2 (by rw [hlen1]; exact hm1)
      (by rw [hlen1]; exact hm0) (by rw [hlen1]; exact hm2) h01 h12 h02 ?_
    rw [hg1 m0, hg1 m1, if_neg h01, if_pos rfl, if_pos rfl]
    omega
  · rw [if_neg c1]
    have v1 : gD l m0 ≤ gD l m1 := lessAt_natLt_false hm1 hm0 (by simpa using c1)
    exact medianOfThree_tail l m1 m0 m2 hm1 hm0 hm2 h01 h12 h02 v1

theorem scanA_spec : ∀ (fuel : Nat) (l : List Nat) (a c pv : Nat),
    a ≤ c → c - a ≤ fuel →
    a ≤ scanA natLt fuel l a c pv ∧ scanA natLt fuel l a c pv ≤ c ∧
    (∀ k, a ≤ k → k < scanA natLt fuel l a c pv → lessAt natLt l k pv = true) ∧
    (scanA natLt fuel l a c pv < c → lessAt natLt l (scanA natLt fuel l a c pv) pv = false) := by
  intro fuel
  induction fuel with
  | zero =>
    intro l a c pv hac hfuel
    simp only [scanA]
    refine ⟨Nat.le_refl _, hac, fun k h1 h2 => by omega, fun h => by omega⟩
  | succ f ih =>
    intro l a c pv hac hfuel
    simp only [scanA]
    by_cases hcond : a < c ∧ lessAt natLt l a pv = true
    · rw [if_pos hcond]
      obtain ⟨hr1, hr2, hr3, hr4⟩ := ih l (a+1) c pv (by omega) (by omega)
      refine ⟨by omega, hr2, ?_, hr4⟩
      intro k h1 h2
      by_cases hk : k = a
      · subst hk; exact hcond.2
      · exact hr3 k (by omega) h2
    · rw [if_neg hcond]
      refine ⟨Nat.le_refl _, hac, fun k h1 h2 => by omega, ?_⟩
      intro hlt
      cases hb : lessAt natLt l a pv with
      | false => rfl
      | true => exact absurd ⟨hlt, hb⟩ hcond

theorem scanB_spec : ∀ (fuel : Nat) (l : List Nat) (b c pv : Nat),
    b ≤ c → c - b ≤ fuel →
    b ≤ scanB natLt fuel l b c pv ∧ scanB natLt fuel l b c pv ≤ c ∧
    (∀ k, b ≤ k → k < scanB natLt fuel l b c pv → lessAt natLt l pv k = false) ∧
    (scanB natLt fuel l b c pv < c → lessAt natLt l pv (scanB natLt fuel l b c pv) = true) := by
  intro fuel
  induction fuel with
  | zero =>
    intro l b c pv hbc hfuel
    simp only [scanB]
    refine ⟨Nat.le_refl _, hbc, fun k h1 h2 => by omega, fun h => by omega⟩
  | succ f ih =>
    intro l b c pv hbc hfuel
    simp only [scanB]
    by_cases hcond : b < c ∧ ¬ lessAt natLt l pv b = true
    · rw [if_pos hcond]
      obtain ⟨hr1, hr2, hr3, hr4⟩ := ih l (b+1) c pv (by omega) (by omega)
      refine ⟨by omega, hr2, ?_, hr4⟩
      intro k h1 h2
      by_cases hk : k = b
      · subst hk
        cases hb2 : lessAt natLt l pv k with
        | false => rfl
        | true => exact absurd hb2 hcond.2
      · exact hr3 k (by omega) h2
    · rw [if_neg hcond]
      refine ⟨Nat.le_refl _, hbc, fun k h1 h2 => by omega, ?_⟩
      intro hlt
      by_cases hb2 : lessAt natLt l pv b = true
      · exact hb2
      · exact absurd ⟨hlt, hb2⟩ hcond

theorem scanC_spec : ∀ (fuel : Nat) (l : List Nat) (b c pv : Nat),
    b ≤ c → c - b ≤ fuel →
    b ≤ scanC natLt fuel l b c pv ∧ scanC natLt fuel l b c pv ≤ c ∧
    (∀ k, scanC natLt fuel l b c pv ≤ k → k < c → lessAt natLt l pv k = true) ∧
    (b < scanC natLt fuel l b c pv → lessAt natLt l pv (scanC natLt fuel l b c pv - 1) = false) := by
  intro fuel
  induction fuel with
  | zero =>
    intro l b c pv hbc hfuel
    simp only [scanC]
    refine ⟨hbc, Nat.le_refl _, fun k h1 h2 => by omega, fun h => by omega⟩
  | succ f ih =>
    intro l b c pv hbc hfuel
    simp only [scanC]
    by_cases hcond : b < c ∧ lessAt natLt l pv (c-1) = true
    · rw [if_pos hcond]
      obtain ⟨hr1, hr2, hr3, hr4⟩ := ih l b (c-1) pv (by omega) (by omega)
      refine ⟨hr1, by omega, ?_, hr4⟩
      intro k h1 h2
      by_cases hk : k = c - 1
      · subst hk; exact hcond.2
      · exact hr3 k h1 (by omega)
    · rw [if_neg hcond]
      refine ⟨hbc, Nat.le_refl _, fun k h1 h2 => by omega, ?_⟩
      intro hlt
      by_cases hb2 : lessAt natLt l pv (c-1) = true
      · exact absurd ⟨hlt, hb2⟩ hcond
      · cases hb3 : lessAt natLt l pv (c-1) with
        | false => rfl
        | true => exact absurd hb3 hb2

theorem partLoop_spec : ∀ (fuel : Nat) (l : List Nat) (b c lo hi pv : Nat),
    hi ≤ l.length → lo + 1 ≤ b → b ≤ c → c ≤ hi - 1 → lo + 1 < hi →
    c - b ≤ fuel →
    gD l lo = pv →
    (∀ k, lo + 1 ≤ k → k < b → gD l k ≤ pv) →
    (∀ k, c ≤ k → k < hi - 1 → pv < gD l k) →
    (partLoop natLt fuel l b c lo).2.1 = (partLoop natLt fuel l b c lo).2.2 ∧
    b ≤ (partLoop natLt fuel l b c lo).2.1 ∧ (partLoop natLt fuel l b c lo).2.1 ≤ c ∧
    gD (partLoop natLt fuel l b c lo).1 lo = pv ∧
    (∀ k, lo + 1 ≤ k → k < (partLoop natLt fuel l b c lo).2.1 →
      gD (partLoop natLt fuel l b c lo).1 k ≤ pv) ∧
    (∀ k, (partLoop natLt fuel l b c lo).2.1 ≤ k → k < hi - 1 →
      pv < gD (partLoop natLt fuel l b c lo).1 k) ∧
    RPerm l (partLoop natLt fuel l b c lo).1 (lo+1) (hi-1) := by
  intro fuel
  induction fuel with
  | zero =>
    intro l b c lo hi pv hlen hb hbc hc hlohi hfuel hpv hZ1 hZ2
    have hbc2 : b = c := by omega
    subst hbc2
    simp only [partLoop]
    exact ⟨trivial, Nat.le_refl _, Nat.le_refl _, hpv, hZ1, hZ2, RPerm.refl _ _ _⟩
  | succ f ih =>
    intro l b c lo hi pv hlen hb hbc hc hlohi hfuel hpv hZ1 hZ2
    simp only [partLoop]
    obtain ⟨hB1, hB2, hB3, hB4⟩ := scanB_spec (c+1) l b c lo hbc (by omega)
    set b1 := scanB natLt (c+1) l b c lo with hb1def
    obtain ⟨hC1, hC2, hC3, hC4⟩ := scanC_spec (c+1) l b1 c lo hB2 (by omega)
    set c1 := scanC natLt (c+1) l b1 c lo with hc1def
    have hlo_len : lo < l.length := by omega
    have hZ1' : ∀ k, lo + 1 ≤ k → k < b1 → gD l k ≤ pv := by
      intro k h1 h2
      by_cases hkb : k < b
      · exact hZ1 k h1 hkb
      · have hkl : k < l.length := by omega
        have := lessAt_natLt_false hlo_len hkl (hB3 k (by omega) h2)
        omega
    have hZ2' : ∀ k, c1 ≤ k → k < hi - 1 → pv < gD l k := by
      intro k h1 h2
      by_cases hkc : c ≤ k
      · exact hZ2 k hkc h2
      · have := (lessAt_natLt_true (hC3 k h1 (by omega))).2.2
        rw [hpv] at this
        exact this
    by_cases hbreak : b1 ≥ c1
    · rw [if_pos hbreak]
      have heq : b1 = c1 := by omega
      exact ⟨heq, hB1, hB2, hpv, hZ1', by rw [heq]; exact hZ2', RPerm.refl _ _ _⟩
    · rw [if_neg hbreak]
      have hb1c1 : b1 < c1 := by omega
      have hstopB : lessAt natLt l lo b1 = true := hB4 (by omega)
      have hvb1 := (lessAt_natLt_true hstopB).2.2
      rw [hpv] at hvb1
      have hb1len : b1 < l.length := (lessAt_natLt_true hstopB).2.1
      have hstopC : lessAt natLt l lo (c1-1) = false := hC4 (by omega)
      have hc1len : c1 - 1 < l.length := by omega
      have hvc1 := lessAt_natLt_false hlo_len hc1len hstopC
      rw [hpv] at hvc1
      have hne : b1 < c1 - 1 := by
        rcases Nat.lt_or_ge b1 (c1-1) with h | h
        · exact h
        · have : b1 = c1 - 1 := by omega
          rw [this] at hvb1
          omega
      have hg : ∀ k, gD (swapL l b1 (c1-1)) k =
          if k = b1 then gD l (c1-1) else if k = c1-1 then gD l b1 else gD l k :=
        swapL_gD hb1len hc1len
      have hlen' : (swapL l b1 (c1-1)).length = l.length := swapL_length _ _ _
      have hres := ih (swapL l b1 (c1-1)) (b1+1) (c1-1) lo hi pv
        (by rw [hlen']; exact hlen) (by omega) (by omega) (by omega) hlohi (by omega)
        (by rw [hg lo, if_neg (by omega), if_neg (by omega)]; exact hpv)
        (by
          intro k h1 h2
          rw [hg k]
          by_cases hkb : k = b1
          · rw [if_pos hkb]
            exact hvc1
          · rw [if_neg hkb, if_neg (by omega)]
            exact hZ1' k h1 (by omega))
        (by
          intro k h1 h2
          rw [hg k]
          by_cases hkc : k = c1 - 1
          · rw [if_neg (by omega), if_pos hkc]
            exact hvb1
          · rw [if_neg (by omega), if_neg hkc]
            exact hZ2' k (by omega) h2)
      obtain ⟨hr1, hr2, hr3, hr4, hr5, hr6, hr7⟩ := hres
      refine ⟨hr1, by omega, by omega, hr4, hr5, hr6, ?_⟩
      exact (swapL_RPerm (by omega) (by omega) (by omega) (by omega)
        (show hi - 1 ≤ l.length by omega)).trans hr7

theorem protLoopB_spec : ∀ (fuel : Nat) (l : List Nat) (a b lo : Nat),
    b ≤ fuel →
    protLoopB natLt fuel l a b lo ≤ b ∧
    (∀ k, protLoopB natLt fuel l a b lo ≤ k → k < b → lessAt natLt l k lo = false) ∧
    (a < protLoopB natLt fuel l a b lo →
      lessAt natLt l (protLoopB natLt fuel l a b lo - 1) lo = true) ∧
    (a ≤ b → a ≤ protLoopB natLt fuel l a b lo) ∧
    (b ≤ a → protLoopB natLt fuel l a b lo = b) := by
  intro fuel
  induction fuel with
  | zero =>
    intro l a b lo hfuel
    have hb : b = 0 := by omega
    subst hb
    simp only [protLoopB]
    exact ⟨Nat.le_refl _, fun k h1 h2 => by omega, fun h => by omega, fun h => by omega,
      fun h => trivial⟩
  | succ f ih =>
    intro l a b lo hfuel
    simp only [protLoopB]
    by_cases hcond : a < b ∧ ¬ lessAt natLt l (b-1) lo = true
    · rw [if_pos hcond]
      obtain ⟨hr1, hr2, hr3, hr4, hr5⟩ := ih l a (b-1) lo (by omega)
      refine ⟨by omega, ?_, hr3, fun _ => hr4 (by omega), fun h => by omega⟩
      intro k h1 h2
      by_cases hk : k = b - 1
      · subst hk
        cases hb2 : lessAt natLt l (b-1) lo with
        | false => rfl
        | true => exact absurd hb2 hcond.2
      · exact hr2 k h1 (by omega)
    · rw [if_neg hcond]
      refine ⟨Nat.le_refl _, fun k h1 h2 => by omega, ?_, fun h => h, fun h => rfl⟩
      intro hab
      by_cases hb2 : lessAt natLt l (b-1) lo = true
      · exact hb2
      · exact absurd ⟨hab, hb2⟩ hcond

theorem protLoopA_spec : ∀ (fuel : Nat) (l : List Nat) (a b lo : Nat),
    b - a ≤ fuel →
    a ≤ protLoopA natLt fuel l a b lo ∧
    (a ≤ b → protLoopA natLt fuel l a b lo ≤ b) ∧
    (∀ k, a ≤ k → k < protLoopA natLt fuel l a b lo → lessAt natLt l k lo = true) ∧
    (protLoopA natLt fuel l a b lo < b →
      lessAt natLt l (protLoopA natLt fuel l a b lo) lo = false) := by
  intro fuel
  induction fuel with
  | zero =>
    intro l a b lo hfuel
    simp only [protLoopA]
    exact ⟨Nat.le_refl _, fun h => by omega, fun k h1 h2 => by omega, fun h => by omega⟩
  | succ f ih =>
    intro l a b lo hfuel
    simp only [protLoopA]
    by_cases hcond : a < b ∧ lessAt natLt l a lo = true
    · rw [if_pos hcond]
      obtain ⟨hr1, hr2, hr3, hr4⟩ := ih l (a+1) b lo (by omega)
      refine ⟨by omega, fun _ => hr2 (by omega), ?_, hr4⟩
      intro k h1 h2
      by_cases hk : k = a
      · subst hk; exact hcond.2
      · exact hr3 k (by omega) h2
    · rw [if_neg hcond]
      refine ⟨Nat.le_refl _, fun h => h, fun k h1 h2 => by omega, ?_⟩
      intro hab
      cases hb2 : lessAt natLt l a lo with
      | false => rfl
      | true => exact absurd ⟨hab, hb2⟩ hcond

theorem protLoop_spec : ∀ (fuel : Nat) (l : List Nat) (a b lo hi cM pv : Nat),
    hi ≤ l.length → lo + 1 ≤ a → lo + 1 ≤ b → b ≤ cM → cM ≤ hi → lo + 1 < hi →
    b - a ≤ fuel → b ≤ hi →
    gD l lo = pv →
    (∀ k, lo + 1 ≤ k → k < b → gD l k ≤ pv) →
    (∀ k, b ≤ k → k < cM → gD l k = pv) →
    lo + 1 ≤ (protLoop natLt fuel l a b lo).2 ∧ (protLoop natLt fuel l a b lo).2 ≤ b ∧
    gD (protLoop natLt fuel l a b lo).1 lo = pv ∧
    (∀ k, lo + 1 ≤ k → k < (protLoop natLt fuel l a b lo).2 →
      gD (protLoop natLt fuel l a b lo).1 k ≤ pv) ∧
    (∀ k, (protLoop natLt fuel l a b lo).2 ≤ k → k < cM →
      gD (protLoop natLt fuel l a b lo).1 k = pv) ∧
    (∀ k, cM ≤ k → gD (protLoop natLt fuel l a b lo).1 k = gD l k) ∧
    RPerm l (protLoop natLt fuel l a b lo).1 (lo+1) hi := by
  intro fuel
  induction fuel with
  | zero =>
    intro l a b lo hi cM pv hhi ha hb hbcM hcM hlohi hfuel hbhi hpv hP1 hP2
    simp only [protLoop]
    exact ⟨hb, Nat.le_refl _, hpv, hP1, hP2, fun k h => trivial, RPerm.refl _ _ _⟩
  | succ f ih =>
    intro l a b lo hi cM pv hhi ha hb hbcM hcM hlohi hfuel hbhi hpv hP1 hP2
    simp only [protLoop]
    obtain ⟨hB1, hB2, hB3, hB4, hB5⟩ := protLoopB_spec (b+1) l a b lo (by omega)
    set b1 := protLoopB natLt (b+1) l a b lo with hb1def
    have hb1lo : lo + 1 ≤ b1 := by
      rcases Nat.le_total a b with h | h
      · have := hB4 h
        omega
      · rw [hB5 h]
        exact hb
    obtain ⟨hA1, hA2, hA3, hA4⟩ := protLoopA_spec (b1+1) l a b1 lo (by omega)
    set a1 := protLoopA natLt (b1+1) l a b1 lo with ha1def
    have hlo_len : lo < l.length := by omega
    -- the middle zone has grown down to b1
    have hP2' : ∀ k, b1 ≤ k → k < cM → gD l k = pv := by
      intro k h1 h2
      by_cases hkb : b ≤ k
      · exact hP2 k hkb h2
      · have hkl : k < l.length := by omega
        have hge : pv ≤ gD l k := by
          have := lessAt_natLt_false hkl hlo_len (hB2 k h1 (by omega))
          omega
        have hle : gD l k ≤ pv := hP1 k (by omega) (by omega)
        omega
    by_cases hexit : a1 ≥ b1
    · rw [if_pos hexit]
      exact ⟨hb1lo, hB1, hpv, fun k h1 h2 => hP1 k h1 (by omega), hP2', fun k h => rfl,
        RPerm.refl _ _ _⟩
    · rw [if_neg hexit]
      have ha1b1 : a1 < b1 := by omega
      have hab1 : a < b1 := by omega
      have hstopB : lessAt natLt l (b1-1) lo = true := hB3 hab1
      have hb1_len : b1 - 1 < l.length := (lessAt_natLt_true hstopB).1
      have hvb1 : gD l (b1-1) < pv := by
        have := (lessAt_natLt_true hstopB).2.2
        rw [hpv] at this
        exact this
      have hstopA : lessAt natLt l a1 lo = false := hA4 ha1b1
      have ha1_len : a1 < l.length := by
        have : b1 ≤ b := hB1
        omega
      have hva1_ge : pv ≤ gD l a1 := by
        have := lessAt_natLt_false ha1_len hlo_len hstopA
        omega
      have hva1_le : gD l a1 ≤ pv := hP1 a1 (by omega) (by omega)
      have hva1 : gD l a1 = pv := by omega
      have hne : a1 < b1 - 1 := by
        rcases Nat.lt_or_ge a1 (b1-1) with h | h
        · exact h
        · have : a1 = b1 - 1 := by omega
          rw [this] at hva1
          omega
      have hg : ∀ k, gD (swapL l a1 (b1-1)) k =
          if k = a1 then gD l (b1-1) else if k = b1-1 then gD l a1 else gD l k :=
        swapL_gD ha1_len hb1_len
      have hlen' : (swapL l a1 (b1-1)).length = l.length := swapL_length _ _ _
      have hres := ih (swapL l a1 (b1-1)) (a1+1) (b1-1) lo hi cM pv
        (by rw [hlen']; exact hhi) (by omega) (by omega) (by omega) hcM hlohi
        (by omega) (by omega)
        (by rw [hg lo, if_neg (by omega), if_neg (by omega)]; exact hpv)
        (by
          intro k h1 h2
          rw [hg k]
          by_cases hka : k = a1
          · rw [if_pos hka]
            omega
          · rw [if_neg hka, if_neg (by omega)]
            exact hP1 k h1 (by omega))
        (by
          intro k h1 h2
          rw [hg k]
          by_cases hkb : k = b1 - 1
          · rw [if_neg (by omega), if_pos hkb]
            exact hva1
          · rw [if_neg (by omega), if_neg hkb]
            exact hP2' k (by omega) h2)
      obtain ⟨hr1, hr2, hr3, hr4, hr5, hr6, hr7⟩ := hres
      refine ⟨hr1, by omega, hr3, hr4, hr5, ?_, ?_⟩
      · intro k hk
        rw [hr6 k hk, hg k, if_neg (by omega), if_neg (by omega)]
      · exact (swapL_RPerm (by omega) (by omega) (by omega) (by omega) hhi).trans hr7

theorem doPivotInit_spec (l : List Nat) (lo hi m : Nat) (hm : m = (lo+hi)/2)
    (hlen : hi ≤ l.length) (hrange : hi - lo > 12) :
    RPerm l (doPivotInit natLt l lo hi m) lo hi ∧
    gD (doPivotInit natLt l lo hi m) lo ≤ gD (doPivotInit natLt l lo hi m) (hi-1) := by
  unfold doPivotInit
  have hlom : lo < m := by omega
  have hmhi : m < hi - 1 := by omega
  have hperm0 : RPerm l
      (if hi - lo > 40 then
        medianOfThree natLt
          (medianOfThree natLt (medianOfThree natLt l lo (lo+(hi-lo)/8) (lo+2*((hi-lo)/8)))
            m (m-(hi-lo)/8) (m+(hi-lo)/8))
          (hi-1) (hi-1-(hi-lo)/8) (hi-1-2*((hi-lo)/8))
      else l) lo hi := by
    split
    · rename_i h40
      have s1 := medianOfThree_RPerm l lo (lo+(hi-lo)/8) (lo+2*((hi-lo)/8)) lo hi
        (Nat.le_refl _) (by omega) (by omega) (by omega) (by omega) (by omega) hlen
      have s2 := medianOfThree_RPerm _ m (m-(hi-lo)/8) (m+(hi-lo)/8) lo hi
        (by omega) (by omega) (by omega) (by omega) (by omega) (by omega)
        (by rw [s1.1]; exact hlen)
      have s3 := medianOfThree_RPerm _ (hi-1) (hi-1-(hi-lo)/8) (hi-1-2*((hi-lo)/8)) lo hi
        (by omega) (by omega) (by omega) (by omega) (by omega) (by omega)
        (by rw [s2.1, s1.1]; exact hlen)
      exact s1.trans (s2.trans s3)
    · exact RPerm.refl _ _ _
  set l0 := (if hi - lo > 40 then
        medianOfThree natLt
          (medianOfThree natLt (medianOfThree natLt l lo (lo+(hi-lo)/8) (lo+2*((hi-lo)/8)))
            m (m-(hi-lo)/8) (m+(hi-lo)/8))
          (hi-1) (hi-1-(hi-lo)/8) (hi-1-2*((hi-lo)/8))
      else l) with hl0
  have hlen0 : l0.length = l.length := hperm0.1
  have hfinal := medianOfThree_RPerm l0 lo m (hi-1) lo hi (Nat.le_refl _) (by omega)
    (by omega) (by omega) (by omega) (by omega) (by rw [hlen0]; exact hlen)
  have horder := medianOfThree_order l0 lo m (hi-1) (by omega) (by omega) (by omega)
    (by omega) (by omega) (by omega)
  exact ⟨hperm0.trans hfinal, horder.2⟩

theorem doPivotDups_spec (l2 : List Nat) (lo hi m b0 c0 pv : Nat)
    (hlen : hi ≤ l2.length) (hrange : hi - lo > 12) (hbc : b0 = c0)
    (hb0 : lo + 1 ≤ b0) (hprot : 5 ≤ hi - c0) (hdup : hi - c0 < (hi-lo)/4)
    (hm : m = (lo+hi)/2)
    (hpv : gD l2 lo = pv)
    (hZ1 : ∀ k, lo + 1 ≤ k → k < b0 → gD l2 k ≤ pv)
    (hZ2 : ∀ k, c0 ≤ k → k < hi - 1 → pv < gD l2 k)
    (hmed : pv ≤ gD l2 (hi-1)) :
    lo + 1 ≤ (doPivotDups natLt l2 lo m hi b0 c0).2.1 ∧
    (doPivotDups natLt l2 lo m hi b0 c0).2.1 ≤ b0 ∧
    c0 ≤ (doPivotDups natLt l2 lo m hi b0 c0).2.2.1 ∧
    (doPivotDups natLt l2 lo m hi b0 c0).2.2.1 ≤ hi ∧
    (doPivotDups natLt l2 lo m hi b0 c0).2.1 ≤ (doPivotDups natLt l2 lo m hi b0 c0).2.2.1 ∧
    gD (doPivotDups natLt l2 lo m hi b0 c0).1 lo = pv ∧
    (∀ k, lo + 1 ≤ k → k < (doPivotDups natLt l2 lo m hi b0 c0).2.1 →
      gD (doPivotDups natLt l2 lo m hi b0 c0).1 k ≤ pv) ∧
    (∀ k, (doPivotDups natLt l2 lo m hi b0 c0).2.1 ≤ k →
      k < (doPivotDups natLt l2 lo m hi b0 c0).2.2.1 →
      gD (doPivotDups natLt l2 lo m hi b0 c0).1 k = pv) ∧
    (∀ k, (doPivotDups natLt l2 lo m hi b0 c0).2.2.1 ≤ k → k < hi →
      pv ≤ gD (doPivotDups natLt l2 lo m hi b0 c0).1 k) ∧
    RPerm l2 (doPivotDups natLt l2 lo m hi b0 c0).1 (lo+1) hi := by
  have hlo_len : lo < l2.length := by omega
  have hhi1_len : hi - 1 < l2.length := by omega
  have hmb : m + 2 < b0 := by omega
  have hmlo : lo + 1 ≤ m := by omega
  have hc0hi : c0 < hi - 1 := by omega
  have hb01 : lo + 1 ≤ b0 - 1 := by omega
  have hb0_len : b0 - 1 < l2.length := by omega
  have hm_len : m < l2.length := by omega
  simp only [doPivotDups]
  by_cases cqa : ¬ lessAt natLt l2 lo (hi-1) = true
  · rw [if_pos cqa]
    dsimp only
    have cqaF : lessAt natLt l2 lo (hi-1) = false := by
      revert cqa
      cases lessAt natLt l2 lo (hi-1) <;> simp
    have hvhi : gD l2 (hi-1) = pv := by
      have h1 := lessAt_natLt_false hlo_len hhi1_len cqaF
      omega
    have hga : ∀ k, gD (swapL l2 c0 (hi-1)) k =
        if k = c0 then gD l2 (hi-1) else if k = hi-1 then gD l2 c0 else gD l2 k :=
      swapL_gD (by omega) hhi1_len
    have hpv' : gD (swapL l2 c0 (hi-1)) lo = pv := by
      rw [hga lo, if_neg (by omega), if_neg (by omega)]
      exact hpv
    have hZ1' : ∀ k, lo + 1 ≤ k → k < b0 → gD (swapL l2 c0 (hi-1)) k ≤ pv := by
      intro k h1 h2
      rw [hga k, if_neg (by omega), if_neg (by omega)]
      exact hZ1 k h1 h2
    have hMID' : ∀ k, b0 ≤ k → k < c0 + 1 → gD (swapL l2 c0 (hi-1)) k = pv := by
      intro k h1 h2
      have hk : k = c0 := by omega
      subst hk
      rw [hga k, if_pos rfl]
      exact hvhi
    have hZ2' : ∀ k, c0 + 1 ≤ k → k < hi → pv < gD (swapL l2 c0 (hi-1)) k := by
      intro k h1 h2
      rw [hga k, if_neg (by omega)]
      by_cases hk : k = hi - 1
      · rw [if_pos hk]
        exact hZ2 c0 (Nat.le_refl _) hc0hi
      · rw [if_neg hk]
        exact hZ2 k (by omega) (by omega)
    have hRa : RPerm l2 (swapL l2 c0 (hi-1)) (lo+1) hi :=
      swapL_RPerm (by omega) (by omega) (by omega) (by omega) hlen
    have hlen_a : (swapL l2 c0 (hi-1)).length = l2.length := swapL_length _ _ _
    have hb0a_len : b0 - 1 < (swapL l2 c0 (hi-1)).length := by omega
    have hma_len : m < (swapL l2 c0 (hi-1)).length := by omega
    have hloa_len : lo < (swapL l2 c0 (hi-1)).length := by omega
    by_cases cqb : ¬ lessAt natLt (swapL l2 c0 (hi-1)) (b0-1) lo = true
    · rw [if_pos cqb]
      dsimp only
      have cqbF : lessAt natLt (swapL l2 c0 (hi-1)) (b0-1) lo = false := by
        revert cqb
        cases lessAt natLt (swapL l2 c0 (hi-1)) (b0-1) lo <;> simp
      have hvb : gD (swapL l2 c0 (hi-1)) (b0-1) = pv := by
        have h1 := lessAt_natLt_false hb0a_len hloa_len cqbF
        have h2 := hZ1' (b0-1) hb01 (by omega)
        rw [hpv'] at h1
        omega
      by_cases cqc : ¬ lessAt natLt (swapL l2 c0 (hi-1)) m lo = true
      · rw [if_pos cqc]
        dsimp only
        have cqcF : lessAt natLt (swapL l2 c0 (hi-1)) m lo = false := by
          revert cqc
          cases lessAt natLt (swapL l2 c0 (hi-1)) m lo <;> simp
        have hvm : gD (swapL l2 c0 (hi-1)) m = pv := by
          have h1 := lessAt_natLt_false hma_len hloa_len cqcF
          have h2 := hZ1' m hmlo (by omega)
          rw [hpv'] at h1
          omega
        have hb02a_len : b0 - 1 - 1 < (swapL l2 c0 (hi-1)).length := by omega
        have hg : ∀ k, gD (swapL (swapL l2 c0 (hi-1)) (b0-1-1) m) k =
            if k = b0-1-1 then gD (swapL l2 c0 (hi-1)) m
            else if k = m then gD (swapL l2 c0 (hi-1)) (b0-1-1)
            else gD (swapL l2 c0 (hi-1)) k :=
          swapL_gD hb02a_len hma_len
        refine ⟨by omega, by omega, by omega, by omega, by omega, ?_, ?_, ?_, ?_, ?_⟩
        · rw [hg lo, if_neg (by omega), if_neg (by omega)]
          exact hpv'
        · intro k h1 h2
          rw [hg k, if_neg (by omega)]
          by_cases hk : k = m
          · rw [if_pos hk]
            exact hZ1' (b0-1-1) (by omega) (by omega)
          · rw [if_neg hk]
            exact hZ1' k h1 (by omega)
        · intro k h1 h2
          rw [hg k]
          by_cases hk : k = b0 - 1 - 1
          · rw [if_pos hk]
            exact hvm
          · rw [if_neg hk, if_neg (by omega)]
            by_cases hk2 : k = b0 - 1
            · subst hk2
              exact hvb
            · exact hMID' k (by omega) h2
        · intro k h1 h2
          rw [hg k, if_neg (by omega), if_neg (by omega)]
          exact (hZ2' k (by omega) h2).le
        · exact hRa.trans (swapL_RPerm (by omega) (by omega) (by omega) (by omega)
            (by omega))
      · rw [if_neg cqc]
        dsimp only
        refine ⟨by omega, by omega, by omega, by omega, by omega, hpv', ?_, ?_, ?_, hRa⟩
        · intro k h1 h2
          exact hZ1' k h1 (by omega)
        · intro k h1 h2
          by_cases hk : k = b0 - 1
          · subst hk
            exact hvb
          · exact hMID' k (by omega) h2
        · intro k h1 h2
          exact (hZ2' k (by omega) h2).le
    · rw [if_neg cqb]
      dsimp only
      by_cases cqc : ¬ lessAt natLt (swapL l2 c0 (hi-1)) m lo = true
      · rw [if_pos cqc]
        dsimp only
        have cqcF : lessAt natLt (swapL l2 c0 (hi-1)) m lo = false := by
          revert cqc
          cases lessAt natLt (swapL l2 c0 (hi-1)) m lo <;> simp
        have hvm : gD (swapL l2 c0 (hi-1)) m = pv := by
          have h1 := lessAt_natLt_false hma_len hloa_len cqcF
          have h2 := hZ1' m hmlo (by omega)
          rw [hpv'] at h1
          omega
        have hg : ∀ k, gD (swapL (swapL l2 c0 (hi-1)) (b0-1) m) k =
            if k = b0-1 then gD (swapL l2 c0 (hi-1)) m
            else if k = m then gD (swapL l2 c0 (hi-1)) (b0-1)
            else gD (swapL l2 c0 (hi-1)) k :=
          swapL_gD hb0a_len hma_len
        refine ⟨by omega, by omega, by omega, by omega, by omega, ?_, ?_, ?_, ?_, ?_⟩
        · rw [hg lo, if_neg (by omega), if_neg (by omega)]
          exact hpv'
        · intro k h1 h2
          rw [hg k, if_neg (by omega)]
          by_cases hk : k = m
          · rw [if_pos hk]
            exact hZ1' (b0-1) hb01 (by omega)
          · rw [if_neg hk]
            exact hZ1' k h1 (by omega)
        · intro k h1 h2
          rw [hg k]
          by_cases hk : k = b0 - 1
          · rw [if_pos hk]
            exact hvm
          · rw [if_neg hk, if_neg (by omega)]
            exact hMID' k (by omega) h2
        · intro k h1 h2
          rw [hg k, if_neg (by omega), if_neg (by omega)]
          exact (hZ2' k (by omega) h2).le
        · exact hRa.trans (swapL_RPerm (by omega) (by omega) (by omega) (by omega)
            (by omega))
      · rw [if_neg cqc]
        dsimp only
        exact ⟨hb0, Nat.le_refl _, by omega, by omega, by omega, hpv', hZ1',
          (fun k h1 h2 => hMID' k h1 h2), (fun k h1 h2 => (hZ2' k h1 h2).le), hRa⟩
  · rw [if_neg cqa]
    dsimp only
    have cqa' : lessAt natLt l2 lo (hi-1) = true := by
      revert cqa
      cases lessAt natLt l2 lo (hi-1) <;> simp
    have hZ2' : ∀ k, c0 ≤ k → k < hi → pv < gD l2 k := by
      intro k h1 h2
      by_cases hk : k = hi - 1
      · subst hk
        have := (lessAt_natLt_true cqa').2.2
        rw [hpv] at this
        exact this
      · exact hZ2 k h1 (by omega)
    by_cases cqb : ¬ lessAt natLt l2 (b0-1) lo = true
    · rw [if_pos cqb]
      dsimp only
      have cqbF : lessAt natLt l2 (b0-1) lo = false := by
        revert cqb
        cases lessAt natLt l2 (b0-1) lo <;> simp
      have hvb : gD l2 (b0-1) = pv := by
        have h1 := lessAt_natLt_false hb0_len hlo_len cqbF
        have h2 := hZ1 (b0-1) hb01 (by omega)
        rw [hpv] at h1
        omega
      by_cases cqc : ¬ lessAt natLt l2 m lo = true
      · rw [if_pos cqc]
        dsimp only
        have cqcF : lessAt natLt l2 m lo = false := by
          revert cqc
          cases lessAt natLt l2 m lo <;> simp
        have hvm : gD l2 m = pv := by
          have h1 := lessAt_natLt_false hm_len hlo_len cqcF
          have h2 := hZ1 m hmlo (by omega)
          rw [hpv] at h1
          omega
        have hb02_len : b0 - 1 - 1 < l2.length := by omega
        have hg : ∀ k, gD (swapL l2 (b0-1-1) m) k =
            if k = b0-1-1 then gD l2 m else if k = m then gD l2 (b0-1-1) else gD l2 k :=
          swapL_gD hb02_len hm_len
        refine ⟨by omega, by omega, by omega, by omega, by omega, ?_, ?_, ?_, ?_, ?_⟩
        · rw [hg lo, if_neg (by omega), if_neg (by omega)]
          exact hpv
        · intro k h1 h2
          rw [hg k, if_neg (by omega)]
          by_cases hk : k = m
          · rw [if_pos hk]
            exact hZ1 (b0-1-1) (by omega) (by omega)
          · rw [if_neg hk]
            exact hZ1 k h1 (by omega)
        · intro k h1 h2
          rw [hg k]
          by_cases hk : k = b0 - 1 - 1
          · rw [if_pos hk]
            exact hvm
          · rw [if_neg hk, if_neg (by omega)]
            have hk2 : k = b0 - 1 := by omega
            subst hk2
            exact hvb
        · intro k h1 h2
          rw [hg k, if_neg (by omega), if_neg (by omega)]
          exact (hZ2' k (by omega) h2).le
        · exact swapL_RPerm (by omega) (by omega) (by omega) (by omega) hlen
      · rw [if_neg cqc]
        dsimp only
        refine ⟨by omega, by omega, by omega, by omega, by omega, hpv, ?_, ?_, ?_,
          RPerm.refl _ _ _⟩
        · intro k h1 h2
          exact hZ1 k h1 (by omega)
        · intro k h1 h2
          have hk : k = b0 - 1 := by omega
          subst hk
          exact hvb
        · intro k h1 h2
          exact (hZ2' k (by omega) h2).le
    · rw [if_neg cqb]
      dsimp only
      by_cases cqc : ¬ lessAt natLt l2 m lo = true
      · rw [if_pos cqc]
        dsimp only
        have cqcF : lessAt natLt l2 m lo = false := by
          revert cqc
          cases lessAt natLt l2 m lo <;> simp
        have hvm : gD l2 m = pv := by
          have h1 := lessAt_natLt_false hm_len hlo_len cqcF
          have h2 := hZ1 m hmlo (by omega)
          rw [hpv] at h1
          omega
        have hg : ∀ k, gD (swapL l2 (b0-1) m) k =
            if k = b0-1 then gD l2 m else if k = m then gD l2 (b0-1) else gD l2 k :=
          swapL_gD hb0_len hm_len
        refine ⟨by omega, by omega, by omega, by omega, by omega, ?_, ?_, ?_, ?_, ?_⟩
        · rw [hg lo, if_neg (by omega), if_neg (by omega)]
          exact hpv
        · intro k h1 h2
          rw [hg k, if_neg (by omega)]
          by_cases hk : k = m
          · rw [if_pos hk]
            exact hZ1 (b0-1) hb01 (by omega)
          · rw [if_neg hk]
            exact hZ1 k h1 (by omega)
        · intro k h1 h2
          rw [hg k]
          by_cases hk : k = b0 - 1
          · rw [if_pos hk]
            exact hvm
          · omega
        · intro k h1 h2
          rw [hg k, if_neg (by omega), if_neg (by omega)]
          exact (hZ2' k (by omega) h2).le
        · exact swapL_RPerm (by omega) (by omega) (by omega) (by omega) hlen
      · rw [if_neg cqc]
        dsimp only
        exact ⟨hb0, Nat.le_refl _, Nat.le_refl _, by omega, by omega, hpv,
          (fun k h1 h2 => hZ1 k h1 h2), (fun k h1 h2 => by omega),
          (fun k h1 h2 => (hZ2' k (by omega) h2).le), RPerm.refl _ _ _⟩

theorem doPivotPost_spec (l2 : List Nat) (b0 c0 lo hi m a0 pv : Nat)
    (hlen : hi ≤ l2.length) (hrange : hi - lo > 12) (hbc : b0 = c0)
    (hb0 : lo + 1 ≤ b0) (hc0 : c0 ≤ hi - 1) (hm : m = (lo+hi)/2)
    (ha0 : lo + 1 ≤ a0)
    (hpv : gD l2 lo = pv)
    (hZ1 : ∀ k, lo + 1 ≤ k → k < b0 → gD l2 k ≤ pv)
    (hZ2 : ∀ k, c0 ≤ k → k < hi - 1 → pv < gD l2 k)
    (hmed : pv ≤ gD l2 (hi-1)) :
    lo ≤ (doPivotPost natLt l2 b0 c0 lo hi m a0).2.1 ∧
    (doPivotPost natLt l2 b0 c0 lo hi m a0).2.1 < (doPivotPost natLt l2 b0 c0 lo hi m a0).2.2 ∧
    (doPivotPost natLt l2 b0 c0 lo hi m a0).2.2 ≤ hi ∧
    (doPivotPost natLt l2 b0 c0 lo hi m a0).2.1 < hi ∧
    lo < (doPivotPost natLt l2 b0 c0 lo hi m a0).2.2 ∧
    (∀ k, lo ≤ k → k < (doPivotPost natLt l2 b0 c0 lo hi m a0).2.1 →
      gD (doPivotPost natLt l2 b0 c0 lo hi m a0).1 k ≤ pv) ∧
    (∀ k, (doPivotPost natLt l2 b0 c0 lo hi m a0).2.1 ≤ k →
      k < (doPivotPost natLt l2 b0 c0 lo hi m a0).2.2 →
      gD (doPivotPost natLt l2 b0 c0 lo hi m a0).1 k = pv) ∧
    (∀ k, (doPivotPost natLt l2 b0 c0 lo hi m a0).2.2 ≤ k → k < hi →
      pv ≤ gD (doPivotPost natLt l2 b0 c0 lo hi m a0).1 k) ∧
    RPerm l2 (doPivotPost natLt l2 b0 c0 lo hi m a0).1 lo hi := by
  simp only [doPivotPost]
  by_cases hdc : ¬ (decide (hi - c0 < 5)) = true ∧ hi - c0 < (hi - lo)/4
  · rw [if_pos hdc]
    have hprot : 5 ≤ hi - c0 := by
      have := hdc.1
      simp at this
      omega
    obtain ⟨hd1, hd2, hd3, hd4, hd5, hd6, hd7, hd8, hd9, hd10⟩ :=
      doPivotDups_spec l2 lo hi m b0 c0 pv hlen hrange hbc hb0 hprot hdc.2 hm hpv hZ1 hZ2 hmed
    set q := doPivotDups natLt l2 lo m hi b0 c0 with hq
    have hqlen : q.1.length = l2.length := hd10.1
    by_cases hfl : q.2.2.2 = true
    · rw [if_pos hfl]
      obtain ⟨hp1, hp2, hp3, hp4, hp5, hp6, hp7⟩ :=
        protLoop_spec (hi+1) q.1 a0 q.2.1 lo hi q.2.2.1 pv (by omega) ha0 hd1
          hd5 hd4 (by omega) (by omega) (by omega) hd6 hd7 hd8
      set pl := protLoop natLt (hi+1) q.1 a0 q.2.1 lo with hpl
      have hpllen : pl.1.length = l2.length := by rw [hp7.1]; exact hqlen
      have hg : ∀ k, gD (swapL pl.1 lo (pl.2-1)) k =
          if k = lo then gD pl.1 (pl.2-1) else if k = pl.2-1 then gD pl.1 lo else gD pl.1 k :=
        swapL_gD (by omega) (by omega)
      refine ⟨by omega, by omega, by omega, by omega, by omega, ?_, ?_, ?_, ?_⟩
      · intro k h1 h2
        rw [hg k]
        by_cases hk : k = lo
        · rw [if_pos hk]
          exact hp4 (pl.2-1) (by omega) (by omega)
        · rw [if_neg hk, if_neg (by omega)]
          exact hp4 k (by omega) (by omega)
      · intro k h1 h2
        rw [hg k]
        by_cases hk : k = lo
        · rw [if_pos hk]
          have hplo : pl.2 - 1 = lo := by omega
          rw [hplo]
          exact hp3
        · rw [if_neg hk]
          by_cases hk2 : k = pl.2 - 1
          · rw [if_pos hk2]
            exact hp3
          · rw [if_neg hk2]
            exact hp5 k (by omega) (by omega)
      · intro k h1 h2
        rw [hg k, if_neg (by omega), if_neg (by omega)]
        rw [hp6 k (by omega)]
        exact hd9 k (by omega) h2
      · have hr1 : RPerm l2 q.1 lo hi := hd10.extend lo hi (by omega) (by omega) (Nat.le_refl _)
        have hr2 : RPerm q.1 pl.1 lo hi := hp7.extend lo hi (by omega) (by omega) (Nat.le_refl _)
        have hr3 : RPerm pl.1 (swapL pl.1 lo (pl.2-1)) lo hi :=
          swapL_RPerm (Nat.le_refl _) (by omega) (by omega) (by omega) (by omega)
        exact hr1.trans (hr2.trans hr3)
    · rw [if_neg hfl]
      have hg : ∀ k, gD (swapL q.1 lo (q.2.1-1)) k =
          if k = lo then gD q.1 (q.2.1-1) else if k = q.2.1-1 then gD q.1 lo else gD q.1 k :=
        swapL_gD (by omega) (by omega)
      refine ⟨by omega, by omega, by omega, by omega, by omega, ?_, ?_, ?_, ?_⟩
      · intro k h1 h2
        rw [hg k]
        by_cases hk : k = lo
        · rw [if_pos hk]
          exact hd7 (q.2.1-1) (by omega) (by omega)
        · rw [if_neg hk, if_neg (by omega)]
          exact hd7 k (by omega) (by omega)
      · intro k h1 h2
        rw [hg k]
        by_cases hk : k = lo
        · rw [if_pos hk]
          have hqlo : q.2.1 - 1 = lo := by omega
          rw [hqlo]
          exact hd6
        · rw [if_neg hk]
          by_cases hk2 : k = q.2.1 - 1
          · rw [if_pos hk2]
            exact hd6
          · rw [if_neg hk2]
            exact hd8 k (by omega) (by omega)
      · intro k h1 h2
        rw [hg k, if_neg (by omega), if_neg (by omega)]
        exact hd9 k (by omega) h2
      · have hr1 : RPerm l2 q.1 lo hi := hd10.extend lo hi (by omega) (by omega) (Nat.le_refl _)
        have hr3 : RPerm q.1 (swapL q.1 lo (q.2.1-1)) lo hi :=
          swapL_RPerm (Nat.le_refl _) (by omega) (by omega) (by omega) (by omega)
        exact hr1.trans hr3
  · rw [if_neg hdc]
    dsimp only
    by_cases hfl : (decide (hi - c0 < 5)) = true
    · rw [if_pos hfl]
      obtain ⟨hp1, hp2, hp3, hp4, hp5, hp6, hp7⟩ :=
        protLoop_spec (hi+1) l2 a0 b0 lo hi c0 pv hlen ha0 hb0 (by omega) (by omega)
          (by omega) (by omega) (by omega) hpv hZ1 (fun k h1 h2 => by omega)
      set pl := protLoop natLt (hi+1) l2 a0 b0 lo with hpl
      have hpllen : pl.1.length = l2.length := hp7.1
      have hg : ∀ k, gD (swapL pl.1 lo (pl.2-1)) k =
          if k = lo then gD pl.1 (pl.2-1) else if k = pl.2-1 then gD pl.1 lo else gD pl.1 k :=
        swapL_gD (by omega) (by omega)
      refine ⟨by omega, by omega, by omega, by omega, by omega, ?_, ?_, ?_, ?_⟩
      · intro k h1 h2
        rw [hg k]
        by_cases hk : k = lo
        · rw [if_pos hk]
          exact hp4 (pl.2-1) (by omega) (by omega)
        · rw [if_neg hk, if_neg (by omega)]
          exact hp4 k (by omega) (by omega)
      · intro k h1 h2
        rw [hg k]
        by_cases hk : k = lo
        · rw [if_pos hk]
          have hplo : pl.2 - 1 = lo := by omega
          rw [hplo]
          exact hp3
        · rw [if_neg hk]
          by_cases hk2 : k = pl.2 - 1
          · rw [if_pos hk2]
            exact hp3
          · rw [if_neg hk2]
            exact hp5 k (by omega) (by omega)
      · intro k h1 h2
        rw [hg k, if_neg (by omega), if_neg (by omega)]
        rw [hp6 k (by omega)]
        by_cases hk : k = hi - 1
        · subst hk
          exact hmed
        · exact (hZ2 k (by omega) (by omega)).le
      · have hr2 : RPerm l2 pl.1 lo hi := hp7.extend lo hi (by omega) (by omega) (Nat.le_refl _)
        have hr3 : RPerm pl.1 (swapL pl.1 lo (pl.2-1)) lo hi :=
          swapL_RPerm (Nat.le_refl _) (by omega) (by omega) (by omega) (by omega)
        exact hr2.trans hr3
    · rw [if_neg hfl]
      have hg : ∀ k, gD (swapL l2 lo (b0-1)) k =
          if k = lo then gD l2 (b0-1) else if k = b0-1 then gD l2 lo else gD l2 k :=
        swapL_gD (by omega) (by omega)
      refine ⟨by omega, by omega, by omega, by omega, by omega, ?_, ?_, ?_, ?_⟩
      · intro k h1 h2
        rw [hg k]
        by_cases hk : k = lo
        · rw [if_pos hk]
          exact hZ1 (b0-1) (by omega) (by omega)
        · rw [if_neg hk, if_neg (by omega)]
          exact hZ1 k (by omega) (by omega)
      · intro k h1 h2
        have hk : k = b0 - 1 := by omega
        rw [hg k]
        by_cases hklo : k = lo
        · rw [if_pos hklo]
          rw [show b0 - 1 = lo by omega]
          exact hpv
        · rw [if_neg hklo, if_pos hk]
          exact hpv
      · intro k h1 h2
        rw [hg k, if_neg (by omega), if_neg (by omega)]
        by_cases hk : k = hi - 1
        · subst hk
          exact hmed
        · exact (hZ2 k (by omega) (by omega)).le
      · exact swapL_RPerm (Nat.le_refl _) (by omega) (by omega) (by omega) hlen

theorem doPivotGo_spec (l : List Nat) (lo hi : Nat) (hlen : hi ≤ l.length)
    (hrange : hi - lo > 12) :
    ∃ pv,
    lo ≤ (doPivotGo natLt l lo hi).2.1 ∧
    (doPivotGo natLt l lo hi).2.1 < (doPivotGo natLt l lo hi).2.2 ∧
    (doPivotGo natLt l lo hi).2.2 ≤ hi ∧
    (doPivotGo natLt l lo hi).2.1 < hi ∧
    lo < (doPivotGo natLt l lo hi).2.2 ∧
    (∀ k, lo ≤ k → k < (doPivotGo natLt l lo hi).2.1 →
      gD (doPivotGo natLt l lo hi).1 k ≤ pv) ∧
    (∀ k, (doPivotGo natLt l lo hi).2.1 ≤ k → k < (doPivotGo natLt l lo hi).2.2 →
      gD (doPivotGo natLt l lo hi).1 k = pv) ∧
    (∀ k, (doPivotGo natLt l lo hi).2.2 ≤ k → k < hi →
      pv ≤ gD (doPivotGo natLt l lo hi).1 k) ∧
    RPerm l (doPivotGo natLt l lo hi).1 lo hi := by
  simp only [doPivotGo]
  obtain ⟨hI, hImed⟩ := doPivotInit_spec l lo hi ((lo+hi)/2) rfl hlen hrange
  set l1 := doPivotInit natLt l lo hi ((lo+hi)/2) with hl1
  have hlen1 : l1.length = l.length := hI.1
  obtain ⟨hA1, hA2, hA3, hA4⟩ := scanA_spec (hi+1) l1 (lo+1) (hi-1) lo (by omega) (by omega)
  set a0 := scanA natLt (hi+1) l1 (lo+1) (hi-1) lo with ha0
  have hZ1a : ∀ k, lo + 1 ≤ k → k < a0 → gD l1 k ≤ gD l1 lo := by
    intro k h1 h2
    exact ((lessAt_natLt_true (hA3 k h1 h2)).2.2).le
  obtain ⟨hp_eq, hp_b, hp_c, hp_pv, hp_Z1, hp_Z2, hp_R⟩ :=
    partLoop_spec (hi+1) l1 a0 (hi-1) lo hi (gD l1 lo) (by omega) hA1 hA2
      (Nat.le_refl _) (by omega) (by omega) rfl hZ1a (fun k h1 h2 => by omega)
  set pr := partLoop natLt (hi+1) l1 a0 (hi-1) lo with hpr
  have hprlen : pr.1.length = l.length := by rw [hp_R.1, hlen1]
  have hmed2 : gD l1 lo ≤ gD pr.1 (hi-1) := by
    rw [hp_R.2.1 (hi-1) (Or.inr (Nat.le_refl _))]
    exact hImed
  obtain ⟨hq1, hq2, hq3, hq4, hq5, hq6, hq7, hq8, hq9⟩ :=
    doPivotPost_spec pr.1 pr.2.1 pr.2.2 lo hi ((lo+hi)/2) a0 (gD l1 lo)
      (by omega) hrange hp_eq (by omega) (by omega) rfl hA1 hp_pv hp_Z1
      (fun k h1 h2 => hp_Z2 k (by omega) h2) hmed2
  refine ⟨gD l1 lo, hq1, hq2, hq3, hq4, hq5, hq6, hq7, hq8, ?_⟩
  have hR1 : RPerm l l1 lo hi := hI
  have hR2 : RPerm l1 pr.1 lo hi := hp_R.extend lo hi (by omega) (by omega) (by omega)
  exact hR1.trans (hR2.trans hq9)

/-! ## Heapsort sorts its range -/

/-- Membership of offset `j` in the subtree rooted at offset `r` of the
implicit binary heap (children of `i` are `2i+1`, `2i+2`). -/
def inSub (r j : Nat) : Bool :=
  if _h1 : j < r then false
  else if _h2 : j = r then true
  else inSub r ((j-1)/2)
termination_by j
decreasing_by omega

theorem inSub_self (r : Nat) : inSub r r = true := by
  rw [inSub]
  simp

theorem inSub_ge {r j : Nat} (h : inSub r j = true) : r ≤ j := by
  by_contra hc
  rw [inSub, dif_pos (by omega)] at h
  cases h

theorem inSub_parent {r j : Nat} (h : inSub r j = true) (hne : j ≠ r) :
    inSub r ((j-1)/2) = true := by
  have hge := inSub_ge h
  rw [inSub, dif_neg (by omega), dif_neg hne] at h
  exact h

theorem inSub_of_parent {r j : Nat} (h : inSub r ((j-1)/2) = true) (hj : 1 ≤ j) :
    inSub r j = true := by
  have hge := inSub_ge h
  rw [inSub]
  rcases Nat.lt_or_ge j r with hc | hc
  · omega
  · rw [dif_neg (by omega)]
    by_cases he : j = r
    · rw [dif_pos he]
    · rw [dif_neg he]
      exact h

theorem inSub_child1 {r j : Nat} (h : inSub r j = true) : inSub r (2*j+1) = true := by
  apply inSub_of_parent _ (by omega)
  rw [show (2*j+1-1)/2 = j by omega]
  exact h

theorem inSub_child2 {r j : Nat} (h : inSub r j = true) : inSub r (2*j+2) = true := by
  apply inSub_of_parent _ (by omega)
  rw [show (2*j+2-1)/2 = j by omega]
  exact h

theorem inSub_trans {r c : Nat} (hc : inSub r c = true) :
    ∀ j, inSub c j = true → inSub r j = true := by
  intro j
  induction j using Nat.strong_induction_on with
  | _ j ih =>
    intro hj
    by_cases hje : j = c
    · subst hje; exact hc
    · have hge := inSub_ge hj
      have hj1 : 1 ≤ j := by
        by_contra hc2
        have : j = 0 := by omega
        subst this
        have : c = 0 := by omega
        subst this
        exact hje rfl
      have hp := inSub_parent hj hje
      have := ih ((j-1)/2) (by omega) hp
      exact inSub_of_parent this hj1

theorem inSub_sibling (r : Nat) : inSub (2*r+1) (2*r+2) = false := by
  rw [inSub, dif_neg (by omega), dif_neg (by omega)]
  rw [show (2*r+2-1)/2 = r by omega]
  rw [inSub, dif_pos (by omega)]

theorem inSub_lt {r j : Nat} (h : j < r) : inSub r j = false := by
  rw [inSub, dif_pos h]

theorem inSub_disjoint (r : Nat) : ∀ j, inSub (2*r+1) j = true →
    inSub (2*r+2) j = true → False := by
  intro j
  induction j using Nat.strong_induction_on with
  | _ j ih =>
    intro h1 h2
    by_cases he1 : j = 2*r+1
    · subst he1
      have := inSub_ge h2
      omega
    · by_cases he2 : j = 2*r+2
      · subst he2
        rw [inSub_sibling] at h1
        cases h1
      · have hge := inSub_ge h1
        have hp1 := inSub_parent h1 he1
        have hp2 := inSub_parent h2 he2
        exact ih ((j-1)/2) (by omega) hp1 hp2

theorem inSub_cases {r j : Nat} (h : inSub r j = true) (hne : j ≠ r) :
    inSub (2*r+1) j = true ∨ inSub (2*r+2) j = true := by
  induction j using Nat.strong_induction_on with
  | _ j ih =>
    have hge := inSub_ge h
    have hj1 : 1 ≤ j := by omega
    have hp := inSub_parent h hne
    by_cases hpe : (j-1)/2 = r
    · have : j = 2*r+1 ∨ j = 2*r+2 := by omega
      rcases this with h2 | h2
      · left; rw [h2]; exact inSub_self _
      · right; rw [h2]; exact inSub_self _
    · rcases ih ((j-1)/2) (by omega) hp hpe with h2 | h2
      · exact Or.inl (inSub_of_parent h2 hj1)
      · exact Or.inr (inSub_of_parent h2 hj1)

/-- In a range whose heap pairs all hold inside the subtree of `r`, every
subtree element is at most the subtree root. -/
theorem sub_max (l : List Nat) (first hi r : Nat)
    (hps : ∀ j, 1 ≤ j → j < hi → inSub r j = true → j ≠ r →
      gD l (first + j) ≤ gD l (first + (j-1)/2)) :
    ∀ j, j < hi → inSub r j = true → gD l (first + j) ≤ gD l (first + r) := by
  intro j
  induction j using Nat.strong_induction_on with
  | _ j ih =>
    intro hj hsub
    by_cases hje : j = r
    · subst hje; exact Nat.le_refl _
    · have hge := inSub_ge hsub
      have hj1 : 1 ≤ j := by omega
      have hpair := hps j hj1 hj hsub hje
      have hpsub := inSub_parent hsub hje
      have := ih ((j-1)/2) (by omega) (by omega) hpsub
      omega

theorem siftDown_spec : ∀ (fuel : Nat) (l : List Nat) (root hi first : Nat),
    first + hi ≤ l.length → hi ≤ fuel + root →
    (∀ j, 1 ≤ j → j < hi → inSub root j = true → j ≠ root → (j-1)/2 ≠ root →
      gD l (first + j) ≤ gD l (first + (j-1)/2)) →
    (∀ j, 1 ≤ j → j < hi → inSub root j = true → j ≠ root →
      gD (siftDownGo natLt fuel l root hi first) (first + j) ≤
        gD (siftDownGo natLt fuel l root hi first) (first + (j-1)/2)) ∧
    (∀ k, (∀ j, j < hi → inSub root j = true → k ≠ first + j) →
      gD (siftDownGo natLt fuel l root hi first) k = gD l k) ∧
    (siftDownGo natLt fuel l root hi first).length = l.length ∧
    (∀ B, (∀ j, j < hi → inSub root j = true → gD l (first + j) ≤ B) →
      ∀ j, j < hi → inSub root j = true →
        gD (siftDownGo natLt fuel l root hi first) (first + j) ≤ B) := by
  intro fuel
  induction fuel with
  | zero =>
    intro l root hi first hlen hfuel hpre
    simp only [siftDownGo]
    refine ⟨?_, fun k _ => trivial, trivial, fun B hB j hj hsub => hB j hj hsub⟩
    intro j hj1 hjhi hjsub hjne
    have := inSub_ge hjsub
    omega
  | succ f ih =>
    intro l root hi first hlen hfuel hpre
    simp only [siftDownGo]
    by_cases hch0 : 2*root+1 ≥ hi
    · rw [if_pos hch0]
      refine ⟨?_, fun k _ => rfl, rfl, fun B hB j hj hsub => hB j hj hsub⟩
      intro j hj1 hjhi hjsub hjne
      by_cases hpar : (j-1)/2 = root
      · omega
      · exact hpre j hj1 hjhi hjsub hjne hpar
    · rw [if_neg hch0]
      have hroot_hi : root < hi := by omega
      have hroot_len : first + root < l.length := by omega
      have hc0_len : first + (2*root+1) < l.length := by omega
      set ch := if 2*root+1+1 < hi ∧ lessAt natLt l (first+(2*root+1)) (first+(2*root+1)+1) = true
        then 2*root+1+1 else 2*root+1 with hchdef
      have hch_mem : ch = 2*root+1 ∨ ch = 2*root+2 := by
        rw [hchdef]
        split
        · right; rfl
        · left; rfl
      have hch_lt : ch < hi := by
        rw [hchdef]
        split
        · omega
        · omega
      have hch_len : first + ch < l.length := by omega
      have hch_gt : root < ch := by omega
      have hmax : ∀ o, (o = 2*root+1 ∨ o = 2*root+2) → o < hi →
          gD l (first + o) ≤ gD l (first + ch) := by
        intro o ho hohi
        rw [hchdef]
        split
        · rename_i hcond
          rcases ho with ho | ho
          · subst ho
            exact ((lessAt_natLt_true hcond.2).2.2).le
          · subst ho
            exact Nat.le_refl _
        · rename_i hcond
          rcases ho with ho | ho
          · subst ho
            exact Nat.le_refl _
          · subst ho
            have h1 : ¬ (2*root+1+1 < hi) ∨
                lessAt natLt l (first+(2*root+1)) (first+(2*root+1)+1) = false := by
              rcases Decidable.not_and_iff_or_not.mp hcond with h | h
              · exact Or.inl h
              · right
                revert h
                cases lessAt natLt l (first+(2*root+1)) (first+(2*root+1)+1) <;> simp
            rcases h1 with h1 | h1
            · omega
            · have := lessAt_natLt_false hc0_len (by omega) h1
              rw [show first + (2*root+1) + 1 = first + (2*root+2) by omega] at this
              exact this
      have hch_sub : inSub root ch = true := by
        rcases hch_mem with h | h
        · rw [h]; exact inSub_child1 (inSub_self _)
        · rw [h]; exact inSub_child2 (inSub_self _)
      by_cases hlt : lessAt natLt l (first+root) (first+ch) = true
      · rw [if_neg (fun h => h hlt)]
        have hvroot : gD l (first+root) < gD l (first+ch) := (lessAt_natLt_true hlt).2.2
        have hg : ∀ k, gD (swapL l (first+root) (first+ch)) k =
            if k = first+root then gD l (first+ch)
            else if k = first+ch then gD l (first+root) else gD l k :=
          swapL_gD hroot_len hch_len
        have hlen' : (swapL l (first+root) (first+ch)).length = l.length := swapL_length _ _ _
        -- pairs strictly inside the child's subtree hold in the swapped list
        have hpre' : ∀ j, 1 ≤ j → j < hi → inSub ch j = true → j ≠ ch → (j-1)/2 ≠ ch →
            gD (swapL l (first+root) (first+ch)) (first + j) ≤
              gD (swapL l (first+root) (first+ch)) (first + (j-1)/2) := by
          intro j hj1 hjhi hjsub hjne hjpar
          have hjge := inSub_ge hjsub
          have hjgt : ch < j := by omega
          have hpsub := inSub_parent hjsub hjne
          have hpge := inSub_ge hpsub
          rw [hg (first+j), hg (first+(j-1)/2), if_neg (by omega), if_neg (by omega),
            if_neg (by omega), if_neg (by omega)]
          exact hpre j hj1 hjhi (inSub_trans hch_sub j hjsub) (by omega) (by omega)
        have hsubmax : ∀ i, i < hi → inSub ch i = true → gD l (first+i) ≤ gD l (first+ch) := by
          apply sub_max
          intro j hj1 hjhi hjsub hjne
          have hjge := inSub_ge hjsub
          have hpsub := inSub_parent hjsub hjne
          have hpge := inSub_ge hpsub
          exact hpre j hj1 hjhi (inSub_trans hch_sub j hjsub) (by omega) (by omega)
        have hbound' : ∀ i, i < hi → inSub ch i = true →
            gD (swapL l (first+root) (first+ch)) (first+i) ≤ gD l (first+ch) := by
          intro i hihi hisub
          have hige := inSub_ge hisub
          by_cases hie : i = ch
          · rw [hg (first+i), if_neg (by omega), if_pos (by omega)]
            exact hvroot.le
          · rw [hg (first+i), if_neg (by omega), if_neg (by omega)]
            exact hsubmax i hihi hisub
        obtain ⟨hs1, hs2, hs3, hs4⟩ := ih (swapL l (first+root) (first+ch)) ch hi first
          (by omega) (by omega) hpre'
        have hBroot : gD (siftDownGo natLt f (swapL l (first+root) (first+ch)) ch hi first)
            (first+root) = gD l (first+ch) := by
          rw [hs2 (first+root) (fun j hj hjsub => by
            have := inSub_ge hjsub
            omega)]
          rw [hg (first+root), if_pos rfl]
        have hsub_bound : ∀ i, i < hi → inSub ch i = true →
            gD (siftDownGo natLt f (swapL l (first+root) (first+ch)) ch hi first)
              (first+i) ≤ gD l (first+ch) :=
          hs4 (gD l (first+ch)) hbound'
        refine ⟨?_, ?_, ?_, ?_⟩
        · intro j hj1 hjhi hjsub hjne
          by_cases hpar : (j-1)/2 = root
          · have hjmem : j = 2*root+1 ∨ j = 2*root+2 := by omega
            rw [hpar, hBroot]
            by_cases hjch : j = ch
            · rw [hjch]
              exact hsub_bound ch hch_lt (inSub_self _)
            · -- the sibling of the promoted child: untouched, bounded by the max child
              have hjnsub : inSub ch j = false := by
                rcases hch_mem with h | h <;> rcases hjmem with h2 | h2 <;>
                  (try (exfalso; exact hjch (by omega)))
                · rw [h, h2]
                  exact inSub_sibling root
                · rw [h, h2]
                  exact inSub_lt (by omega)
              rw [hs2 (first+j) (fun i hihi hisub => by
                intro heq
                have hji : j = i := by omega
                rw [hji, hisub] at hjnsub
                exact Bool.noConfusion hjnsub)]
              rw [hg (first+j), if_neg (by omega), if_neg (by
                intro heq
                exact hjch (by omega))]
              exact hmax j hjmem hjhi
          · by_cases hjin : inSub ch j = true
            · have hjnech : j ≠ ch := by
                intro hc
                rcases hch_mem with h | h <;> rw [hc, h] at hpar <;> exact hpar (by omega)
              exact hs1 j hj1 hjhi hjin hjnech
            · have hjf : inSub ch j = false := by
                revert hjin
                cases inSub ch j <;> simp
              have hjnech : j ≠ ch := by
                intro hc
                rw [hc, inSub_self] at hjf
                exact Bool.noConfusion hjf
              have hp1 : 1 ≤ j := hj1
              have hphi : (j-1)/2 < hi := by omega
              have hpf : inSub ch ((j-1)/2) = false := by
                rcases hb : inSub ch ((j-1)/2) with _ | _
                · rfl
                · exact absurd (inSub_of_parent hb hj1) (by rw [hjf]; intro hc; exact Bool.noConfusion hc)
              have hpnech : (j-1)/2 ≠ ch := by
                intro hc
                rw [hc, inSub_self] at hpf
                exact Bool.noConfusion hpf
              rw [hs2 (first+j) (fun i hihi hisub => by
                intro heq
                have hji : j = i := by omega
                rw [hji, hisub] at hjf
                exact Bool.noConfusion hjf)]
              rw [hs2 (first+(j-1)/2) (fun i hihi hisub => by
                intro heq
                have hji : (j-1)/2 = i := by omega
                rw [hji, hisub] at hpf
                exact Bool.noConfusion hpf)]
              rw [hg (first+j), if_neg (by omega), if_neg (by omega)]
              rw [hg (first+(j-1)/2), if_neg (by omega), if_neg (by omega)]
              exact hpre j hj1 hjhi hjsub hjne hpar
        · intro k hk
          have hkr : k ≠ first + root := hk root hroot_hi (inSub_self _)
          have hkc : k ≠ first + ch := hk ch hch_lt hch_sub
          rw [hs2 k (fun i hihi hisub => hk i hihi (inSub_trans hch_sub i hisub))]
          rw [hg k, if_neg hkr, if_neg hkc]
        · rw [hs3, hlen']
        · intro B hB j hj hsub
          have hB2 : ∀ i, i < hi → inSub ch i = true →
              gD (swapL l (first+root) (first+ch)) (first+i) ≤ B := by
            intro i hihi hisub
            have hige := inSub_ge hisub
            by_cases hie : i = ch
            · rw [hg (first+i), if_neg (by omega), if_pos (by omega)]
              exact hB root hroot_hi (inSub_self _)
            · rw [hg (first+i), if_neg (by omega), if_neg (by omega)]
              exact hB i hihi (inSub_trans hch_sub i hisub)
          by_cases hjin : inSub ch j = true
          · exact hs4 B hB2 j hj hjin
          · have hjf : inSub ch j = false := by
              revert hjin
              cases inSub ch j <;> simp
            have hjnech : j ≠ ch := by
              intro hc
              rw [hc, inSub_self] at hjf
              exact Bool.noConfusion hjf
            rw [hs2 (first+j) (fun i hihi hisub => by
              intro heq
              have hji : j = i := by omega
              rw [hji, hisub] at hjf
              exact Bool.noConfusion hjf)]
            by_cases hjr : j = root
            · rw [hg (first+j), if_pos (by omega)]
              exact hB ch hch_lt hch_sub
            · rw [hg (first+j), if_neg (by omega), if_neg (by omega)]
              exact hB j hj hsub
      · rw [if_pos (fun h => hlt h)]
        have hge : gD l (first+ch) ≤ gD l (first+root) := by
          have := lessAt_natLt_false hroot_len hch_len (by
            revert hlt
            cases lessAt natLt l (first+root) (first+ch) <;> simp)
          omega
        refine ⟨?_, fun k _ => rfl, rfl, fun B hB j hj hsub => hB j hj hsub⟩
        intro j hj1 hjhi hjsub hjne
        by_cases hpar : (j-1)/2 = root
        · have hjmem : j = 2*root+1 ∨ j = 2*root+2 := by omega
          rw [hpar]
          exact le_trans (hmax j hjmem hjhi) hge
        · exact hpre j hj1 hjhi hjsub hjne hpar

theorem inSub_zero (j : Nat) : inSub 0 j = true := by
  induction j using Nat.strong_induction_on with
  | _ j ih =>
    rcases Nat.eq_zero_or_pos j with h | h
    · rw [h]
      exact inSub_self 0
    · rw [inSub, dif_neg (by omega), dif_neg (by omega)]
      exact ih ((j-1)/2) (by omega)

theorem swapL_self_gD (l : List Nat) (k m : Nat) : gD (swapL l k k) m = gD l m := by
  by_cases h : k < l.length
  · rw [swapL_gD h h]
    by_cases hm : m = k
    · rw [if_pos hm, hm]
    · rw [if_neg hm, if_neg hm]
  · have hn : l[k]? = none := by
      rw [List.getElem?_eq_none_iff]
      omega
    unfold swapL
    rw [hn]

theorem heapBuild_spec : ∀ (fuel : Nat) (l : List Nat) (i hi first : Nat),
    first + hi ≤ l.length → i < fuel →
    (∀ j, 1 ≤ j → j < hi → i < (j-1)/2 → gD l (first+j) ≤ gD l (first+(j-1)/2)) →
    (∀ j, 1 ≤ j → j < hi → gD (heapBuild natLt fuel l i hi first) (first+j) ≤
        gD (heapBuild natLt fuel l i hi first) (first+(j-1)/2)) ∧
    (∀ k, k < first ∨ first + hi ≤ k → gD (heapBuild natLt fuel l i hi first) k = gD l k) ∧
    (heapBuild natLt fuel l i hi first).length = l.length := by
  intro fuel
  induction fuel with
  | zero =>
    intro l i hi first _ hf _
    omega
  | succ f ih =>
    intro l i hi first hlen hf hpre
    obtain ⟨hd1, hd2, hd3, _⟩ := siftDown_spec (hi+1) l i hi first hlen (by omega)
      (by
        intro j hj1 hjhi hjsub hjne hjpar
        have hpsub := inSub_parent hjsub hjne
        have hpge := inSub_ge hpsub
        exact hpre j hj1 hjhi (by omega))
    have hInv1 : ∀ j, 1 ≤ j → j < hi →
        i ≤ (j-1)/2 → gD (siftDownGo natLt (hi+1) l i hi first) (first+j) ≤
          gD (siftDownGo natLt (hi+1) l i hi first) (first+(j-1)/2) := by
      intro j hj1 hjhi hple
      by_cases hin : inSub i j = true
      · exact hd1 j hj1 hjhi hin (by
          intro hc
          rw [hc] at hple
          omega)
      · have hjf : inSub i j = false := by
          revert hin
          cases inSub i j <;> simp
        have hpf : inSub i ((j-1)/2) = false := by
          rcases hb : inSub i ((j-1)/2) with _ | _
          · rfl
          · exact absurd (inSub_of_parent hb hj1)
              (by rw [hjf]; intro hc; exact Bool.noConfusion hc)
        rw [hd2 (first+j) (fun j2 hj2 hjsub2 => by
          intro heq
          have hjj : j = j2 := by omega
          rw [hjj, hjsub2] at hjf
          exact Bool.noConfusion hjf)]
        rw [hd2 (first+(j-1)/2) (fun j2 hj2 hjsub2 => by
          intro heq
          have hjj : (j-1)/2 = j2 := by omega
          rw [hjj, hjsub2] at hpf
          exact Bool.noConfusion hpf)]
        have hpne : (j-1)/2 ≠ i := by
          intro hc
          rw [hc, inSub_self] at hpf
          exact Bool.noConfusion hpf
        exact hpre j hj1 hjhi (by omega)
    simp only [heapBuild]
    by_cases hiz : i = 0
    · rw [if_pos hiz]
      subst hiz
      refine ⟨?_, fun k hk => hd2 k (fun j hj hjsub => by omega), hd3⟩
      intro j hj1 hjhi
      exact hInv1 j hj1 hjhi (by omega)
    · rw [if_neg hiz]
      obtain ⟨hr1, hr2, hr3⟩ := ih (siftDownGo natLt (hi+1) l i hi first) (i-1) hi first
        (by omega) (by omega)
        (by
          intro j hj1 hjhi hip
          exact hInv1 j hj1 hjhi (by omega))
      refine ⟨hr1, ?_, by rw [hr3, hd3]⟩
      intro k hk
      rw [hr2 k hk]
      exact hd2 k (fun j hj hjsub => by omega)

theorem heapExtract_spec : ∀ (fuel : Nat) (l : List Nat) (i first hi0 : Nat),
    first + hi0 ≤ l.length → i < hi0 → i < fuel →
    (∀ j, 1 ≤ j → j < i+1 → gD l (first+j) ≤ gD l (first+(j-1)/2)) →
    (∀ p q, p < i+1 → i < q → q < hi0 → gD l (first+p) ≤ gD l (first+q)) →
    (∀ q r, i < q → q ≤ r → r < hi0 → gD l (first+q) ≤ gD l (first+r)) →
    (∀ p q, p ≤ q → q < hi0 → gD (heapExtract natLt fuel l i first) (first+p) ≤
        gD (heapExtract natLt fuel l i first) (first+q)) ∧
    (∀ k, k < first ∨ first + hi0 ≤ k → gD (heapExtract natLt fuel l i first) k = gD l k) ∧
    (heapExtract natLt fuel l i first).length = l.length := by
  intro fuel
  induction fuel with
  | zero =>
    intro l i first hi0 _ _ hf _ _ _
    omega
  | succ f ih =>
    intro l i first hi0 hlen hihi hf hheap hcross hsuf
    have hroot_max : ∀ j, j < i+1 → gD l (first+j) ≤ gD l (first+0) := by
      intro j hj
      exact sub_max l first (i+1) 0
        (fun j2 hj2a hj2b _ _ => hheap j2 hj2a hj2b) j hj (inSub_zero j)
    simp only [heapExtract]
    by_cases hiz : i = 0
    · rw [if_pos hiz]
      subst hiz
      have hgd : ∀ m, gD (siftDownGo natLt 1 (swapL l first (first+0)) 0 0 first) m = gD l m := by
        intro m
        simp only [siftDownGo]
        rw [if_pos (by omega), Nat.add_zero]
        exact swapL_self_gD l first m
      have hlenz : (siftDownGo natLt 1 (swapL l first (first+0)) 0 0 first).length = l.length := by
        simp only [siftDownGo]
        rw [if_pos (by omega)]
        exact swapL_length l first (first+0)
      refine ⟨?_, fun k _ => hgd k, hlenz⟩
      intro p q hpq hq
      rw [hgd (first+p), hgd (first+q)]
      rcases Nat.eq_or_lt_of_le hpq with h | h
      · rw [h]
      · rcases Nat.eq_zero_or_pos p with hp | hp
        · rw [hp]
          exact hcross 0 q (by omega) (by omega) hq
        · exact hsuf p q (by omega) hpq hq
    · rw [if_neg hiz]
      have hfirst_len : first < l.length := by omega
      have hfi_len : first + i < l.length := by omega
      have hg : ∀ k, gD (swapL l first (first+i)) k =
          if k = first then gD l (first+i)
          else if k = first+i then gD l first else gD l k := by
        have := swapL_gD (l := l) (i := first) (j := first+i) hfirst_len hfi_len
        exact this
      obtain ⟨hd1, hd2, hd3, hd4⟩ := siftDown_spec (i+1) (swapL l first (first+i)) 0 i first
        (by rw [swapL_length]; omega) (by omega)
        (by
          intro j hj1 hjhi hjsub hjne hjpar
          have hple : (j-1)/2 < j := by omega
          rw [hg (first+j), if_neg (by omega), if_neg (by omega),
            hg (first+(j-1)/2), if_neg (by omega), if_neg (by omega)]
          exact hheap j hj1 (by omega))
      set l1 := siftDownGo natLt (i+1) (swapL l first (first+i)) 0 i first with hl1def
      -- the extracted maximum sits at position first+i, untouched by the sift
      have hmax_pos : gD l1 (first+i) = gD l (first+0) := by
        rw [hd2 (first+i) (fun j hj hjsub => by omega)]
        rw [hg (first+i), if_neg (by omega), if_pos rfl, Nat.add_zero]
      have hsuf_untouched : ∀ q, i < q → q < hi0 → gD l1 (first+q) = gD l (first+q) := by
        intro q hq1 hq2
        rw [hd2 (first+q) (fun j hj hjsub => by omega)]
        rw [hg (first+q), if_neg (by omega), if_neg (by omega)]
      have hsuf1 : ∀ q r, i-1 < q → q ≤ r → r < hi0 → gD l1 (first+q) ≤ gD l1 (first+r) := by
        intro q r hq hqr hr
        rcases Nat.eq_or_lt_of_le hqr with h | h
        · rw [h]
        · rcases Nat.lt_or_ge i q with hq2 | hq2
          · rw [hsuf_untouched q (by omega) (by omega), hsuf_untouched r (by omega) hr]
            exact hsuf q r hq2 hqr hr
          · have hqi : q = i := by omega
            rw [hqi, hmax_pos, hsuf_untouched r (by omega) hr]
            exact hcross 0 r (by omega) (by omega) hr
      have hpref_le : ∀ p, p < i → gD l1 (first+p) ≤ gD l (first+0) := by
        intro p hp
        refine hd4 (gD l (first+0)) ?_ p hp (inSub_zero p)
        intro j hj hjsub
        by_cases hjz : j = 0
        · rw [hjz, Nat.add_zero, hg first, if_pos rfl]
          exact hroot_max i (by omega)
        · rw [hg (first+j), if_neg (by omega), if_neg (by omega)]
          exact hroot_max j (by omega)
      have hcross1 : ∀ p q, p < i → i-1 < q → q < hi0 →
          gD l1 (first+p) ≤ gD l1 (first+q) := by
        intro p q hp hq1 hq2
        refine le_trans (hpref_le p hp) ?_
        rw [show gD l (first+0) = gD l1 (first+i) from hmax_pos.symm]
        exact hsuf1 i q (by omega) (by omega) hq2
      obtain ⟨hr1, hr2, hr3⟩ := ih l1 (i-1) first hi0
        (by rw [hl1def, hd3, swapL_length]; omega) (by omega) (by omega)
        (by
          intro j hj1 hjhi
          exact hd1 j hj1 (by omega) (inSub_zero j) (by omega))
        (by
          intro p q hp hq1 hq2
          exact hcross1 p q (by omega) hq1 hq2)
        hsuf1
      refine ⟨?_, ?_, ?_⟩
      · intro p q hpq hq
        exact hr1 p q hpq hq
      · intro k hk
        rw [hr2 k hk]
        rw [hd2 k (fun j hj hjsub => by omega)]
        rw [hg k, if_neg (by omega), if_neg (by omega)]
      · rw [hr3, hl1def, hd3, swapL_length]

theorem heapSortGo_spec (l : List Nat) (a b : Nat) (hb : b ≤ l.length) :
    SortedRange (heapSortGo natLt l a b) a b ∧ RPerm l (heapSortGo natLt l a b) a b := by
  simp only [heapSortGo]
  by_cases hz : b - a = 0
  · rw [if_pos hz]
    exact ⟨fun i j hi hij hj => by omega, RPerm.refl l a b⟩
  · rw [if_neg hz]
    obtain ⟨hb1, hb2, hb3⟩ := heapBuild_spec (b-a) l ((b-a-1)/2) (b-a) a
      (by omega) (by omega)
      (by
        intro j hj1 hjhi hip
        omega)
    obtain ⟨he1, he2, he3⟩ := heapExtract_spec (b-a)
      (heapBuild natLt (b-a) l ((b-a-1)/2) (b-a) a) (b-a-1) a (b-a)
      (by rw [hb3]; omega) (by omega) (by omega)
      (by
        intro j hj1 hjhi
        exact hb1 j hj1 (by omega))
      (by
        intro p q hp hq1 hq2
        omega)
      (by
        intro q r hq hqr hr
        omega)
    refine ⟨?_, ?_⟩
    · intro i j hi hij hj
      have := he1 (i-a) (j-a) (by omega) (by omega)
      rw [show a + (i-a) = i by omega, show a + (j-a) = j by omega] at this
      exact this
    · refine rperm_of_global l _ a b (by omega) (by rw [he3, hb3]) ?_ ?_
      · exact (heapExtract_perm natLt _ _ _ _).trans (heapBuild_perm natLt _ _ _ _ _)
      · intro k hk
        rw [he2 k (by omega)]
        exact hb2 k (by omega)

theorem quickSortGo_spec : ∀ (fuel : Nat) (l : List Nat) (a b depth : Nat),
    b ≤ l.length → b - a < fuel →
    SortedRange (quickSortGo natLt fuel l a b depth) a b ∧
      RPerm l (quickSortGo natLt fuel l a b depth) a b := by
  intro fuel
  induction fuel with
  | zero =>
    intro l a b depth _ hf
    omega
  | succ f ih =>
    intro l a b depth hb hf
    simp only [quickSortGo]
    by_cases h12 : b - a > 12
    · rw [if_pos h12]
      by_cases hd0 : depth = 0
      · rw [if_pos hd0]
        exact heapSortGo_spec l a b hb
      · rw [if_neg hd0]
        obtain ⟨pv, hq1, hq2, hq3, hq4, hq5, hL1, hM1, hR1, hP1⟩ :=
          doPivotGo_spec l a b hb (by omega)
        set l1 := (doPivotGo natLt l a b).1 with hl1
        set mlo := (doPivotGo natLt l a b).2.1 with hmlo
        set mhi := (doPivotGo natLt l a b).2.2 with hmhi
        have hlen1 : l1.length = l.length := hP1.1
        by_cases hside : mlo - a < b - mhi
        · rw [if_pos hside]
          obtain ⟨hsortL, hpermL⟩ := ih l1 a mlo (depth-1) (by omega) (by omega)
          set l2 := quickSortGo natLt f l1 a mlo (depth-1) with hl2
          have hlen2 : l2.length = l1.length := hpermL.1
          obtain ⟨hsortR, hpermR⟩ := ih l2 mhi b (depth-1) (by omega) (by omega)
          set l3 := quickSortGo natLt f l2 mhi b (depth-1) with hl3
          have hL2 : ∀ k, a ≤ k → k < mlo → gD l2 k ≤ pv :=
            hpermL.bound (by omega) (fun x => x ≤ pv) hL1
          have hM2 : ∀ k, mlo ≤ k → k < mhi → gD l2 k = pv := by
            intro k h1 h2
            rw [hpermL.2.1 k (Or.inr h1)]
            exact hM1 k h1 h2
          have hR2 : ∀ k, mhi ≤ k → k < b → pv ≤ gD l2 k := by
            intro k h1 h2
            rw [hpermL.2.1 k (Or.inr (by omega))]
            exact hR1 k h1 h2
          have hR3 : ∀ k, mhi ≤ k → k < b → pv ≤ gD l3 k :=
            hpermR.bound (by omega) (fun x => pv ≤ x) hR2
          have hL3 : ∀ k, a ≤ k → k < mlo → gD l3 k ≤ pv := by
            intro k h1 h2
            rw [hpermR.2.1 k (Or.inl (by omega))]
            exact hL2 k h1 h2
          have hM3 : ∀ k, mlo ≤ k → k < mhi → gD l3 k = pv := by
            intro k h1 h2
            rw [hpermR.2.1 k (Or.inl (by omega))]
            exact hM2 k h1 h2
          have hSL3 : ∀ i j, a ≤ i → i ≤ j → j < mlo → gD l3 i ≤ gD l3 j := by
            intro i j h1 h2 h3
            rw [hpermR.2.1 i (Or.inl (by omega)), hpermR.2.1 j (Or.inl (by omega))]
            exact hsortL i j h1 h2 h3
          refine ⟨?_, ?_⟩
          · intro i j hi hij hj
            rcases Nat.lt_or_ge i mlo with hi1 | hi1
            · rcases Nat.lt_or_ge j mlo with hj1 | hj1
              · exact hSL3 i j hi hij hj1
              · rcases Nat.lt_or_ge j mhi with hj2 | hj2
                · rw [hM3 j hj1 hj2]
                  exact hL3 i hi hi1
                · exact le_trans (hL3 i hi hi1) (hR3 j hj2 hj)
            · rcases Nat.lt_or_ge i mhi with hi2 | hi2
              · rcases Nat.lt_or_ge j mhi with hj2 | hj2
                · rw [hM3 i hi1 hi2, hM3 j (by omega) hj2]
                · rw [hM3 i hi1 hi2]
                  exact hR3 j hj2 hj
              · exact hsortR i j hi2 hij hj
          · exact hP1.trans ((hpermL.extend a b (Nat.le_refl a) (by omega) (by omega)).trans
              (hpermR.extend a b (by omega) (by omega) (Nat.le_refl b)))
        · rw [if_neg hside]
          obtain ⟨hsortR, hpermR⟩ := ih l1 mhi b (depth-1) (by omega) (by omega)
          set l2 := quickSortGo natLt f l1 mhi b (depth-1) with hl2
          have hlen2 : l2.length = l1.length := hpermR.1
          obtain ⟨hsortL, hpermL⟩ := ih l2 a mlo (depth-1) (by omega) (by omega)
          set l3 := quickSortGo natLt f l2 a mlo (depth-1) with hl3
          have hR2 : ∀ k, mhi ≤ k → k < b → pv ≤ gD l2 k :=
            hpermR.bound (by omega) (fun x => pv ≤ x) hR1
          have hL2 : ∀ k, a ≤ k → k < mlo → gD l2 k ≤ pv := by
            intro k h1 h2
            rw [hpermR.2.1 k (Or.inl (by omega))]
            exact hL1 k h1 h2
          have hM2 : ∀ k, mlo ≤ k → k < mhi → gD l2 k = pv := by
            intro k h1 h2
            rw [hpermR.2.1 k (Or.inl (by omega))]
            exact hM1 k h1 h2
          have hL3 : ∀ k, a ≤ k → k < mlo → gD l3 k ≤ pv :=
            hpermL.bound (by omega) (fun x => x ≤ pv) hL2
          have hM3 : ∀ k, mlo ≤ k → k < mhi → gD l3 k = pv := by
            intro k h1 h2
            rw [hpermL.2.1 k (Or.inr (by omega))]
            exact hM2 k h1 h2
          have hR3 : ∀ k, mhi ≤ k → k < b → pv ≤ gD l3 k := by
            intro k h1 h2
            rw [hpermL.2.1 k (Or.inr (by omega))]
            exact hR2 k h1 h2
          have hSR3 : ∀ i j, mhi ≤ i → i ≤ j → j < b → gD l3 i ≤ gD l3 j := by
            intro i j h1 h2 h3
            rw [hpermL.2.1 i (Or.inr (by omega)), hpermL.2.1 j (Or.inr (by omega))]
            exact hsortR i j h1 h2 h3
          refine ⟨?_, ?_⟩
          · intro i j hi hij hj
            rcases Nat.lt_or_ge i mlo with hi1 | hi1
            · rcases Nat.lt_or_ge j mlo with hj1 | hj1
              · exact hsortL i j hi hij hj1
              · rcases Nat.lt_or_ge j mhi with hj2 | hj2
                · rw [hM3 j hj1 hj2]
                  exact hL3 i hi hi1
                · exact le_trans (hL3 i hi hi1) (hR3 j hj2 hj)
            · rcases Nat.lt_or_ge i mhi with hi2 | hi2
              · rcases Nat.lt_or_ge j mhi with hj2 | hj2
                · rw [hM3 i hi1 hi2, hM3 j (by omega) hj2]
                · rw [hM3 i hi1 hi2]
                  exact hR3 j hj2 hj
              · exact hSR3 i j hi2 hij hj
          · exact hP1.trans ((hpermR.extend a b (by omega) (by omega) (Nat.le_refl b)).trans
              (hpermL.extend a b (Nat.le_refl a) (by omega) (by omega)))
    · rw [if_neg h12]
      by_cases h1 : b - a > 1
      · rw [if_pos h1]
        have hsh : RPerm l (shellGo natLt (b+1) l b (a+6)) a b :=
          shellGo_spec (b+1) l b (a+6) a hb (Nat.le_refl _)
        obtain ⟨hsi, hpi⟩ := insertionSortGo_spec (shellGo natLt (b+1) l b (a+6)) a b
          (by rw [hsh.1]; omega)
        exact ⟨hsi, hsh.trans hpi⟩
      · rw [if_neg h1]
        refine ⟨?_, RPerm.refl l a b⟩
        intro i j hi hij hj
        have : i = j := by omega
        rw [this]

theorem sortGo_natLt_spec (l : List Nat) :
    SortedRange (sortGo natLt l) 0 l.length ∧ RPerm l (sortGo natLt l) 0 l.length := by
  unfold sortGo
  exact quickSortGo_spec (l.length+1) l 0 l.length (maxDepthGo l.length)
    (Nat.le_refl _) (by omega)

theorem sortGo_natLt_pairwise (l : List Nat) :
    (sortGo natLt l).Pairwise (fun x y => x ≤ y) := by
  obtain ⟨hs, hp⟩ := sortGo_natLt_spec l
  have hlen : (sortGo natLt l).length = l.length := hp.1
  rw [List.pairwise_iff_getElem]
  intro i j hi hj hij
  have h := hs i j (Nat.zero_le _) (by omega) (by omega)
  rw [gD_eq_getElem _ _ (by omega), gD_eq_getElem _ _ (by omega)] at h
  exact h

/-- `Ls` puts every directory before every file, for listings of any size:
`sort.Sort` on the rank list sorts it. -/
theorem Ls_dirsFirst_any (es : FList) :
    (Ls es).Pairwise (fun x y => entRank x ≤ entRank y) := by
  have hm : ((Ls es).map entRank).Pairwise (fun a b => a ≤ b) := by
    rw [Ls_map_rank]
    exact sortGo_natLt_pairwise _
  exact (List.pairwise_map).mp hm



/-! ## Walk fuel sufficiency

`walkF` consumes one unit of fuel per phase switch and per processed entry,
so any fuel at least `2 + 2 * (total size)` gives the same result; in
particular `Walk`'s fuel `wFuel` never runs out. -/

/-- Total size of a listing (a `List` of entries). -/
def sumSz (l : List FEntry) : Nat := (l.map szE).sum

/-- Fuel cost of entering a phase. -/
def phFuel : Bool → Nat
  | true => 1
  | false => 2

theorem szL_toList : ∀ (es : FList), sumSz es.toList = szL es
  | .nil => rfl
  | .cons e r => by
    have ih := szL_toList r
    simp only [sumSz, FList.toList, List.map_cons, List.sum_cons, szL] at ih ⊢
    omega

theorem sumSz_sortGo (l : List FEntry) : sumSz (sortGo entryLess l) = sumSz l :=
  List.Perm.sum_eq ((sortGo_perm entryLess l).map szE)

theorem sumSz_cons (e : FEntry) (rest : List FEntry) :
    sumSz (e :: rest) = szE e + sumSz rest := by simp [sumSz]

theorem walkF_fuel_eq {σ : Type} (fn : σ → String → FileInfo → Option GoErr × σ) :
    ∀ (f g : Nat) (ph : Bool) (dir : String) (s : σ) (l : List FEntry),
      phFuel ph + 2 * sumSz l ≤ f →
      phFuel ph + 2 * sumSz l ≤ g →
      walkF fn f ph dir s l = walkF fn g ph dir s l := by
  intro f
  induction f with
  | zero =>
    intro g ph dir s l hf _
    cases ph <;> simp only [phFuel] at hf <;> omega
  | succ f ih =>
    intro g ph dir s l hf hg
    cases g with
    | zero =>
      cases ph <;> simp only [phFuel] at hg <;> omega
    | succ g =>
      cases ph with
      | false =>
        simp only [walkF]
        apply ih
        · simp only [phFuel, sumSz_sortGo]
          simp only [phFuel] at hf
          omega
        · simp only [phFuel, sumSz_sortGo]
          simp only [phFuel] at hg
          omega
      | true =>
        cases l with
        | nil => simp [walkF]
        | cons e rest =>
          cases e with
          | file name content =>
            simp only [walkF]
            cases hr : (fn s dir ⟨name, false⟩).1 with
            | some err => rfl
            | none =>
              apply ih
              · simp only [phFuel]
                simp only [phFuel, sumSz_cons, szE] at hf
                omega
              · simp only [phFuel]
                simp only [phFuel, sumSz_cons, szE] at hg
                omega
          | dir name children =>
            have hsz : sumSz (FEntry.dir name children :: rest) = 2 + szL children + sumSz rest := by
              simp [sumSz_cons, szE]
            rw [hsz] at hf hg
            simp only [phFuel] at hf hg
            simp only [walkF]
            cases hr : (fn s dir ⟨name, true⟩).1 with
            | some err =>
              cases err with
              | skipDir =>
                apply ih <;> simp only [phFuel] <;> omega
              | notFound => rfl
              | other n => rfl
            | none =>
              have hdesc : walkF fn f false (pathJoin dir name) (fn s dir ⟨name, true⟩).2
                  children.toList =
                  walkF fn g false (pathJoin dir name) (fn s dir ⟨name, true⟩).2
                    children.toList := by
                apply ih <;> simp only [phFuel, szL_toList] <;> omega
              rw [hdesc]
              cases hr2 : (walkF fn g false (pathJoin dir name) (fn s dir ⟨name, true⟩).2
                  children.toList).2 with
              | some err => rfl
              | none =>
                apply ih <;> simp only [phFuel] <;> omega

/-! ## Specification vocabulary for walks

`entriesL dir es` is the full list of `(parentDir, info)` pairs of the tree
`es` rooted at `dir` (the calls a complete walk makes, in tree order);
`namesL` collects every name in a tree, `subL` every entry (at any depth),
and `uniqNames` says all names in the tree are pairwise distinct. -/

mutual
/-- All visitor calls a complete walk makes below one entry. -/
def entriesE (dir : String) : FEntry → List (String × FileInfo)
  | .file n _ => [(dir, ⟨n, false⟩)]
  | .dir n cs => (dir, ⟨n, true⟩) :: entriesL (pathJoin dir n) cs
/-- All visitor calls a complete walk makes in a forest. -/
def entriesL (dir : String) : FList → List (String × FileInfo)
  | .nil => []
  | .cons e r => entriesE dir e ++ entriesL dir r
end

mutual
/-- All names occurring in (the subtree of) one entry. -/
def namesE : FEntry → List String
  | .file n _ => [n]
  | .dir n cs => n :: namesL cs
/-- All names occurring in a forest. -/
def namesL : FList → List String
  | .nil => []
  | .cons e r => namesE e ++ namesL r
end

mutual
/-- All entries in (the subtree of) one entry, the entry itself included. -/
def subE : FEntry → List FEntry
  | .file n c => [.file n c]
  | .dir n cs => .dir n cs :: subL cs
/-- All entries of a forest, at any depth. -/
def subL : FList → List FEntry
  | .nil => []
  | .cons e r => subE e ++ subL r
end

/-- Every name in the tree occurs once. -/
def uniqNames (es : FList) : Prop := (namesL es).Nodup

/-- `entriesL` on a listing given as a `List`. -/
def entriesList (dir : String) (l : List FEntry) : List (String × FileInfo) :=
  l.flatMap (entriesE dir)

/-- `namesL` on a listing given as a `List`. -/
def namesList (l : List FEntry) : List String := l.flatMap namesE

/-- `subL` on a listing given as a `List`. -/
def subList (l : List FEntry) : List FEntry := l.flatMap subE

theorem entriesL_toList (dir : String) :
    ∀ (es : FList), entriesList dir es.toList = entriesL dir es
  | .nil => rfl
  | .cons e r => by
    have ih := entriesL_toList dir r
    simp only [entriesList, FList.toList, List.flatMap_cons, entriesL] at ih ⊢
    rw [ih]

theorem namesL_toList : ∀ (es : FList), namesList es.toList = namesL es
  | .nil => rfl
  | .cons e r => by
    have ih := namesL_toList r
    simp only [namesList, FList.toList, List.flatMap_cons, namesL] at ih ⊢
    rw [ih]

theorem subL_toList : ∀ (es : FList), subList es.toList = subL es
  | .nil => rfl
  | .cons e r => by
    have ih := subL_toList r
    simp only [subList, FList.toList, List.flatMap_cons, subL] at ih ⊢
    rw [ih]

theorem namesList_sortGo_perm (l : List FEntry) :
    List.Perm (namesList (sortGo entryLess l)) (namesList l) :=
  List.Perm.flatMap_right namesE (sortGo_perm entryLess l)

theorem entriesList_sortGo_perm (dir : String) (l : List FEntry) :
    List.Perm (entriesList dir (sortGo entryLess l)) (entriesList dir l) :=
  List.Perm.flatMap_right (entriesE dir) (sortGo_perm entryLess l)

theorem mem_subList_sortGo {x : FEntry} {l : List FEntry} :
    x ∈ subList (sortGo entryLess l) ↔ x ∈ subList l :=
  (List.Perm.flatMap_right subE (sortGo_perm entryLess l)).mem_iff

mutual
/-- The names below a nested directory entry occur among the names of the
enclosing entry. -/
theorem names_sub_of_mem_subE : ∀ (e : FEntry) (nm : String) (cs : FList),
    FEntry.dir nm cs ∈ subE e → ∀ x ∈ nm :: namesL cs, x ∈ namesE e
  | .file n c, nm, cs, h => by simp [subE] at h
  | .dir n cs', nm, cs, h => by
    simp only [subE, List.mem_cons] at h
    rcases h with h | h
    · cases h
      intro x hx
      simpa [namesE] using hx
    · intro x hx
      have := names_sub_of_mem_subL cs' nm cs h x hx
      simp [namesE, this]
/-- The names below a directory entry of a forest occur among the forest's
names. -/
theorem names_sub_of_mem_subL : ∀ (es : FList) (nm : String) (cs : FList),
    FEntry.dir nm cs ∈ subL es → ∀ x ∈ nm :: namesL cs, x ∈ namesL es
  | .nil, nm, cs, h => by simp [subL] at h
  | .cons e r, nm, cs, h => by
    simp only [subL, List.mem_append] at h
    intro x hx
    rcases h with h | h
    · have := names_sub_of_mem_subE e nm cs h x hx
      simp [namesL, this]
    · have := names_sub_of_mem_subL r nm cs h x hx
      simp [namesL, this]
end

/-- List-level variant of `names_sub_of_mem_subL`. -/
theorem names_sub_of_mem_subList (l : List FEntry) (nm : String) (cs : FList)
    (h : FEntry.dir nm cs ∈ subList l) : ∀ x ∈ nm :: namesL cs, x ∈ namesList l := by
  induction l with
  | nil => simp [subList] at h
  | cons e r ih =>
    simp only [subList, List.flatMap_cons, List.mem_append] at h
    intro x hx
    rcases h with h | h
    · have := names_sub_of_mem_subE e nm cs h x hx
      simp [namesList, this]
    · have := ih h x hx
      simp only [namesList, List.flatMap_cons, List.mem_append]
      exact Or.inr (by simpa [namesList] using this)

/-! ## Trace composition -/

/-- The recorded trace only grows at the tail: running from state `s` gives
`s ++` the trace from the empty state, with the same returned error. -/
theorem walkF_trace_shift (visit : String → FileInfo → Option GoErr) :
    ∀ (fuel : Nat) (ph : Bool) (dir : String) (s : List (String × FileInfo)) (l : List FEntry),
      walkF (traceFn visit) fuel ph dir s l =
        (s ++ (walkF (traceFn visit) fuel ph dir [] l).1,
          (walkF (traceFn visit) fuel ph dir [] l).2) := by
  intro fuel
  induction fuel with
  | zero => intro ph dir s l; simp [walkF]
  | succ f ih =>
    intro ph dir s l
    cases ph with
    | false => simp only [walkF]; exact ih true dir s _
    | true =>
      cases l with
      | nil => simp [walkF]
      | cons e rest =>
        cases e with
        | file name content =>
          simp only [walkF, traceFn]
          cases hr : visit dir ⟨name, false⟩ with
          | some err => simp
          | none =>
            dsimp only
            rw [ih true dir (s ++ [(dir, FileInfo.mk name false)]) rest,
              ih true dir ([] ++ [(dir, FileInfo.mk name false)]) rest]
            simp
        | dir name children =>
          simp only [walkF, traceFn]
          cases hr : visit dir ⟨name, true⟩ with
          | some err =>
            cases err with
            | skipDir =>
              dsimp only
              rw [ih true dir (s ++ [(dir, FileInfo.mk name true)]) rest,
                ih true dir ([] ++ [(dir, FileInfo.mk name true)]) rest]
              simp
            | notFound => simp
            | other n => simp
          | none =>
            dsimp only
            rw [ih false (pathJoin dir name) (s ++ [(dir, FileInfo.mk name true)]) children.toList,
              ih false (pathJoin dir name) ([] ++ [(dir, FileInfo.mk name true)]) children.toList]
            simp only [List.nil_append, List.append_assoc]
            cases hr2 : (walkF (traceFn visit) f false (pathJoin dir name) []
                children.toList).2 with
            | some err => simp
            | none =>
              dsimp only
              rw [ih true dir (s ++ ([(dir, FileInfo.mk name true)] ++
                    (walkF (traceFn visit) f false (pathJoin dir name) [] children.toList).1))
                  rest,
                ih true dir ([(dir, FileInfo.mk name true)] ++
                    (walkF (traceFn visit) f false (pathJoin dir name) [] children.toList).1)
                  rest]
              simp

/-! ## Walk semantics -/

theorem namesList_cons (e : FEntry) (rest : List FEntry) :
    namesList (e :: rest) = namesE e ++ namesList rest := by
  simp [namesList]

/-- Every visited entry carries a name of the walked forest. -/
theorem walkF_names (visit : String → FileInfo → Option GoErr) :
    ∀ (fuel : Nat) (ph : Bool) (dir : String) (l : List FEntry) (q : String) (i : FileInfo),
      (q, i) ∈ (walkF (traceFn visit) fuel ph dir [] l).1 → i.name ∈ namesList l := by
  intro fuel
  induction fuel with
  | zero => intro ph dir l q i h; simp [walkF] at h
  | succ f ih =>
    intro ph dir l q i h
    cases ph with
    | false =>
      simp only [walkF] at h
      have := ih true dir (sortGo entryLess l) q i h
      exact (namesList_sortGo_perm l).mem_iff.mp this
    | true =>
      cases l with
      | nil => simp [walkF] at h
      | cons e rest =>
        cases e with
        | file name content =>
          simp only [walkF, traceFn] at h
          rw [namesList_cons]
          cases hr : visit dir ⟨name, false⟩ with
          | some err =>
            simp only [hr] at h
            simp at h
            simp [h.2, namesE]
          | none =>
            simp only [hr] at h
            rw [walkF_trace_shift visit f true dir _ rest] at h
            simp only [List.nil_append] at h
            rcases List.mem_append.mp h with h1 | h2
            · simp at h1
              simp [h1.2, namesE]
            · simp [ih true dir rest q i h2]
        | dir name children =>
          simp only [walkF, traceFn] at h
          rw [namesList_cons]
          cases hr : visit dir ⟨name, true⟩ with
          | some err =>
            cases err with
            | skipDir =>
              simp only [hr] at h
              rw [walkF_trace_shift visit f true dir _ rest] at h
              simp only [List.nil_append] at h
              rcases List.mem_append.mp h with h1 | h2
              · simp at h1
                simp [h1.2, namesE]
              · simp [ih true dir rest q i h2]
            | notFound =>
              simp only [hr] at h
              simp at h
              simp [h.2, namesE]
            | other n =>
              simp only [hr] at h
              simp at h
              simp [h.2, namesE]
          | none =>
            simp only [hr] at h
            rw [walkF_trace_shift visit f false (pathJoin dir name) _ children.toList] at h
            simp only [List.nil_append] at h
            cases hr2 : (walkF (traceFn visit) f false (pathJoin dir name) []
                children.toList).2 with
            | some err =>
              simp only [hr2] at h
              rcases List.mem_append.mp h with h1 | h2
              · simp at h1
                simp [h1.2, namesE]
              · have := ih false (pathJoin dir name) children.toList q i h2
                rw [namesL_toList] at this
                simp [namesE, this]
            | none =>
              simp only [hr2] at h
              rw [walkF_trace_shift visit f true dir _ rest] at h
              rcases List.mem_append.mp h with h1 | h2
              · rcases List.mem_append.mp h1 with h1a | h1b
                · simp at h1a
                  simp [h1a.2, namesE]
                · have := ih false (pathJoin dir name) children.toList q i h1b
                  rw [namesL_toList] at this
                  simp [namesE, this]
              · simp [ih true dir rest q i h2]

/-- A visitor that only ever answers `continue`, or `SkipDir` on directory
entries, never aborts the walk: the walk returns `nil`. -/
theorem walkF_no_abort (visit : String → FileInfo → Option GoErr)
    (hv : ∀ d i, visit d i = none ∨ (visit d i = some GoErr.skipDir ∧ i.isDir = true)) :
    ∀ (fuel : Nat) (ph : Bool) (dir : String) (s : List (String × FileInfo)) (l : List FEntry),
      phFuel ph + 2 * sumSz l ≤ fuel →
      (walkF (traceFn visit) fuel ph dir s l).2 = none := by
  intro fuel
  induction fuel with
  | zero => intro ph dir s l hf; cases ph <;> simp only [phFuel] at hf <;> omega
  | succ f ih =>
    intro ph dir s l hf
    cases ph with
    | false =>
      simp only [walkF]
      apply ih
      simp only [phFuel, sumSz_sortGo]
      simp only [phFuel] at hf
      omega
    | true =>
      cases l with
      | nil => simp [walkF]
      | cons e rest =>
        cases e with
        | file name content =>
          simp only [phFuel, sumSz_cons, szE] at hf
          simp only [walkF, traceFn]
          rcases hv dir ⟨name, false⟩ with h | ⟨_, hcontra⟩
          · simp only [h]
            apply ih
            simp only [phFuel]
            omega
          · simp at hcontra
        | dir name children =>
          simp only [phFuel, sumSz_cons, szE] at hf
          simp only [walkF, traceFn]
          rcases hv dir ⟨name, true⟩ with h | ⟨h, _⟩
          · simp only [h]
            have hd : (walkF (traceFn visit) f false (pathJoin dir name)
                (s ++ [(dir, FileInfo.mk name true)]) children.toList).2 = none := by
              apply ih
              simp only [phFuel, szL_toList]
              omega
            simp only [hd]
            apply ih
            simp only [phFuel]
            omega
          · simp only [h]
            apply ih
            simp only [phFuel]
            omega

/-- When a traced walk returns an error, the trace ends at the visit whose
verdict is that very error, unchanged; and `SkipDir` can only be the
returned error when that last visited entry is a file. -/
theorem walkF_abort (visit : String → FileInfo → Option GoErr) :
    ∀ (fuel : Nat) (ph : Bool) (dir : String) (l : List FEntry) (e : GoErr),
      phFuel ph + 2 * sumSz l ≤ fuel →
      (walkF (traceFn visit) fuel ph dir [] l).2 = some e →
      ∃ q i t, (walkF (traceFn visit) fuel ph dir [] l).1 = t ++ [(q, i)] ∧
        visit q i = some e ∧ (i.isDir = true → e ≠ GoErr.skipDir) := by
  intro fuel
  induction fuel with
  | zero => intro ph dir l e hf _; cases ph <;> simp only [phFuel] at hf <;> omega
  | succ f ih =>
    intro ph dir l e hf herr
    cases ph with
    | false =>
      simp only [walkF] at herr ⊢
      apply ih
      · simp only [phFuel, sumSz_sortGo]
        simp only [phFuel] at hf
        omega
      · exact herr
    | true =>
      cases l with
      | nil => simp [walkF] at herr
      | cons e1 rest =>
        cases e1 with
        | file name content =>
          simp only [phFuel, sumSz_cons, szE] at hf
          simp only [walkF, traceFn] at herr ⊢
          cases hr : visit dir ⟨name, false⟩ with
          | some err =>
            simp only [hr] at herr ⊢
            simp at herr
            refine ⟨dir, ⟨name, false⟩, [], by simp, ?_, by simp⟩
            rw [hr, herr]
          | none =>
            simp only [hr] at herr ⊢
            rw [walkF_trace_shift visit f true dir _ rest] at herr ⊢
            simp only [List.nil_append] at herr ⊢
            rcases ih true dir rest e (by simp only [phFuel]; omega) herr with
              ⟨q, i, t, ht, hvq, hd⟩
            exact ⟨q, i, (dir, ⟨name, false⟩) :: t, by simp [ht], hvq, hd⟩
        | dir name children =>
          simp only [phFuel, sumSz_cons, szE] at hf
          simp only [walkF, traceFn] at herr ⊢
          cases hr : visit dir ⟨name, true⟩ with
          | some err =>
            cases err with
            | skipDir =>
              simp only [hr] at herr ⊢
              rw [walkF_trace_shift visit f true dir _ rest] at herr ⊢
              simp only [List.nil_append] at herr ⊢
              rcases ih true dir rest e (by simp only [phFuel]; omega) herr with
                ⟨q, i, t, ht, hvq, hd⟩
              exact ⟨q, i, (dir, ⟨name, true⟩) :: t, by simp [ht], hvq, hd⟩
            | notFound =>
              simp only [hr] at herr ⊢
              simp at herr
              refine ⟨dir, ⟨name, true⟩, [], by simp, ?_, ?_⟩
              · rw [hr, herr]
              · intro _
                rw [← herr]
                simp
            | other n =>
              simp only [hr] at herr ⊢
              simp at herr
              refine ⟨dir, ⟨name, true⟩, [], by simp, ?_, ?_⟩
              · rw [hr, herr]
              · intro _
                rw [← herr]
                simp
          | none =>
            simp only [hr] at herr ⊢
            rw [walkF_trace_shift visit f false (pathJoin dir name) _ children.toList]
              at herr ⊢
            simp only [List.nil_append] at herr ⊢
            cases hr2 : (walkF (traceFn visit) f false (pathJoin dir name) []
                children.toList).2 with
            | some err2 =>
              simp only [hr2] at herr ⊢
              simp at herr
              subst herr
              rcases ih false (pathJoin dir name) children.toList err2
                  (by simp only [phFuel, szL_toList]; omega) hr2 with
                ⟨q, i, t, ht, hvq, hd⟩
              exact ⟨q, i, (dir, ⟨name, true⟩) :: t, by simp [ht], hvq, hd⟩
            | none =>
              simp only [hr2] at herr ⊢
              rw [walkF_trace_shift visit f true dir _ rest] at herr ⊢
              rcases ih true dir rest e (by simp only [phFuel]; omega) herr with
                ⟨q, i, t, ht, hvq, hd⟩
              refine ⟨q, i, ((dir, ⟨name, true⟩) ::
                (walkF (traceFn visit) f false (pathJoin dir name) [] children.toList).1) ++ t,
                ?_, hvq, hd⟩
              simp [ht]

/-- Under a visitor that always answers `continue`, the walk visits exactly
the entries of the tree: the trace is a permutation of `entriesList`
(exactly once per entry, with the observed parent directory). -/
theorem walkF_perm (visit : String → FileInfo → Option GoErr)
    (hv : ∀ d i, visit d i = none) :
    ∀ (fuel : Nat) (ph : Bool) (dir : String) (l : List FEntry),
      phFuel ph + 2 * sumSz l ≤ fuel →
      List.Perm (walkF (traceFn visit) fuel ph dir [] l).1 (entriesList dir l) := by
  intro fuel
  induction fuel with
  | zero => intro ph dir l hf; cases ph <;> simp only [phFuel] at hf <;> omega
  | succ f ih =>
    intro ph dir l hf
    cases ph with
    | false =>
      simp only [walkF]
      refine (ih true dir (sortGo entryLess l) ?_).trans (entriesList_sortGo_perm dir l)
      simp only [phFuel, sumSz_sortGo]
      simp only [phFuel] at hf
      omega
    | true =>
      cases l with
      | nil => simp [walkF, entriesList]
      | cons e rest =>
        cases e with
        | file name content =>
          simp only [phFuel, sumSz_cons, szE] at hf
          simp only [walkF, traceFn, hv]
          rw [walkF_trace_shift visit f true dir _ rest]
          simp only [List.nil_append, entriesList, List.flatMap_cons, entriesE]
          exact List.Perm.append (List.Perm.refl _)
            (by simpa [entriesList] using ih true dir rest (by simp only [phFuel]; omega))
        | dir name children =>
          simp only [phFuel, sumSz_cons, szE] at hf
          simp only [walkF, traceFn, hv]
          rw [walkF_trace_shift visit f false (pathJoin dir name) _ children.toList]
          simp only [List.nil_append]
          have hnone : (walkF (traceFn visit) f false (pathJoin dir name) []
              children.toList).2 = none := by
            apply walkF_no_abort visit (fun d i => Or.inl (hv d i))
            simp only [phFuel, szL_toList]
            omega
          simp only [hnone]
          rw [walkF_trace_shift visit f true dir _ rest]
          simp only [entriesList, List.flatMap_cons, entriesE]
          have hcs : List.Perm
              (walkF (traceFn visit) f false (pathJoin dir name) [] children.toList).1
              (entriesL (pathJoin dir name) children) := by
            rw [← entriesL_toList]
            exact ih false (pathJoin dir name) children.toList
              (by simp only [phFuel, szL_toList]; omega)
          have hrest : List.Perm (walkF (traceFn visit) f true dir [] rest).1
              (entriesList dir rest) :=
            ih true dir rest (by simp only [phFuel]; omega)
          have heq : [(dir, FileInfo.mk name true)] ++
                (walkF (traceFn visit) f false (pathJoin dir name) [] children.toList).1 ++
                (walkF (traceFn visit) f true dir [] rest).1 =
              (dir, FileInfo.mk name true) ::
                ((walkF (traceFn visit) f false (pathJoin dir name) [] children.toList).1 ++
                  (walkF (traceFn visit) f true dir [] rest).1) := by simp
          rw [heq]
          have hfin := List.Perm.cons (dir, FileInfo.mk name true)
            (List.Perm.append hcs hrest)
          simpa [entriesList] using hfin

theorem nodup_names_tail (name : String) (cs' : FList) (rest : List FEntry)
    (h : (namesList ((FEntry.dir name cs') :: rest)).Nodup) :
    (namesL cs').Nodup ∧ (namesList rest).Nodup ∧
      List.Disjoint (namesE (FEntry.dir name cs')) (namesList rest) ∧
      name ∉ namesL cs' := by
  rw [namesList_cons] at h
  rcases List.nodup_append.mp h with ⟨h1, h2, h3⟩
  simp only [namesE] at h1
  exact ⟨(List.nodup_cons.mp h1).2, h2, by simpa [namesE] using h3,
    (List.nodup_cons.mp h1).1⟩

/-- If the visitor answers `SkipDir` whenever it sees the directory named
`nm` (whose subtree is `cs`), then — in a tree with globally distinct
names — no entry strictly inside that directory is ever visited. -/
theorem walkF_prune (visit : String → FileInfo → Option GoErr) (nm : String) (cs : FList)
    (hskip : ∀ q, visit q ⟨nm, true⟩ = some GoErr.skipDir) :
    ∀ (fuel : Nat) (ph : Bool) (dir : String) (l : List FEntry),
      (namesList l).Nodup → FEntry.dir nm cs ∈ subList l →
      ∀ q i, (q, i) ∈ (walkF (traceFn visit) fuel ph dir [] l).1 → i.name ∉ namesL cs := by
  intro fuel
  induction fuel with
  | zero => intro ph dir l _ _ q i h; simp [walkF] at h
  | succ f ih =>
    intro ph dir l hn hd q i h
    cases ph with
    | false =>
      simp only [walkF] at h
      exact ih true dir (sortGo entryLess l)
        ((namesList_sortGo_perm l).symm.nodup hn)
        (mem_subList_sortGo.mpr hd) q i h
    | true =>
      cases l with
      | nil => simp [walkF] at h
      | cons e rest =>
        simp only [subList, List.flatMap_cons, List.mem_append] at hd
        have hdisj : List.Disjoint (namesE e) (namesList rest) := by
          rw [namesList_cons] at hn
          exact (List.nodup_append.mp hn).2.2
        have hnrest : (namesList rest).Nodup := by
          rw [namesList_cons] at hn
          exact (List.nodup_append.mp hn).2.1
        cases e with
        | file name content =>
          rcases hd with hde | hdr
          · simp [subE] at hde
          intro hics
          have hcs_rest : i.name ∈ namesList rest :=
            names_sub_of_mem_subList rest nm cs hdr i.name (List.mem_cons_of_mem nm hics)
          simp only [walkF, traceFn] at h
          cases hr : visit dir ⟨name, false⟩ with
          | some err =>
            simp only [hr] at h
            simp at h
            have : i.name = name := by rw [h.2]
            exact hdisj (by simp [this, namesE]) hcs_rest
          | none =>
            simp only [hr] at h
            rw [walkF_trace_shift visit f true dir _ rest] at h
            simp only [List.nil_append] at h
            rcases List.mem_append.mp h with h1 | h2
            · simp at h1
              have : i.name = name := by rw [h1.2]
              exact hdisj (by simp [this, namesE]) hcs_rest
            · exact ih true dir rest hnrest hdr q i h2 hics
        | dir name cs' =>
          have hn_e : (namesE (FEntry.dir name cs')).Nodup := by
            rw [namesList_cons] at hn
            exact (List.nodup_append.mp hn).1
          have hname_not : name ∉ namesL cs' := by
            simp only [namesE] at hn_e
            exact (List.nodup_cons.mp hn_e).1
          have hncs' : (namesL cs').Nodup := by
            simp only [namesE] at hn_e
            exact (List.nodup_cons.mp hn_e).2
          -- where the skipped directory sits
          rcases hd with hde | hdr
          · -- inside this entry: either this entry is it, or it is below
            simp only [subE, List.mem_cons] at hde
            rcases hde with hself | hsub
            · -- this entry is the skipped directory itself
              have hnm : name = nm ∧ cs' = cs := by
                cases hself; exact ⟨rfl, rfl⟩
              rcases hnm with ⟨hnm1, hnm2⟩
              subst hnm1
              subst hnm2
              simp only [walkF, traceFn, hskip dir] at h
              rw [walkF_trace_shift visit f true dir _ rest] at h
              simp only [List.nil_append] at h
              intro hics
              rcases List.mem_append.mp h with h1 | h2
              · simp at h1
                have : i.name = name := by rw [h1.2]
                rw [this] at hics
                exact hname_not hics
              · have : i.name ∈ namesList rest := walkF_names visit f true dir rest q i h2
                exact hdisj (by simp [namesE, hics]) this
            · -- the skipped directory is strictly below this entry
              have hsubnames : ∀ x ∈ namesL cs, x ∈ namesL cs' := fun x hx =>
                names_sub_of_mem_subL cs' nm cs hsub x (List.mem_cons_of_mem nm hx)
              intro hics
              have hics' : i.name ∈ namesL cs' := hsubnames i.name hics
              simp only [walkF, traceFn] at h
              cases hr : visit dir ⟨name, true⟩ with
              | some err =>
                cases err with
                | skipDir =>
                  simp only [hr] at h
                  rw [walkF_trace_shift visit f true dir _ rest] at h
                  simp only [List.nil_append] at h
                  rcases List.mem_append.mp h with h1 | h2
                  · simp at h1
                    have : i.name = name := by rw [h1.2]
                    rw [this] at hics'
                    exact hname_not hics'
                  · have := walkF_names visit f true dir rest q i h2
                    exact hdisj (by simp [namesE, hics']) this
                | notFound =>
                  simp only [hr] at h
                  simp at h
                  have : i.name = name := by rw [h.2]
                  rw [this] at hics'
                  exact hname_not hics'
                | other n =>
                  simp only [hr] at h
                  simp at h
                  have : i.name = name := by rw [h.2]
                  rw [this] at hics'
                  exact hname_not hics'
              | none =>
                simp only [hr] at h
                rw [walkF_trace_shift visit f false (pathJoin dir name) _ cs'.toList] at h
                simp only [List.nil_append] at h
                have hin_cs' : ∀ q2 i2,
                    (q2, i2) ∈ (walkF (traceFn visit) f false (pathJoin dir name) []
                      cs'.toList).1 → i2.name ∉ namesL cs := by
                  intro q2 i2 hm
                  apply ih false (pathJoin dir name) cs'.toList
                    (by rw [namesL_toList]; exact hncs')
                    (by rw [subL_toList]; exact hsub) q2 i2 hm
                cases hr2 : (walkF (traceFn visit) f false (pathJoin dir name) []
                    cs'.toList).2 with
                | some err =>
                  simp only [hr2] at h
                  rcases List.mem_append.mp h with h1 | h2
                  · simp at h1
                    have : i.name = name := by rw [h1.2]
                    rw [this] at hics'
                    exact hname_not hics'
                  · exact hin_cs' q i h2 hics
                | none =>
                  simp only [hr2] at h
                  rw [walkF_trace_shift visit f true dir _ rest] at h
                  rcases List.mem_append.mp h with h1 | h2
                  · rcases List.mem_append.mp h1 with h1a | h1b
                    · simp at h1a
                      have : i.name = name := by rw [h1a.2]
                      rw [this] at hics'
                      exact hname_not hics'
                    · exact hin_cs' q i h1b hics
                  · have := walkF_names visit f true dir rest q i h2
                    exact hdisj (by simp [namesE, hics']) this
          · -- the skipped directory sits in the remaining entries
            have hcs_rest : ∀ x ∈ namesL cs, x ∈ namesList rest := fun x hx =>
              names_sub_of_mem_subList rest nm cs hdr x (List.mem_cons_of_mem nm hx)
            intro hics
            have hics_rest : i.name ∈ namesList rest := hcs_rest i.name hics
            simp only [walkF, traceFn] at h
            cases hr : visit dir ⟨name, true⟩ with
            | some err =>
              cases err with
              | skipDir =>
                simp only [hr] at h
                rw [walkF_trace_shift visit f true dir _ rest] at h
                simp only [List.nil_append] at h
                rcases List.mem_append.mp h with h1 | h2
                · simp at h1
                  have : i.name = name := by rw [h1.2]
                  exact hdisj (by simp [this, namesE]) hics_rest
                · exact ih true dir rest hnrest hdr q i h2 hics
              | notFound =>
                simp only [hr] at h
                simp at h
                have : i.name = name := by rw [h.2]
                exact hdisj (by simp [this, namesE]) hics_rest
              | other n =>
                simp only [hr] at h
                simp at h
                have : i.name = name := by rw [h.2]
                exact hdisj (by simp [this, namesE]) hics_rest
            | none =>
              simp only [hr] at h
              rw [walkF_trace_shift visit f false (pathJoin dir name) _ cs'.toList] at h
              simp only [List.nil_append] at h
              have hcs'_names : ∀ q2 i2,
                  (q2, i2) ∈ (walkF (traceFn visit) f false (pathJoin dir name) []
                    cs'.toList).1 → i2.name ∈ namesE (FEntry.dir name cs') := by
                intro q2 i2 hm
                have := walkF_names visit f false (pathJoin dir name) cs'.toList q2 i2 hm
                rw [namesL_toList] at this
                simp [namesE, this]
              cases hr2 : (walkF (traceFn visit) f false (pathJoin dir name) []
                  cs'.toList).2 with
              | some err =>
                simp only [hr2] at h
                rcases List.mem_append.mp h with h1 | h2
                · simp at h1
                  have : i.name = name := by rw [h1.2]
                  exact hdisj (by simp [this, namesE]) hics_rest
                · exact hdisj (hcs'_names q i h2) hics_rest
              | none =>
                simp only [hr2] at h
                rw [walkF_trace_shift visit f true dir _ rest] at h
                rcases List.mem_append.mp h with h1 | h2
                · rcases List.mem_append.mp h1 with h1a | h1b
                  · simp at h1a
                    have : i.name = name := by rw [h1a.2]
                    exact hdisj (by simp [this, namesE]) hics_rest
                  · exact hdisj (hcs'_names q i h1b) hics_rest
                · exact ih true dir rest hnrest hdr q i h2 hics

/-- In a tree with globally distinct names, whenever the walk visits an
entry lying strictly inside the directory named `nm`, the visit of that
directory itself occurs earlier in the trace (the two visits form a
sublist). -/
theorem walkF_order (visit : String → FileInfo → Option GoErr) (nm : String) (cs : FList) :
    ∀ (fuel : Nat) (ph : Bool) (dir : String) (l : List FEntry),
      (namesList l).Nodup → FEntry.dir nm cs ∈ subList l →
      ∀ q i, (q, i) ∈ (walkF (traceFn visit) fuel ph dir [] l).1 → i.name ∈ namesL cs →
      ∃ p, List.Sublist [(p, FileInfo.mk nm true), (q, i)]
        (walkF (traceFn visit) fuel ph dir [] l).1 := by
  intro fuel
  induction fuel with
  | zero => intro ph dir l _ _ q i h _; simp [walkF] at h
  | succ f ih =>
    intro ph dir l hn hd q i h hics
    cases ph with
    | false =>
      simp only [walkF] at h ⊢
      exact ih true dir (sortGo entryLess l)
        ((namesList_sortGo_perm l).symm.nodup hn)
        (mem_subList_sortGo.mpr hd) q i h hics
    | true =>
      cases l with
      | nil => simp [walkF] at h
      | cons e rest =>
        simp only [subList, List.flatMap_cons, List.mem_append] at hd
        have hdisj : List.Disjoint (namesE e) (namesList rest) := by
          rw [namesList_cons] at hn
          exact (List.nodup_append.mp hn).2.2
        have hnrest : (namesList rest).Nodup := by
          rw [namesList_cons] at hn
          exact (List.nodup_append.mp hn).2.1
        cases e with
        | file name content =>
          rcases hd with hde | hdr
          · simp [subE] at hde
          have hcs_rest : i.name ∈ namesList rest :=
            names_sub_of_mem_subList rest nm cs hdr i.name (List.mem_cons_of_mem nm hics)
          simp only [walkF, traceFn] at h ⊢
          cases hr : visit dir ⟨name, false⟩ with
          | some err =>
            simp only [hr] at h ⊢
            simp at h
            have : i.name = name := by rw [h.2]
            exact absurd hcs_rest (fun hc => hdisj (by simp [this, namesE]) hc)
          | none =>
            simp only [hr] at h ⊢
            rw [walkF_trace_shift visit f true dir _ rest] at h ⊢
            simp only [List.nil_append] at h ⊢
            rcases List.mem_append.mp h with h1 | h2
            · simp at h1
              have : i.name = name := by rw [h1.2]
              exact absurd hcs_rest (fun hc => hdisj (by simp [this, namesE]) hc)
            · rcases ih true dir rest hnrest hdr q i h2 hics with ⟨p, hp⟩
              exact ⟨p, hp.trans (List.sublist_append_right _ _)⟩
        | dir name cs' =>
          have hn_e : (namesE (FEntry.dir name cs')).Nodup := by
            rw [namesList_cons] at hn
            exact (List.nodup_append.mp hn).1
          have hname_not : name ∉ namesL cs' := by
            simp only [namesE] at hn_e
            exact (List.nodup_cons.mp hn_e).1
          have hncs' : (namesL cs').Nodup := by
            simp only [namesE] at hn_e
            exact (List.nodup_cons.mp hn_e).2
          rcases hd with hde | hdr
          · simp only [subE, List.mem_cons] at hde
            rcases hde with hself | hsub
            · -- this entry is the directory named nm itself
              have hnm : name = nm ∧ cs' = cs := by cases hself; exact ⟨rfl, rfl⟩
              rcases hnm with ⟨hnm1, hnm2⟩
              subst hnm1
              subst hnm2
              have hhead_not : ¬ (name ∈ namesL cs') := hname_not
              simp only [walkF, traceFn] at h ⊢
              cases hr : visit dir ⟨name, true⟩ with
              | some err =>
                cases err with
                | skipDir =>
                  simp only [hr] at h ⊢
                  rw [walkF_trace_shift visit f true dir _ rest] at h ⊢
                  simp only [List.nil_append] at h ⊢
                  rcases List.mem_append.mp h with h1 | h2
                  · simp at h1
                    have : i.name = name := by rw [h1.2]
                    rw [this] at hics
                    exact absurd hics hhead_not
                  · have := walkF_names visit f true dir rest q i h2
                    exact absurd this (fun hc => hdisj (by simp [namesE, hics]) hc)
                | notFound =>
                  simp only [hr] at h
                  simp at h
                  have : i.name = name := by rw [h.2]
                  rw [this] at hics
                  exact absurd hics hhead_not
                | other n =>
                  simp only [hr] at h
                  simp at h
                  have : i.name = name := by rw [h.2]
                  rw [this] at hics
                  exact absurd hics hhead_not
              | none =>
                simp only [hr] at h ⊢
                rw [walkF_trace_shift visit f false (pathJoin dir name) _ cs'.toList] at h ⊢
                simp only [List.nil_append] at h ⊢
                cases hr2 : (walkF (traceFn visit) f false (pathJoin dir name) []
                    cs'.toList).2 with
                | some err =>
                  simp only [hr2] at h ⊢
                  rcases List.mem_append.mp h with h1 | h2
                  · simp at h1
                    have : i.name = name := by rw [h1.2]
                    rw [this] at hics
                    exact absurd hics hhead_not
                  · refine ⟨dir, ?_⟩
                    have hpair : List.Sublist [(q, i)]
                        (walkF (traceFn visit) f false (pathJoin dir name) [] cs'.toList).1 :=
                      List.singleton_sublist.mpr h2
                    exact List.Sublist.cons₂ (dir, FileInfo.mk name true) hpair
                | none =>
                  simp only [hr2] at h ⊢
                  rw [walkF_trace_shift visit f true dir _ rest] at h ⊢
                  rcases List.mem_append.mp h with h1 | h2
                  · rcases List.mem_append.mp h1 with h1a | h1b
                    · simp at h1a
                      have : i.name = name := by rw [h1a.2]
                      rw [this] at hics
                      exact absurd hics hhead_not
                    · refine ⟨dir, ?_⟩
                      refine List.Sublist.trans ?_ (List.sublist_append_left _ _)
                      exact List.Sublist.cons₂ (dir, FileInfo.mk name true)
                        (List.singleton_sublist.mpr h1b)
                  · have := walkF_names visit f true dir rest q i h2
                    exact absurd this (fun hc => hdisj (by simp [namesE, hics]) hc)
            · -- the directory named nm is strictly below this entry
              have hsubnames : i.name ∈ namesL cs' :=
                names_sub_of_mem_subL cs' nm cs hsub i.name (List.mem_cons_of_mem nm hics)
              simp only [walkF, traceFn] at h ⊢
              cases hr : visit dir ⟨name, true⟩ with
              | some err =>
                cases err with
                | skipDir =>
                  simp only [hr] at h ⊢
                  rw [walkF_trace_shift visit f true dir _ rest] at h ⊢
                  simp only [List.nil_append] at h ⊢
                  rcases List.mem_append.mp h with h1 | h2
                  · simp at h1
                    have : i.name = name := by rw [h1.2]
                    rw [this] at hsubnames
                    exact absurd hsubnames hname_not
                  · have := walkF_names visit f true dir rest q i h2
                    exact absurd this (fun hc => hdisj (by simp [namesE, hsubnames]) hc)
                | notFound =>
                  simp only [hr] at h
                  simp at h
                  have : i.name = name := by rw [h.2]
                  rw [this] at hsubnames
                  exact absurd hsubnames hname_not
                | other n =>
                  simp only [hr] at h
                  simp at h
                  have : i.name = name := by rw [h.2]
                  rw [this] at hsubnames
                  exact absurd hsubnames hname_not
              | none =>
                simp only [hr] at h ⊢
                rw [walkF_trace_shift visit f false (pathJoin dir name) _ cs'.toList] at h ⊢
                simp only [List.nil_append] at h ⊢
                have hihcs : ∀ q2 i2, (q2, i2) ∈ (walkF (traceFn visit) f false
                    (pathJoin dir name) [] cs'.toList).1 → i2.name ∈ namesL cs →
                    ∃ p, List.Sublist [(p, FileInfo.mk nm true), (q2, i2)]
                      (walkF (traceFn visit) f false (pathJoin dir name) [] cs'.toList).1 :=
                  fun q2 i2 hm hm2 => ih false (pathJoin dir name) cs'.toList
                    (by rw [namesL_toList]; exact hncs')
                    (by rw [subL_toList]; exact hsub) q2 i2 hm hm2
                cases hr2 : (walkF (traceFn visit) f false (pathJoin dir name) []
                    cs'.toList).2 with
                | some err =>
                  simp only [hr2] at h ⊢
                  rcases List.mem_append.mp h with h1 | h2
                  · simp at h1
                    have : i.name = name := by rw [h1.2]
                    rw [this] at hsubnames
                    exact absurd hsubnames hname_not
                  · rcases hihcs q i h2 hics with ⟨p, hp⟩
                    exact ⟨p, hp.trans (List.sublist_append_right _ _)⟩
                | none =>
                  simp only [hr2] at h ⊢
                  rw [walkF_trace_shift visit f true dir _ rest] at h ⊢
                  rcases List.mem_append.mp h with h1 | h2
                  · rcases List.mem_append.mp h1 with h1a | h1b
                    · simp at h1a
                      have : i.name = name := by rw [h1a.2]
                      rw [this] at hsubnames
                      exact absurd hsubnames hname_not
                    · rcases hihcs q i h1b hics with ⟨p, hp⟩
                      refine ⟨p, List.Sublist.trans ?_ (List.sublist_append_left _ _)⟩
                      exact hp.trans (List.sublist_append_right _ _)
                  · have := walkF_names visit f true dir rest q i h2
                    exact absurd this (fun hc => hdisj (by simp [namesE, hsubnames]) hc)
          · -- the directory named nm is among the remaining entries
            have hics_rest : i.name ∈ namesList rest :=
              names_sub_of_mem_subList rest nm cs hdr i.name (List.mem_cons_of_mem nm hics)
            simp only [walkF, traceFn] at h ⊢
            cases hr : visit dir ⟨name, true⟩ with
            | some err =>
              cases err with
              | skipDir =>
                simp only [hr] at h ⊢
                rw [walkF_trace_shift visit f true dir _ rest] at h ⊢
                simp only [List.nil_append] at h ⊢
                rcases List.mem_append.mp h with h1 | h2
                · simp at h1
                  have : i.name = name := by rw [h1.2]
                  exact absurd hics_rest (fun hc => hdisj (by simp [this, namesE]) hc)
                · rcases ih true dir rest hnrest hdr q i h2 hics with ⟨p, hp⟩
                  exact ⟨p, hp.trans (List.sublist_append_right _ _)⟩
              | notFound =>
                simp only [hr] at h
                simp at h
                have : i.name = name := by rw [h.2]
                exact absurd hics_rest (fun hc => hdisj (by simp [this, namesE]) hc)
              | other n =>
                simp only [hr] at h
                simp at h
                have : i.name = name := by rw [h.2]
                exact absurd hics_rest (fun hc => hdisj (by simp [this, namesE]) hc)
            | none =>
              simp only [hr] at h ⊢
              rw [walkF_trace_shift visit f false (pathJoin dir name) _ cs'.toList] at h ⊢
              simp only [List.nil_append] at h ⊢
              have hcs'_names : ∀ q2 i2, (q2, i2) ∈ (walkF (traceFn visit) f false
                  (pathJoin dir name) [] cs'.toList).1 →
                  i2.name ∈ namesE (FEntry.dir name cs') := by
                intro q2 i2 hm
                have := walkF_names visit f false (pathJoin dir name) cs'.toList q2 i2 hm
                rw [namesL_toList] at this
                simp [namesE, this]
              cases hr2 : (walkF (traceFn visit) f false (pathJoin dir name) []
                  cs'.toList).2 with
              | some err =>
                simp only [hr2] at h ⊢
                rcases List.mem_append.mp h with h1 | h2
                · simp at h1
                  have : i.name = name := by rw [h1.2]
                  exact absurd hics_rest (fun hc => hdisj (by simp [this, namesE]) hc)
                · exact absurd hics_rest (fun hc => hdisj (hcs'_names q i h2) hc)
              | none =>
                simp only [hr2] at h ⊢
                rw [walkF_trace_shift visit f true dir _ rest] at h ⊢
                rcases List.mem_append.mp h with h1 | h2
                · rcases List.mem_append.mp h1 with h1a | h1b
                  · simp at h1a
                    have : i.name = name := by rw [h1a.2]
                    exact absurd hics_rest (fun hc => hdisj (by simp [this, namesE]) hc)
                  · exact absurd hics_rest (fun hc => hdisj (hcs'_names q i h1b) hc)
                · rcases ih true dir rest hnrest hdr q i h2 hics with ⟨p, hp⟩
                  exact ⟨p, hp.trans (List.sublist_append_right _ _)⟩

/-! ## Filesystem effects

The remaining operations mutate the filesystem.  Files are a map from path
to file object, directories a set of paths.  Outcomes of the operating
system calls whose failure the library merely observes (`os.Rename`,
opening the destination for writing, an `io.Copy` write fault, `os.Mkdir`,
`os.RemoveAll`) are supplied by the environment record `Env`: `none` means
the call succeeds, `some n` that it fails with error code `n`. -/

/-- A regular file: bytes plus permission bits. -/
structure FileObj where
  content : List Nat
  mode : Nat
deriving Repr, DecidableEq

/-- The regular files of a filesystem. -/
def FileMap : Type := String → Option FileObj

/-- Files together with the directory set (needed by `MvDir`). -/
structure FSX where
  files : FileMap
  dirs : String → Bool

/-- Environment outcomes for the operating system calls. -/
structure Env where
  renameErr : String → String → Option Nat
  openWErr : String → Option Nat
  copyFault : String → Option (Nat × Nat)
  mkdirErr : String → Option Nat
  removeAllErr : String → Option Nat

/-- Write (create or overwrite) one path. -/
def fsWrite (fs : FileMap) (p : String) (f : FileObj) : FileMap :=
  fun q => if q = p then some f else fs q

/-- Remove one path. -/
def fsRemove (fs : FileMap) (p : String) : FileMap :=
  fun q => if q = p then none else fs q

/-- Result of `Cp`, with the handles it opened and closed (in order), so
that the `defer`-based release can be stated. -/
structure CpResult where
  err : Option GoErr
  fs : FileMap
  opened : List String
  closed : List String

/-- `Cp` from `futil.go` (both variants are textually identical): open the
source read-only (`NotFound` if absent, handle released by `defer`), `Stat`
it (never fails on an open handle), open the destination with
`O_WRONLY|O_CREATE` — note: no `O_TRUNC`, so an existing destination keeps
its tail and its mode, while a fresh one is created with the source's mode —
then `io.Copy` the bytes over the front of the destination. -/
def Cp (env : Env) (fs : FileMap) (from_ to_ : String) : CpResult :=
  match fs from_ with
  | none => ⟨some GoErr.notFound, fs, [], []⟩
  | some src =>
    match env.openWErr to_ with
    | some e => ⟨some (GoErr.other e), fs, [from_], [from_]⟩
    | none =>
      let dst0 : FileObj :=
        match fs to_ with
        | some d => d
        | none => ⟨[], src.mode⟩
      match env.copyFault to_ with
      | some ke =>
        let written := src.content.take ke.1
        ⟨some (GoErr.other ke.2),
          fsWrite fs to_ ⟨written ++ dst0.content.drop written.length, dst0.mode⟩,
          [from_, to_], [to_, from_]⟩
      | none =>
        ⟨none,
          fsWrite fs to_ ⟨src.content ++ dst0.content.drop src.content.length, dst0.mode⟩,
          [from_, to_], [to_, from_]⟩

/-- `os.Rename` of one file, when it succeeds. -/
def fsRenameFile (fs : FileMap) (from_ to_ : String) : FileMap :=
  match fs from_ with
  | none => fs
  | some f => fsWrite (fsRemove fs from_) to_ f

/-- `os.Remove`: fails on an absent path. -/
def osRemove (fs : FileMap) (p : String) : Option GoErr × FileMap :=
  match fs p with
  | some _ => (none, fsRemove fs p)
  | none => (some GoErr.notFound, fs)

/-- `Mv` from `futil.go`: try `os.Rename`; on failure, fall back to `Cp`
and return its result directly — the source is never deleted. -/
def futilMv (env : Env) (fs : FileMap) (from_ to_ : String) : Option GoErr × FileMap :=
  match env.renameErr from_ to_ with
  | none => (none, fsRenameFile fs from_ to_)
  | some _ =>
    let r := Cp env fs from_ to_
    (r.err, r.fs)

/-- `Mv` from the unnamed variant: try `os.Rename`; on failure fall back to
`Cp`; if the copy fails return its error, otherwise `os.Remove` the
source. -/
def unnamedMv (env : Env) (fs : FileMap) (from_ to_ : String) : Option GoErr × FileMap :=
  match env.renameErr from_ to_ with
  | none => (none, fsRenameFile fs from_ to_)
  | some _ =>
    let r := Cp env fs from_ to_
    match r.err with
    | some e => (some e, r.fs)
    | none => osRemove r.fs from_

/-- `CpDir` (textually equal in both variants up to the join primitive):
walk `from` with `WalkFromTo` and, for each file entry, copy
`Join(from, info.Name())` to `Join(to, info.Name())` — note both joins use
the walk's root `from`/`to`, not the entry's parent `f`/`t`. -/
def CpDir (env : Env) (fs : FileMap) (from_ to_ : String) (es : FList) :
    FileMap × Option GoErr :=
  WalkFromTo from_ to_ (fun s _f _t info =>
    if info.isDir then (none, s)
    else
      let r := Cp env s (pathJoin from_ info.name) (pathJoin to_ info.name)
      (r.err, r.fs)) fs es

/-- `strip p q`: the remainder of `q` after the prefix `p`, when `p` is a
prefix. -/
def stripPre (p q : String) : Option String :=
  if p.data = q.data.take p.data.length then some ⟨q.data.drop p.data.length⟩ else none

/-- `os.Rename` of a whole directory, when it succeeds: every path at or
under `from` moves to the corresponding path under `to`. -/
def fsxRenameDir (s : FSX) (from_ to_ : String) : FSX :=
  { files := fun q =>
      match stripPre to_ q with
      | some suf => s.files (from_ ++ suf)
      | none =>
        match stripPre from_ q with
        | some _ => none
        | none => s.files q,
    dirs := fun q =>
      match stripPre to_ q with
      | some suf => s.dirs (from_ ++ suf)
      | none =>
        match stripPre from_ q with
        | some _ => false
        | none => s.dirs q }

/-- `os.Mkdir` with its error discarded: on success the directory is added,
on failure nothing changes. -/
def osMkdir (env : Env) (s : FSX) (p : String) : FSX :=
  match env.mkdirErr p with
  | none => { s with dirs := fun q => if q = p then true else s.dirs q }
  | some _ => s

/-- Whether `q` lies at or under the directory `root`. -/
def insideOf (root q : String) : Bool :=
  q == root || (root.data ++ ['/']).isPrefixOf q.data

/-- `os.RemoveAll` with its error discarded: on success the subtree is
gone, on failure (modelled as failing up front) nothing changes. -/
def osRemoveAll (env : Env) (s : FSX) (p : String) : FSX :=
  match env.removeAllErr p with
  | some _ => s
  | none =>
    { files := fun q => if insideOf p q then none else s.files q,
      dirs := fun q => if insideOf p q then false else s.dirs q }

/-- `MvDir` from `futil.go`: try `os.Rename`; on failure fall back to a
walk that calls `Mv` per file entry, like `CpDir` joining the walk roots
with the base name; no destination directory is ever created and the source
tree is never removed. -/
def futilMvDir (env : Env) (s : FSX) (from_ to_ : String) (es : FList) :
    Option GoErr × FSX :=
  match env.renameErr from_ to_ with
  | none => (none, fsxRenameDir s from_ to_)
  | some _ =>
    let r := WalkFromTo from_ to_ (fun st _f _t info =>
      if info.isDir then (none, st)
      else
        let m := futilMv env st.files (pathJoin from_ info.name) (pathJoin to_ info.name)
        (m.1, { st with files := m.2 })) s es
    (r.2, r.1)

/-- The per-file walk of the unnamed variant's `MvDir`: directory entries
get `os.Mkdir(Join(t, name))` with the error discarded; file entries get
`Mv(Join(f, name), Join(t, name))`. -/
def mvDirWalk (env : Env) (s : FSX) (from_ to_ : String) (es : FList) :
    FSX × Option GoErr :=
  WalkFromTo from_ to_ (fun st f t info =>
    if info.isDir then (none, osMkdir env st (pathJoin t info.name))
    else
      let m := unnamedMv env st.files (pathJoin f info.name) (pathJoin t info.name)
      (m.1, { st with files := m.2 })) s es

/-- `MvDir` from the unnamed variant: try `os.Rename`; on failure run the
per-file walk; if the walk fails return its error, otherwise
`os.RemoveAll(from)` with the error discarded and return `nil`. -/
def unnamedMvDir (env : Env) (s : FSX) (from_ to_ : String) (es : FList) :
    Option GoErr × FSX :=
  match env.renameErr from_ to_ with
  | none => (none, fsxRenameDir s from_ to_)
  | some _ =>
    let r := mvDirWalk env s from_ to_ es
    match r.2 with
    | some e => (some e, r.1)
    | none => (none, osRemoveAll env r.1 from_)

/-! ## The archive model -/

/-- One archive entry: recorded name, container flag, compression method
(0 = store, 8 = deflate) and content bytes. -/
structure ZipEntry where
  name : String
  isDir : Bool
  method : Nat
  content : List Nat
deriving Repr, DecidableEq

/-- `MZipDir` from the unnamed variant (the walk body of `futil.go`'s
`ZipDir` is the same code): normalize `source` to `Clean(source) + "/"`,
walk it, and emit one archive entry per visited entry.  The entry name is
`Join(TrimPrefix(p, source), info.Name())`, directories get a trailing
slash, no content and the store method, files get the deflate method and
the bytes read from `Join(p, info.Name())` — the header is created before
the file is opened, so an unreadable file still leaves its empty entry
behind when the walk aborts. -/
def MZipDir (env_read : String → Option (List Nat)) (source : String) (es : FList) :
    List ZipEntry × Option GoErr :=
  let src := goClean source ++ "/"
  Walk (fun (arch : List ZipEntry) p info =>
    let npath := trimPre p src
    let hname := pathJoin npath info.name
    if info.isDir then
      (none, arch ++ [⟨hname ++ "/", true, 0, []⟩])
    else
      match env_read (pathJoin p info.name) with
      | none => (some GoErr.notFound, arch ++ [⟨hname, false, 8, []⟩])
      | some bytes => (none, arch ++ [⟨hname, false, 8, bytes⟩])) src [] es

/-! ## `path.Clean` on clean inputs

For the `WalkFromTo` path-projection claim, `Clean` must be characterised
on the paths the walk actually produces: slash-joined chains of clean
segments (nonempty, no slash, not `.` or `..`).  On such chains `Clean` is
the identity, and it collapses a doubled or trailing slash. -/

/-- A clean path segment. -/
def cleanSeg (s : List Char) : Bool :=
  !s.isEmpty && !s.contains '/' && !(s = ['.'] : Bool) && !(s = ['.', '.'] : Bool)

/-- A clean relative path: one or more clean segments joined by single
slashes. -/
inductive CleanRel : List Char → Prop where
  | single (s : List Char) : cleanSeg s = true → CleanRel s
  | cons (s r : List Char) : cleanSeg s = true → CleanRel r → CleanRel (s ++ '/' :: r)

/-- A clean relative path as a `String`. -/
def CleanRelStr (a : String) : Prop := CleanRel a.data

theorem CleanRel.append_chain {p q : List Char} (hp : CleanRel p) (hq : CleanRel q) :
    CleanRel (p ++ '/' :: q) := by
  induction hp with
  | single s hs => exact CleanRel.cons s q hs hq
  | cons s r hs _ ih => simpa using CleanRel.cons s (r ++ '/' :: q) hs ih

theorem cleanSeg_ne_nil {s : List Char} (h : cleanSeg s = true) : s ≠ [] := by
  simp [cleanSeg] at h
  exact h.1.1.1

theorem cleanSeg_no_slash {s : List Char} (h : cleanSeg s = true) : '/' ∉ s := by
  simp [cleanSeg] at h
  exact h.1.1.2

theorem CleanRel.ne_nil {p : List Char} (hp : CleanRel p) : p ≠ [] := by
  cases hp with
  | single s hs => exact cleanSeg_ne_nil hs
  | cons s r hs _ => intro hc; simp at hc

theorem CleanRel.head_ne_slash {p : List Char} (hp : CleanRel p) :
    ∀ c rest, p = c :: rest → c ≠ '/' := by
  cases hp with
  | single s hs =>
    intro c rest hc hcc
    apply cleanSeg_no_slash hs
    rw [hc, hcc]
    simp
  | cons s r hs _ =>
    intro c rest hc hcc
    apply cleanSeg_no_slash hs
    cases s with
    | nil => exact absurd rfl (cleanSeg_ne_nil hs)
    | cons a s' =>
      simp at hc
      rw [hc.1, ← hcc]
      simp

/-- `cleanLoop` only needs fuel for the iterations it makes, and each
iteration consumes at least one input character. -/
theorem cleanLoop_fuelEq (rooted : Bool) :
    ∀ (f g : Nat) (p outRev : List Char) (dotdot : Nat),
      p.length ≤ f → p.length ≤ g →
      cleanLoop rooted f p outRev dotdot = cleanLoop rooted g p outRev dotdot := by
  intro f
  induction f with
  | zero =>
    intro g p outRev dotdot hf _
    have : p = [] := List.eq_nil_of_length_eq_zero (Nat.le_zero.mp hf)
    subst this
    cases g <;> simp [cleanLoop]
  | succ f ih =>
    intro g p outRev dotdot hf hg
    cases p with
    | nil => cases g <;> simp [cleanLoop]
    | cons c rest =>
      cases g with
      | zero => simp at hg
      | succ g =>
        simp only [List.length_cons] at hf hg
        simp only [cleanLoop]
        split
        · exact ih g rest outRev dotdot (by omega) (by omega)
        · split
          · exact ih g rest outRev dotdot (by omega) (by omega)
          · split
            · split
              · apply ih <;> simp [List.length_tail] <;> omega
              · split
                · apply ih <;> simp [List.length_tail] <;> omega
                · apply ih <;> simp [List.length_tail] <;> omega
            · have hlen : ((c :: rest).dropWhile (fun x => x ≠ '/')).length ≤ rest.length := by
                have h1 : (c :: rest).dropWhile (fun x => x ≠ '/') =
                    rest.dropWhile (fun x => x ≠ '/') := by
                  rename_i hslash _ _
                  simp only [List.dropWhile_cons]
                  rw [if_pos]
                  simp only [ne_eq, decide_eq_true_eq]
                  exact fun hc => hslash (by simp [hc])
                rw [h1]
                exact (List.dropWhile_sublist _).length_le
              apply ih <;> omega

theorem takeWhile_clean : ∀ (s rest : List Char), '/' ∉ s →
    (rest = [] ∨ rest.head? = some '/') →
    (s ++ rest).takeWhile (fun c => c ≠ '/') = s ∧
      (s ++ rest).dropWhile (fun c => c ≠ '/') = rest := by
  intro s
  induction s with
  | nil =>
    intro rest _ hr
    rcases hr with hr | hr
    · subst hr; simp
    · cases rest with
      | nil => simp
      | cons c r =>
        simp at hr
        subst hr
        simp [List.takeWhile, List.dropWhile]
  | cons c s ih =>
    intro rest hs hr
    have hc : ¬ (c = '/') := fun h => hs (by simp [h])
    have hs' : '/' ∉ s := fun h => hs (by simp [h])
    have := ih rest hs' hr
    simp only [List.cons_append, List.takeWhile_cons, List.dropWhile_cons]
    rw [if_pos (by simpa using hc), if_pos (by simpa using hc)]
    exact ⟨by rw [this.1], this.2⟩

theorem cleanLoop_seg_step (s rest outRev : List Char) (dotdot : Nat)
    (hs : cleanSeg s = true) (hr : rest = [] ∨ rest.head? = some '/') :
    cleanLoop false ((s ++ rest).length) (s ++ rest) outRev dotdot =
      cleanLoop false rest.length rest
        (s.reverse ++ (if outRev.length = 0 then outRev else '/' :: outRev)) dotdot := by
  obtain ⟨c, s', rfl⟩ : ∃ c s', s = c :: s' := by
    cases s with
    | nil => exact absurd rfl (cleanSeg_ne_nil hs)
    | cons a b => exact ⟨a, b, rfl⟩
  have hcs : '/' ∉ c :: s' := cleanSeg_no_slash hs
  have hc : ¬ (c = '/') := fun h => hcs (by simp [h])
  have htw := takeWhile_clean (c :: s') rest hcs hr
  have h2 : ¬ (c = '.' ∧ (s' ++ rest = [] ∨ (s' ++ rest).head? = some '/')) := by
    rintro ⟨hdot, hbad⟩
    subst hdot
    have hs'ne : s' ≠ [] := by
      intro hn
      subst hn
      simp [cleanSeg] at hs
    obtain ⟨d, s'', rfl⟩ : ∃ d s'', s' = d :: s'' := by
      cases s' with
      | nil => exact absurd rfl hs'ne
      | cons a b => exact ⟨a, b, rfl⟩
    have hd : d ≠ '/' := fun h => hcs (by simp [h])
    rcases hbad with hbad | hbad
    · simp at hbad
    · simp at hbad
      exact hd hbad
  have h3 : ¬ (c = '.' ∧ (s' ++ rest).head? = some '.' ∧
      ((s' ++ rest).tail = [] ∨ (s' ++ rest).tail.head? = some '/')) := by
    rintro ⟨hdot, hhead, hbad⟩
    subst hdot
    have hs'ne : s' ≠ [] := by
      intro hn
      subst hn
      simp [cleanSeg] at hs
    obtain ⟨d, s'', rfl⟩ : ∃ d s'', s' = d :: s'' := by
      cases s' with
      | nil => exact absurd rfl hs'ne
      | cons a b => exact ⟨a, b, rfl⟩
    simp at hhead
    subst hhead
    have hs''ne : s'' ≠ [] := by
      intro hn
      subst hn
      simp [cleanSeg] at hs
    obtain ⟨e, s''', rfl⟩ : ∃ e s''', s'' = e :: s''' := by
      cases s'' with
      | nil => exact absurd rfl hs''ne
      | cons a b => exact ⟨a, b, rfl⟩
    have he : e ≠ '/' := fun h => hcs (by simp [h])
    rcases hbad with hbad | hbad
    · simp at hbad
    · simp at hbad
      exact he hbad
  have hlen : ((c :: s') ++ rest).length = (s' ++ rest).length + 1 := by simp
  rw [hlen]
  simp only [List.cons_append] at htw ⊢
  simp only [cleanLoop]
  rw [if_neg hc, if_neg h2, if_neg h3]
  rw [htw.1, htw.2]
  have hfuel : rest.length ≤ (s' ++ rest).length := by simp
  rw [cleanLoop_fuelEq false _ rest.length rest _ _ hfuel (Nat.le_refl _)]
  congr 1
  by_cases ho : outRev.length = 0
  · have : outRev = [] := List.eq_nil_of_length_eq_zero ho
    subst this
    simp
  · simp only [if_neg ho]
    have hsep : ((false = true ∧ outRev.length ≠ 1) ∨ (¬ false = true ∧ outRev.length ≠ 0)) := by
      exact Or.inr ⟨by simp, ho⟩
    simp [hsep, ho]

theorem cleanLoop_slash_step (rest outRev : List Char) (dotdot : Nat) :
    cleanLoop false (('/' :: rest).length) ('/' :: rest) outRev dotdot =
      cleanLoop false rest.length rest outRev dotdot := by
  simp only [List.length_cons, cleanLoop]
  simp

theorem cleanLoop_chain {P : List Char} (hP : CleanRel P) :
    ∀ (rest outRev : List Char) (dotdot : Nat),
      (rest = [] ∨ rest.head? = some '/') →
      cleanLoop false (P ++ rest).length (P ++ rest) outRev dotdot =
        cleanLoop false rest.length rest
          (P.reverse ++ (if outRev.length = 0 then outRev else '/' :: outRev)) dotdot := by
  induction hP with
  | single s hs =>
    intro rest outRev dotdot hr
    exact cleanLoop_seg_step s rest outRev dotdot hs hr
  | cons s r hs hr0 ih =>
    intro rest outRev dotdot hrest
    have hassoc : (s ++ '/' :: r) ++ rest = s ++ ('/' :: (r ++ rest)) := by simp
    rw [hassoc]
    rw [cleanLoop_seg_step s ('/' :: (r ++ rest)) outRev dotdot hs (Or.inr rfl)]
    rw [cleanLoop_slash_step (r ++ rest)]
    rw [ih rest _ dotdot hrest]
    have hsne : s.reverse ≠ [] := by
      intro hn
      exact cleanSeg_ne_nil hs (by simpa using congrArg List.reverse hn)
    have hlen : (s.reverse ++ (if outRev.length = 0 then outRev else '/' :: outRev)).length ≠ 0 := by
      simp only [List.length_append]
      intro hn
      exact hsne (List.eq_nil_of_length_eq_zero (by omega))
    rw [if_neg hlen]
    congr 1
    simp

/-- `path.Clean` is the identity on clean relative paths. -/
theorem goClean_cleanRel (a : String) (ha : CleanRelStr a) : goClean a = a := by
  obtain ⟨c, rest, hd⟩ : ∃ c rest, a.data = c :: rest := by
    cases hda : a.data with
    | nil => exact absurd hda (CleanRel.ne_nil ha)
    | cons c r => exact ⟨c, r, rfl⟩
  have hc : ¬ (c = '/') := CleanRel.head_ne_slash ha c rest hd
  unfold goClean
  rw [hd]
  simp only [hc, decide_eq_true_eq, if_neg hc, decide_False, if_neg not_false]
  have hfuel : cleanLoop false ((c :: rest).length + 1) (c :: rest) [] 0 =
      cleanLoop false ((c :: rest) ++ []).length ((c :: rest) ++ []) [] 0 := by
    rw [List.append_nil]
    exact cleanLoop_fuelEq false _ _ _ _ _ (by simp) (Nat.le_refl _)
  rw [hfuel]
  rw [cleanLoop_chain (hd ▸ ha) [] [] 0 (Or.inl rfl)]
  simp only [List.length_nil, List.append_nil, cleanLoop, if_pos trivial]
  have hne : (c :: rest).reverse.length ≠ 0 := by simp
  rw [if_neg hne]
  apply congrArg String.mk
  rw [List.reverse_reverse, ← hd]

/-- `path.Clean` drops a trailing slash after a clean relative path. -/
theorem goClean_trailing (a : String) (ha : CleanRelStr a) :
    goClean ⟨a.data ++ ['/']⟩ = a := by
  obtain ⟨c, rest, hd⟩ : ∃ c rest, a.data = c :: rest := by
    cases hda : a.data with
    | nil => exact absurd hda (CleanRel.ne_nil ha)
    | cons c r => exact ⟨c, r, rfl⟩
  have hc : ¬ (c = '/') := CleanRel.head_ne_slash ha c rest hd
  unfold goClean
  simp only [hd, List.cons_append]
  simp only [hc, decide_eq_true_eq, if_neg hc, decide_False, if_neg not_false]
  have hfuel : cleanLoop false ((c :: (rest ++ ['/'])).length + 1) (c :: (rest ++ ['/'])) [] 0 =
      cleanLoop false ((c :: rest) ++ ['/']).length ((c :: rest) ++ ['/']) [] 0 :=
    cleanLoop_fuelEq false _ _ _ _ _ (by simp) (by simp)
  rw [hfuel]
  rw [cleanLoop_chain (hd ▸ ha) ['/'] [] 0 (Or.inr rfl)]
  simp only [List.length_nil, List.append_nil, if_pos trivial]
  rw [show (['/'] : List Char).length = (('/' : Char) :: ([] : List Char)).length from rfl]
  rw [cleanLoop_slash_step [] ((c :: rest).reverse) 0]
  simp only [List.length_nil, cleanLoop]
  have hne : (c :: rest).reverse.length ≠ 0 := by simp
  rw [if_neg hne]
  apply congrArg String.mk
  rw [List.reverse_reverse, ← hd]

/-- `path.Clean` collapses a doubled slash between clean relative paths. -/
theorem goClean_doubleSlash (a b : String) (ha : CleanRelStr a) (hb : CleanRelStr b) :
    goClean ⟨a.data ++ '/' :: '/' :: b.data⟩ = ⟨a.data ++ '/' :: b.data⟩ := by
  obtain ⟨c, rest, hd⟩ : ∃ c rest, a.data = c :: rest := by
    cases hda : a.data with
    | nil => exact absurd hda (CleanRel.ne_nil ha)
    | cons c r => exact ⟨c, r, rfl⟩
  have hc : ¬ (c = '/') := CleanRel.head_ne_slash ha c rest hd
  unfold goClean
  simp only [hd, List.cons_append]
  simp only [hc, decide_eq_true_eq, if_neg hc, decide_False, if_neg not_false]
  have hfuel : cleanLoop false ((c :: (rest ++ '/' :: '/' :: b.data)).length + 1)
      (c :: (rest ++ '/' :: '/' :: b.data)) [] 0 =
      cleanLoop false ((c :: rest) ++ '/' :: '/' :: b.data).length
        ((c :: rest) ++ '/' :: '/' :: b.data) [] 0 :=
    cleanLoop_fuelEq false _ _ _ _ _ (by simp) (by simp)
  rw [hfuel]
  rw [cleanLoop_chain (hd ▸ ha) ('/' :: '/' :: b.data) [] 0 (Or.inr rfl)]
  simp only [List.length_nil, List.append_nil, if_pos trivial]
  rw [cleanLoop_slash_step ('/' :: b.data) ((c :: rest).reverse) 0]
  rw [cleanLoop_slash_step b.data ((c :: rest).reverse) 0]
  have hb2 : cleanLoop false b.data.length b.data ((c :: rest).reverse) 0 =
      cleanLoop false (b.data ++ []).length (b.data ++ []) ((c :: rest).reverse) 0 := by
    rw [List.append_nil]
  rw [hb2]
  rw [cleanLoop_chain hb [] ((c :: rest).reverse) 0 (Or.inl rfl)]
  have hne : (c :: rest).reverse.length ≠ 0 := by simp
  rw [if_neg hne]
  simp only [List.length_nil, cleanLoop]
  have hne2 : (b.data.reverse ++ '/' :: (c :: rest).reverse).length ≠ 0 := by simp
  rw [if_neg hne2]
  apply congrArg String.mk
  simp

theorem cleanRelStr_ne_empty {a : String} (ha : CleanRelStr a) : a ≠ "" := by
  intro h
  exact CleanRel.ne_nil ha (by rw [h])

/-- `Join` of two clean relative paths is their slash-joined concatenation. -/
theorem pathJoin_clean (a b : String) (ha : CleanRelStr a) (hb : CleanRelStr b) :
    pathJoin a b = ⟨a.data ++ '/' :: b.data⟩ := by
  unfold pathJoin
  rw [if_pos (cleanRelStr_ne_empty ha)]
  exact goClean_cleanRel _ (CleanRel.append_chain ha hb)

/-- `Join` of a clean relative path with the empty string cleans away the
joining slash. -/
theorem pathJoin_empty (a : String) (ha : CleanRelStr a) : pathJoin a "" = a := by
  unfold pathJoin
  rw [if_pos (cleanRelStr_ne_empty ha)]
  exact goClean_trailing a ha

/-- `Join` of a clean relative path with a slash-headed clean suffix
collapses the doubled slash. -/
theorem pathJoin_slashArg (a b : String) (ha : CleanRelStr a) (hb : CleanRelStr b) :
    pathJoin a ⟨'/' :: b.data⟩ = ⟨a.data ++ '/' :: b.data⟩ := by
  unfold pathJoin
  rw [if_pos (cleanRelStr_ne_empty ha)]
  exact goClean_doubleSlash a b ha hb

/-- `TrimPrefix` strips a literal prefix. -/
theorem trimPre_append (a : String) (l : List Char) :
    trimPre ⟨a.data ++ l⟩ a = ⟨l⟩ := by
  unfold trimPre
  rw [if_pos]
  · apply congrArg String.mk
    show (a.data ++ l).drop a.data.length = l
    simp
  · show a.data = (a.data ++ l).take a.data.length
    simp

theorem trimPre_self (a : String) : trimPre a a = "" := by
  have := trimPre_append a []
  simpa using this

/-- The shape of every source path a walk rooted at `from_` produces: the
root itself, or the root extended by a slash-joined chain of tree names. -/
def SrcShape (from_ d : String) : Prop :=
  d = from_ ∨ ∃ rel : List Char, CleanRel rel ∧ d.data = from_.data ++ '/' :: rel

theorem SrcShape.step {from_ d : String} (hfrom : CleanRelStr from_)
    (hd : SrcShape from_ d) {n : String} (hn : cleanSeg n.data = true) :
    SrcShape from_ (pathJoin d n) := by
  rcases hd with rfl | ⟨rel, hrel, hdata⟩
  · right
    refine ⟨n.data, CleanRel.single _ hn, ?_⟩
    rw [pathJoin_clean d n hfrom (CleanRel.single _ hn)]
  · right
    refine ⟨rel ++ '/' :: n.data, CleanRel.append_chain hrel (CleanRel.single _ hn), ?_⟩
    have hdclean : CleanRelStr d := by
      unfold CleanRelStr
      rw [hdata]
      exact CleanRel.append_chain hfrom hrel
    rw [pathJoin_clean d n hdclean (CleanRel.single _ hn)]
    show d.data ++ '/' :: n.data = from_.data ++ '/' :: (rel ++ '/' :: n.data)
    rw [hdata]
    simp

/-- Every source path the walk passes to its visitor has shape
`SrcShape from_`, provided the root is a clean relative path and every name
in the walked forest is a clean segment. -/
theorem walkF_srcShape (visit : String → FileInfo → Option GoErr) (from_ : String)
    (hfrom : CleanRelStr from_) :
    ∀ (fuel : Nat) (ph : Bool) (dir : String) (l : List FEntry) (q : String) (i : FileInfo),
      SrcShape from_ dir →
      (∀ n, n ∈ namesList l → cleanSeg n.data = true) →
      (q, i) ∈ (walkF (traceFn visit) fuel ph dir [] l).1 →
      SrcShape from_ q := by
  intro fuel
  induction fuel with
  | zero => intro ph dir l q i _ _ h; simp [walkF] at h
  | succ f ih =>
    intro ph dir l q i hdir hnames h
    cases ph with
    | false =>
      simp only [walkF] at h
      refine ih true dir (sortGo entryLess l) q i hdir ?_ h
      intro n hn
      exact hnames n ((namesList_sortGo_perm l).mem_iff.mp hn)
    | true =>
      cases l with
      | nil => simp [walkF] at h
      | cons e rest =>
        have hrest : ∀ n, n ∈ namesList rest → cleanSeg n.data = true := by
          intro n hn
          apply hnames
          rw [namesList_cons]
          exact List.mem_append.mpr (Or.inr hn)
        cases e with
        | file name content =>
          simp only [walkF, traceFn] at h
          cases hr : visit dir ⟨name, false⟩ with
          | some err =>
            simp only [hr] at h
            simp at h
            rw [h.1]
            exact hdir
          | none =>
            simp only [hr] at h
            rw [walkF_trace_shift visit f true dir _ rest] at h
            simp only [List.nil_append] at h
            rcases List.mem_append.mp h with h1 | h2
            · simp at h1
              rw [h1.1]
              exact hdir
            · exact ih true dir rest q i hdir hrest h2
        | dir name children =>
          have hname : cleanSeg name.data = true := by
            apply hnames
            rw [namesList_cons]
            exact List.mem_append.mpr (Or.inl (by simp [namesE]))
          have hchild : ∀ n, n ∈ namesList children.toList → cleanSeg n.data = true := by
            intro n hn
            apply hnames
            rw [namesList_cons]
            rw [namesL_toList] at hn
            exact List.mem_append.mpr (Or.inl (by simp [namesE, hn]))
          simp only [walkF, traceFn] at h
          cases hr : visit dir ⟨name, true⟩ with
          | some err =>
            cases err with
            | skipDir =>
              simp only [hr] at h
              rw [walkF_trace_shift visit f true dir _ rest] at h
              simp only [List.nil_append] at h
              rcases List.mem_append.mp h with h1 | h2
              · simp at h1
                rw [h1.1]
                exact hdir
              · exact ih true dir rest q i hdir hrest h2
            | notFound =>
              simp only [hr] at h
              simp at h
              rw [h.1]
              exact hdir
            | other n =>
              simp only [hr] at h
              simp at h
              rw [h.1]
              exact hdir
          | none =>
            simp only [hr] at h
            rw [walkF_trace_shift visit f false (pathJoin dir name) _ children.toList] at h
            simp only [List.nil_append] at h
            cases hr2 : (walkF (traceFn visit) f false (pathJoin dir name) []
                children.toList).2 with
            | some err =>
              simp only [hr2] at h
              rcases List.mem_append.mp h with h1 | h2
              · simp at h1
                rw [h1.1]
                exact hdir
              · exact ih false (pathJoin dir name) children.toList q i
                  (hdir.step hfrom hname) hchild h2
            | none =>
              simp only [hr2] at h
              rw [walkF_trace_shift visit f true dir _ rest] at h
              rcases List.mem_append.mp h with h1 | h2
              · rcases List.mem_append.mp h1 with h1a | h1b
                · simp at h1a
                  rw [h1a.1]
                  exact hdir
                · exact ih false (pathJoin dir name) children.toList q i
                    (hdir.step hfrom hname) hchild h1b
              · exact ih true dir rest q i hdir hrest h2

/-- On shaped source paths, stripping the destination root from the mapped
path gives back the suffix stripped from the source path. -/
theorem srcShape_suffix {from_ to_ q : String} (hto : CleanRelStr to_)
    (hq : SrcShape from_ q) :
    trimPre (pathJoin to_ (trimPre q from_)) to_ = trimPre q from_ := by
  rcases hq with rfl | ⟨rel, hrel, hdata⟩
  · rw [trimPre_self]
    rw [pathJoin_empty to_ hto]
    exact trimPre_self to_
  · have hq_eq : q = ⟨from_.data ++ '/' :: rel⟩ := by
      cases q with
      | mk d => exact congrArg String.mk hdata
    rw [hq_eq]
    rw [show (⟨from_.data ++ '/' :: rel⟩ : String) = ⟨from_.data ++ ('/' :: rel)⟩ from rfl]
    rw [trimPre_append from_ ('/' :: rel)]
    rw [show (⟨'/' :: rel⟩ : String) = ⟨'/' :: (⟨rel⟩ : String).data⟩ from rfl]
    rw [pathJoin_slashArg to_ ⟨rel⟩ hto hrel]
    rw [show (⟨to_.data ++ '/' :: (⟨rel⟩ : String).data⟩ : String)
        = ⟨to_.data ++ ('/' :: rel)⟩ from rfl]
    rw [trimPre_append to_ ('/' :: rel)]

/-- A pure `WalkFromTo` visitor lifted to walk state that records the
triples `(source, target, info)` handed to the callback, in call order. -/
def wftFn (to_ from_ : String) (visit : String → String → FileInfo → Option GoErr) :
    List (String × String × FileInfo) → String → FileInfo →
      Option GoErr × List (String × String × FileInfo) :=
  fun tr p i => (visit p (pathJoin to_ (trimPre p from_)) i,
    tr ++ [(p, pathJoin to_ (trimPre p from_), i)])

/-- `WalkFromTo` with a pure visitor, instrumented to record the callback
invocations. -/
def WalkFromToTrace (from_ to_ : String) (visit : String → String → FileInfo → Option GoErr)
    (es : FList) : List (String × String × FileInfo) × Option GoErr :=
  WalkFromTo from_ to_
    (fun tr source target info => (visit source target info, tr ++ [(source, target, info)]))
    [] es

theorem WalkFromToTrace_eq_walkF (from_ to_ : String)
    (visit : String → String → FileInfo → Option GoErr) (es : FList) :
    WalkFromToTrace from_ to_ visit es =
      walkF (wftFn to_ from_ visit) (wFuel es) false from_ [] es.toList := rfl

/-- A trace-recording visitor that records `g dir info` per call produces
the image under `g` of the plain trace, with the same returned error. -/
theorem walkF_mapTrace {γ : Type} (v : String → FileInfo → Option GoErr)
    (g : String → FileInfo → γ) :
    ∀ (fuel : Nat) (ph : Bool) (dir : String) (s : List γ) (l : List FEntry),
      walkF (fun tr d i => (v d i, tr ++ [g d i])) fuel ph dir s l =
        (s ++ ((walkF (traceFn v) fuel ph dir [] l).1).map (fun x => g x.1 x.2),
          (walkF (traceFn v) fuel ph dir [] l).2) := by
  intro fuel
  induction fuel with
  | zero => intro ph dir s l; simp [walkF]
  | succ f ih =>
    intro ph dir s l
    cases ph with
    | false => simp only [walkF]; exact ih true dir s _
    | true =>
      cases l with
      | nil => simp [walkF]
      | cons e rest =>
        cases e with
        | file name content =>
          simp only [walkF, traceFn]
          cases hr : v dir ⟨name, false⟩ with
          | some err => simp
          | none =>
            dsimp only
            rw [ih true dir (s ++ [g dir (FileInfo.mk name false)]) rest,
              walkF_trace_shift v f true dir ([] ++ [(dir, FileInfo.mk name false)]) rest]
            simp
        | dir name children =>
          simp only [walkF, traceFn]
          cases hr : v dir ⟨name, true⟩ with
          | some err =>
            cases err with
            | skipDir =>
              dsimp only
              rw [ih true dir (s ++ [g dir (FileInfo.mk name true)]) rest,
                walkF_trace_shift v f true dir ([] ++ [(dir, FileInfo.mk name true)]) rest]
              simp
            | notFound => simp
            | other n => simp
          | none =>
            dsimp only
            rw [ih false (pathJoin dir name) (s ++ [g dir (FileInfo.mk name true)])
                children.toList,
              walkF_trace_shift v f false (pathJoin dir name)
                ([] ++ [(dir, FileInfo.mk name true)]) children.toList]
            simp only [List.nil_append, List.append_assoc]
            cases hr2 : (walkF (traceFn v) f false (pathJoin dir name) []
                children.toList).2 with
            | some err => simp
            | none =>
              dsimp only
              rw [ih true dir (s ++ ([g dir (FileInfo.mk name true)] ++
                    ((walkF (traceFn v) f false (pathJoin dir name) []
                      children.toList).1).map (fun x => g x.1 x.2))) rest,
                walkF_trace_shift v f true dir ([(dir, FileInfo.mk name true)] ++
                    (walkF (traceFn v) f false (pathJoin dir name) []
                      children.toList).1) rest]
              simp

/-- C8: every callback invocation of `WalkFromTo` receives a target path
equal to the destination root joined with the source path stripped of the
source-root prefix; and when both roots are clean relative paths and every
name in the tree is a clean segment, the stripped relative suffix after the
destination root in the target equals the stripped suffix after the source
root in the source. -/
theorem C8_projection (from_ to_ : String)
    (visit : String → String → FileInfo → Option GoErr) (es : FList)
    (q t : String) (i : FileInfo)
    (hfrom : CleanRelStr from_) (hto : CleanRelStr to_)
    (hnames : ∀ n, n ∈ namesL es → cleanSeg n.data = true)
    (hmem : (q, t, i) ∈ (WalkFromToTrace from_ to_ visit es).1) :
    t = pathJoin to_ (trimPre q from_) ∧ trimPre t to_ = trimPre q from_ := by
  have hmap : WalkFromToTrace from_ to_ visit es =
      (((walkF (traceFn (fun p j => visit p (pathJoin to_ (trimPre p from_)) j))
          (wFuel es) false from_ [] es.toList).1).map
            (fun x => (x.1, pathJoin to_ (trimPre x.1 from_), x.2)),
        (walkF (traceFn (fun p j => visit p (pathJoin to_ (trimPre p from_)) j))
          (wFuel es) false from_ [] es.toList).2) := by
    have := walkF_mapTrace (fun p j => visit p (pathJoin to_ (trimPre p from_)) j)
      (fun p j => (p, pathJoin to_ (trimPre p from_), j)) (wFuel es) false from_ []
      es.toList
    simpa [WalkFromToTrace, WalkFromTo, Walk] using this
  rw [hmap] at hmem
  simp only [List.mem_map] at hmem
  obtain ⟨x, hx_mem, hx_eq⟩ := hmem
  obtain ⟨p, j⟩ := x
  simp only [Prod.mk.injEq] at hx_eq
  obtain ⟨hq, ht, hi⟩ := hx_eq
  subst hq
  have hshape : SrcShape from_ p :=
    walkF_srcShape (fun r j => visit r (pathJoin to_ (trimPre r from_)) j) from_ hfrom
      (wFuel es) false from_ es.toList p j (Or.inl rfl)
      (by intro n hn; exact hnames n (by rwa [namesL_toList] at hn)) hx_mem
  exact ⟨ht.symm, ht ▸ srcShape_suffix hto hshape⟩

/-- C8 witness: the projection theorem applied to the walk of a one-file
tree rooted at `a`, projected onto `b`. -/
theorem C8_projection_witness :
    ("b" : String) = pathJoin "b" (trimPre "a" "a") ∧ trimPre "b" "b" = trimPre "a" "a" :=
  C8_projection "a" "b" (fun _ _ _ => none) (FList.cons (.file "x" []) .nil) "a" "b"
    (FileInfo.mk "x" false) (CleanRel.single _ (by decide)) (CleanRel.single _ (by decide))
    (by decide) (by decide)

/-- C8 counterexample: for the unclean source root `./a`, the walk of the
tree `{s/x}` hands the callback source `a/s` with target `b/a/s`, and the
suffix after the destination root (`/a/s`) differs from the suffix after
the source root (`a/s`, nothing was stripped): the claimed suffix identity
fails, and the subtree is projected to `b/a/s` rather than `b/s`. -/
theorem C8_counterexample :
    (("a/s", "b/a/s", FileInfo.mk "x" false) ∈
        (WalkFromToTrace "./a" "b" (fun _ _ _ => none)
          (FList.cons (.dir "s" (FList.cons (.file "x" []) .nil)) .nil)).1) ∧
      trimPre "b/a/s" "b" ≠ trimPre "a/s" "./a" := by decide

/-! ## The claims -/

/-- C1: in a tree with distinct names, `Walk` visits every entry exactly
once when the visitor always continues (the trace is a permutation of the
tree's entries), visits entries inside any directory of the tree only after
visiting that directory itself, and — when the visitor answers `SkipDir`
for a directory — visits nothing strictly inside it. -/
theorem C1_walk (visit : String → FileInfo → Option GoErr) (dir : String) (es : FList)
    (huniq : uniqNames es) :
    ((∀ d i, visit d i = none) →
        List.Perm (WalkTrace visit dir es).1 (entriesL dir es)) ∧
    (∀ nm cs, FEntry.dir nm cs ∈ subL es →
        ∀ q i, (q, i) ∈ (WalkTrace visit dir es).1 → i.name ∈ namesL cs →
          ∃ p, List.Sublist [(p, FileInfo.mk nm true), (q, i)] (WalkTrace visit dir es).1) ∧
    (∀ nm cs, FEntry.dir nm cs ∈ subL es →
        (∀ q, visit q (FileInfo.mk nm true) = some GoErr.skipDir) →
        ∀ q i, (q, i) ∈ (WalkTrace visit dir es).1 → i.name ∉ namesL cs) := by
  have hfuel : phFuel false + 2 * sumSz es.toList ≤ wFuel es := by
    rw [szL_toList]
    show 2 + 2 * szL es ≤ 2 + 2 * szL es
    exact Nat.le_refl _
  have hnodup : (namesList es.toList).Nodup := by rw [namesL_toList]; exact huniq
  refine ⟨?_, ?_, ?_⟩
  · intro hv
    have h := walkF_perm visit hv (wFuel es) false dir es.toList hfuel
    exact (entriesL_toList dir es) ▸ h
  · intro nm cs hmem q i hq hname
    exact walkF_order visit nm cs (wFuel es) false dir es.toList hnodup
      (by rw [subL_toList]; exact hmem) q i hq hname
  · intro nm cs hmem hskip q i hq
    exact walkF_prune visit nm cs hskip (wFuel es) false dir es.toList hnodup
      (by rw [subL_toList]; exact hmem) q i hq

/-- C1 witness: the exactly-once part on the tree `{d/y, x}` with the
all-continue visitor. -/
theorem C1_walk_witness :
    uniqNames (FList.cons (.dir "d" (FList.cons (.file "y" []) .nil))
        (FList.cons (.file "x" []) .nil)) ∧
      List.Perm
        (WalkTrace (fun _ _ => none) "r"
          (FList.cons (.dir "d" (FList.cons (.file "y" []) .nil))
            (FList.cons (.file "x" []) .nil))).1
        (entriesL "r"
          (FList.cons (.dir "d" (FList.cons (.file "y" []) .nil))
            (FList.cons (.file "x" []) .nil))) :=
  ⟨by unfold uniqNames; decide,
    (C1_walk (fun _ _ => none) "r"
      (FList.cons (.dir "d" (FList.cons (.file "y" []) .nil))
        (FList.cons (.file "x" []) .nil)) (by unfold uniqNames; decide)).1 (fun _ _ => rfl)⟩

/-- C2 (amended): a visitor that only ever answers `nil`, or `SkipDir` on
directory entries, never aborts the walk; and every aborted walk ends at an
entry whose visit returned exactly the error the walk returns, that entry
being a directory only if the error is not `SkipDir` — on a file entry,
`SkipDir` aborts the walk like any other error instead of being treated as
a skip directive. -/
theorem C2_skipDir (visit : String → FileInfo → Option GoErr) (dir : String) (es : FList) :
    ((∀ d i, visit d i = none ∨ (visit d i = some GoErr.skipDir ∧ i.isDir = true)) →
        (WalkTrace visit dir es).2 = none) ∧
    (∀ e, (WalkTrace visit dir es).2 = some e →
        ∃ q i t, (WalkTrace visit dir es).1 = t ++ [(q, i)] ∧ visit q i = some e ∧
          (i.isDir = true → e ≠ GoErr.skipDir)) := by
  have hfuel : phFuel false + 2 * sumSz es.toList ≤ wFuel es := by
    rw [szL_toList]
    show 2 + 2 * szL es ≤ 2 + 2 * szL es
    exact Nat.le_refl _
  constructor
  · intro hv
    exact walkF_no_abort visit hv (wFuel es) false dir [] es.toList hfuel
  · intro e herr
    exact walkF_abort visit (wFuel es) false dir es.toList e hfuel herr

/-- C2 counterexample: on a two-file listing, a visitor that answers
`SkipDir` everywhere makes the walk return `SkipDir` after visiting only
the first file — `SkipDir` from a file entry aborts the walk instead of
being treated as a skip directive, refuting the claim for leaf entries. -/
theorem C2_counterexample :
    WalkTrace (fun _ _ => some GoErr.skipDir) "r"
        (FList.cons (.file "a" []) (FList.cons (.file "b" []) .nil)) =
      ([("r", FileInfo.mk "a" false)], some GoErr.skipDir) := by decide

/-- C3: on the claim's scenario — source tree `{a/, a/f1.txt="hi",
b.txt="world"}` — `CpDir` fails with `NotFound` and copies nothing: its
per-file callback joins the walk roots with the bare file name, so the
nested file is read from `src/f1.txt` instead of `src/a/f1.txt`. -/
theorem C3_cpdir_bug :
    (let env : Env := ⟨fun _ _ => none, fun _ => none, fun _ => none,
        fun _ => none, fun _ => none⟩;
      let fs : FileMap := fun p =>
        if p = "src/a/f1.txt" then some ⟨[104, 105], 6⟩
        else if p = "src/b.txt" then some ⟨[119, 111, 114, 108, 100], 6⟩ else none;
      let r := CpDir env fs "src" "dst"
        (FList.cons (.dir "a" (FList.cons (.file "f1.txt" [104, 105]) .nil))
          (FList.cons (.file "b.txt" [119, 111, 114, 108, 100]) .nil));
      r.2 = some GoErr.notFound ∧ r.1 "dst/a/f1.txt" = none ∧ r.1 "dst/b.txt" = none) := by
  decide

/-- C4 (amended): `Ls` returns a permutation of the raw listing, and at
any listing size every directory entry is ordered before every file entry
(`sort.Sort` sorts the rank sequence whatever path it takes).  The sort is
not stable (see the counterexample), so within-group raw order is not
preserved in general. -/
theorem C4_ls (es : FList) :
    List.Perm (Ls es) es.toList ∧
      (Ls es).Pairwise (fun x y => entRank x ≤ entRank y) :=
  ⟨Ls_perm es, Ls_dirsFirst_any es⟩

/-- C4 counterexample: on the name-sorted 7-entry listing
`{0, 1/, 2/, 3/, 4/, 5/, 6/}` — exactly what `ioutil.ReadDir` hands to the
sort — the sorted directory group comes out `6, 1, 2, 3, 4, 5`: Go
`sort.Sort`'s shell-sort pass breaks stability, so entries within the
directory group do not preserve the raw enumeration order. -/
theorem C4_counterexample :
    (let es := FList.cons (.file "0" [])
        (FList.cons (.dir "1" .nil) (FList.cons (.dir "2" .nil) (FList.cons (.dir "3" .nil)
          (FList.cons (.dir "4" .nil) (FList.cons (.dir "5" .nil)
            (FList.cons (.dir "6" .nil) .nil))))));
      ((Ls es).filter (fun e => e.info.isDir)).map FEntry.name ≠
        (es.toList.filter (fun e => e.info.isDir)).map FEntry.name) := by
  decide

/-- `Cp` writes no path other than its destination. -/
theorem Cp_preserves (env : Env) (fs : FileMap) (from_ to_ p : String) (hp : p ≠ to_) :
    (Cp env fs from_ to_).fs p = fs p := by
  unfold Cp
  cases fs from_ with
  | none => rfl
  | some src =>
    cases env.openWErr to_ with
    | some e => rfl
    | none =>
      cases env.copyFault to_ with
      | some ke => simp [fsWrite, hp]
      | none => simp [fsWrite, hp]

/-- C5 (amended): on a rename failure, both `Mv` variants fall back to
`Cp`; if the copy fails, both return the copy's error and the source file
is intact.  If the copy succeeds, the unnamed variant deletes the source,
but `futil.go`'s `Mv` returns the copy's result directly and never deletes
the source. -/
theorem C5_mv (env : Env) (fs : FileMap) (from_ to_ : String) (e : Nat)
    (hren : env.renameErr from_ to_ = some e) (hne : from_ ≠ to_) :
    ((Cp env fs from_ to_).err ≠ none →
        futilMv env fs from_ to_ = ((Cp env fs from_ to_).err, (Cp env fs from_ to_).fs) ∧
        unnamedMv env fs from_ to_ = ((Cp env fs from_ to_).err, (Cp env fs from_ to_).fs) ∧
        (Cp env fs from_ to_).fs from_ = fs from_) ∧
    ((Cp env fs from_ to_).err = none →
        (futilMv env fs from_ to_).2 from_ = fs from_ ∧
        (unnamedMv env fs from_ to_).2 from_ = none) := by
  constructor
  · intro herr
    refine ⟨?_, ?_, Cp_preserves env fs from_ to_ from_ hne⟩
    · unfold futilMv
      rw [hren]
    · unfold unnamedMv
      rw [hren]
      dsimp only
      cases hcp : (Cp env fs from_ to_).err with
      | none => exact absurd hcp herr
      | some er => rfl
  · intro herr
    constructor
    · unfold futilMv
      rw [hren]
      exact Cp_preserves env fs from_ to_ from_ hne
    · unfold unnamedMv
      rw [hren]
      dsimp only
      rw [herr]
      dsimp only
      unfold osRemove
      cases hat : (Cp env fs from_ to_).fs from_ with
      | none => exact hat
      | some f => simp [fsRemove]

/-- C5 witness: the theorem at a one-file filesystem with a failing rename
and a succeeding copy. -/
theorem C5_mv_witness :
    ((⟨fun _ _ => some 1, fun _ => none, fun _ => none, fun _ => none,
        fun _ => none⟩ : Env).renameErr "a" "b" = some 1) ∧ ("a" : String) ≠ "b" ∧
      ((futilMv (⟨fun _ _ => some 1, fun _ => none, fun _ => none, fun _ => none,
          fun _ => none⟩ : Env) (fun p => if p = "a" then some ⟨[7], 6⟩ else none)
          "a" "b").2 "a" = (fun p => if p = "a" then some (⟨[7], 6⟩ : FileObj) else none) "a" ∧
        (unnamedMv (⟨fun _ _ => some 1, fun _ => none, fun _ => none, fun _ => none,
          fun _ => none⟩ : Env) (fun p => if p = "a" then some ⟨[7], 6⟩ else none)
          "a" "b").2 "a" = none) :=
  ⟨rfl, by decide,
    (C5_mv (⟨fun _ _ => some 1, fun _ => none, fun _ => none, fun _ => none,
        fun _ => none⟩ : Env) (fun p => if p = "a" then some ⟨[7], 6⟩ else none)
      "a" "b" 1 rfl (by decide)).2 (by decide)⟩

/-- C5 counterexample: rename fails, the fallback copy succeeds, and
`futil.go`'s `Mv` reports success with the source file still present — the
source is not deleted after a successful copy, refuting the
copy-then-delete description for this variant. -/
theorem C5_counterexample :
    (let env : Env := ⟨fun _ _ => some 1, fun _ => none, fun _ => none,
        fun _ => none, fun _ => none⟩;
      let fs : FileMap := fun p => if p = "a" then some ⟨[7], 6⟩ else none;
      let r := futilMv env fs "a" "b";
      r.1 = none ∧ r.2 "a" = some ⟨[7], 6⟩ ∧ r.2 "b" = some ⟨[7], 6⟩) := by decide

/-- C6 (amended): `Cp` fails with `NotFound` on an absent source, leaving
the filesystem unchanged; every handle it opens is closed (in reverse
order) on every exit path; and a successful copy writes the source bytes
over the front of the destination — a fresh destination is created with
exactly the source's bytes and the source's mode, while an existing
destination is not truncated: it keeps its own mode and whatever part of
its old content extends past the copied bytes. -/
theorem C6_cp (env : Env) (fs : FileMap) (from_ to_ : String) :
    (fs from_ = none →
        (Cp env fs from_ to_).err = some GoErr.notFound ∧ (Cp env fs from_ to_).fs = fs) ∧
    (Cp env fs from_ to_).closed = (Cp env fs from_ to_).opened.reverse ∧
    (∀ src, fs from_ = some src → env.openWErr to_ = none → env.copyFault to_ = none →
        (Cp env fs from_ to_).err = none ∧
        (fs to_ = none →
          (Cp env fs from_ to_).fs to_ = some ⟨src.content, src.mode⟩) ∧
        (∀ old, fs to_ = some old →
          (Cp env fs from_ to_).fs to_ =
            some ⟨src.content ++ old.content.drop src.content.length, old.mode⟩)) := by
  refine ⟨?_, ?_, ?_⟩
  · intro habs
    unfold Cp
    rw [habs]
    exact ⟨rfl, rfl⟩
  · unfold Cp
    cases fs from_ with
    | none => rfl
    | some src =>
      cases env.openWErr to_ with
      | some e => rfl
      | none =>
        cases env.copyFault to_ with
        | some ke => rfl
        | none => rfl
  · intro src hsrc hopen hfault
    unfold Cp
    rw [hsrc, hopen, hfault]
    dsimp only
    refine ⟨rfl, ?_, ?_⟩
    · intro hdst
      rw [hdst]
      simp [fsWrite]
    · intro old hdst
      rw [hdst]
      simp [fsWrite]

/-- C6 counterexample: copying a 2-byte source over an existing 5-byte
destination of mode 9 leaves the destination with the source's 2 bytes
followed by the old tail, still at mode 9 — not the truncated copy with
the source's mode that the claim describes. -/
theorem C6_counterexample :
    (let env : Env := ⟨fun _ _ => none, fun _ => none, fun _ => none,
        fun _ => none, fun _ => none⟩;
      let fs : FileMap := fun p =>
        if p = "s" then some ⟨[104, 105], 6⟩
        else if p = "d" then some ⟨[119, 111, 114, 108, 100], 9⟩ else none;
      let r := Cp env fs "s" "d";
      r.err = none ∧ r.fs "d" = some ⟨[104, 105, 114, 108, 100], 9⟩ ∧
        some (⟨[104, 105, 114, 108, 100], 9⟩ : FileObj) ≠
          some (⟨[104, 105], 6⟩ : FileObj)) := by decide

/-- C7: zipping `root/`, which holds exactly the empty directory `sub` and
the 17-byte file `x.bin`, produces exactly two archive entries: the
container entry `sub/` (trailing slash, store method, no content) and the
leaf entry `x.bin` (deflate method) carrying the file's bytes, both named
relative to the source root with no `root/` prefix. -/
theorem C7_zip (c : List Nat) (_hc : c.length = 17) :
    MZipDir (fun p => if p = "root/x.bin" then some c else none) "root/"
        (FList.cons (.dir "sub" .nil) (FList.cons (.file "x.bin" c) .nil)) =
      ([⟨"sub/", true, 0, []⟩, ⟨"x.bin", false, 8, c⟩], none) := rfl

/-- C7 witness: the theorem at the concrete 17-byte content `0..16`. -/
theorem C7_zip_witness :
    (List.range 17).length = 17 ∧
      MZipDir (fun p => if p = "root/x.bin" then some (List.range 17) else none) "root/"
          (FList.cons (.dir "sub" .nil) (FList.cons (.file "x.bin" (List.range 17)) .nil)) =
        ([⟨"sub/", true, 0, []⟩, ⟨"x.bin", false, 8, List.range 17⟩], none) :=
  ⟨by decide, C7_zip (List.range 17) (by decide)⟩

/-- C9 (amended): the two `Mv` implementations are not behaviorally
equivalent up to the join primitive.  Under any environment where the
rename fails and the fallback copy succeeds on an existing source file,
both return `nil`, but `futil.go`'s `Mv` leaves the source file in place
while the unnamed variant's `Mv` deletes it, so their final filesystems
differ at the source path. -/
theorem C9_variants (env : Env) (fs : FileMap) (from_ to_ : String) (e : Nat)
    (hren : env.renameErr from_ to_ = some e)
    (hcp : (Cp env fs from_ to_).err = none)
    (hsome : fs from_ ≠ none) (hne : from_ ≠ to_) :
    (futilMv env fs from_ to_).1 = (unnamedMv env fs from_ to_).1 ∧
    (futilMv env fs from_ to_).2 from_ = fs from_ ∧
    (unnamedMv env fs from_ to_).2 from_ = none ∧
    (futilMv env fs from_ to_).2 from_ ≠ (unnamedMv env fs from_ to_).2 from_ := by
  have hfps : (futilMv env fs from_ to_).2 from_ = fs from_ := by
    unfold futilMv
    rw [hren]
    exact Cp_preserves env fs from_ to_ from_ hne
  have hups : (unnamedMv env fs from_ to_).2 from_ = none := by
    unfold unnamedMv
    rw [hren]
    dsimp only
    rw [hcp]
    dsimp only
    unfold osRemove
    cases hat : (Cp env fs from_ to_).fs from_ with
    | none => exact hat
    | some f => simp [fsRemove]
  have hf1 : (futilMv env fs from_ to_).1 = none := by
    unfold futilMv
    rw [hren]
    dsimp only
    exact hcp
  have hu1 : (unnamedMv env fs from_ to_).1 = none := by
    unfold unnamedMv
    rw [hren]
    dsimp only
    rw [hcp]
    dsimp only
    unfold osRemove
    cases hat : (Cp env fs from_ to_).fs from_ with
    | none =>
      have := Cp_preserves env fs from_ to_ from_ hne
      rw [hat] at this
      exact absurd this.symm hsome
    | some f => rfl
  refine ⟨hf1.trans hu1.symm, hfps, hups, ?_⟩
  rw [hfps, hups]
  exact hsome

/-- C9 witness: the theorem at a one-file filesystem with a failing rename
and a succeeding copy. -/
theorem C9_variants_witness :
    ((⟨fun _ _ => some 1, fun _ => none, fun _ => none, fun _ => none,
        fun _ => none⟩ : Env).renameErr "a" "b" = some 1) ∧
      ((futilMv (⟨fun _ _ => some 1, fun _ => none, fun _ => none, fun _ => none,
          fun _ => none⟩ : Env) (fun p => if p = "a" then some ⟨[7], 6⟩ else none)
          "a" "b").2 "a" ≠
        (unnamedMv (⟨fun _ _ => some 1, fun _ => none, fun _ => none, fun _ => none,
          fun _ => none⟩ : Env) (fun p => if p = "a" then some ⟨[7], 6⟩ else none)
          "a" "b").2 "a") :=
  ⟨rfl,
    (C9_variants (⟨fun _ _ => some 1, fun _ => none, fun _ => none, fun _ => none,
        fun _ => none⟩ : Env) (fun p => if p = "a" then some ⟨[7], 6⟩ else none)
      "a" "b" 1 rfl (by decide) (by decide) (by decide)).2.2.2⟩

/-- C9 counterexample: a concrete input on which the two variants of `Mv`
— with the identical join primitive — leave different filesystems: after
the fallback, the source file survives under `futil.go`'s `Mv` and is gone
under the unnamed variant's. -/
theorem C9_counterexample :
    (let env : Env := ⟨fun _ _ => some 1, fun _ => none, fun _ => none,
        fun _ => none, fun _ => none⟩;
      let fs : FileMap := fun p => if p = "a" then some ⟨[7], 6⟩ else none;
      (futilMv env fs "a" "b").2 "a" ≠ (unnamedMv env fs "a" "b").2 "a") := by decide

/-- C10: in the unnamed variant's `MvDir` fallback, the errors of
`os.Mkdir` and `os.RemoveAll` are discarded: whenever the per-file walk
succeeds, `MvDir` returns `nil` — for every environment, so in particular
whatever the per-directory `Mkdir` outcomes were — and when the final
`RemoveAll` fails, the filesystem stays exactly as the walk left it, the
surviving source tree included. -/
theorem C10_mvdir (env : Env) (s : FSX) (from_ to_ : String) (es : FList) (e : Nat)
    (hren : env.renameErr from_ to_ = some e)
    (hwalk : (mvDirWalk env s from_ to_ es).2 = none) :
    (unnamedMvDir env s from_ to_ es).1 = none ∧
    (∀ r, env.removeAllErr from_ = some r →
        (unnamedMvDir env s from_ to_ es).2 = (mvDirWalk env s from_ to_ es).1) := by
  unfold unnamedMvDir
  rw [hren]
  dsimp only
  rw [hwalk]
  dsimp only
  refine ⟨rfl, ?_⟩
  intro r hr
  unfold osRemoveAll
  rw [hr]

/-- C10 witness: the theorem on the tree `{d/, f}` with every rename, every
`Mkdir` and every `RemoveAll` failing: the walk succeeds, `MvDir` reports
success, and the walk's final filesystem (source file moved by the
per-file fallback, source directory still present) is returned intact. -/
theorem C10_mvdir_witness :
    ((⟨fun _ _ => some 1, fun _ => none, fun _ => none, fun _ => some 2,
        fun _ => some 3⟩ : Env).renameErr "a" "b" = some 1) ∧
      ((mvDirWalk (⟨fun _ _ => some 1, fun _ => none, fun _ => none, fun _ => some 2,
          fun _ => some 3⟩ : Env)
        ⟨fun p => if p = "a/f" then some ⟨[7], 6⟩ else none,
          fun p => p = "a" || p = "a/d"⟩ "a" "b"
        (FList.cons (.dir "d" .nil) (FList.cons (.file "f" [7]) .nil))).2 = none) ∧
      (unnamedMvDir (⟨fun _ _ => some 1, fun _ => none, fun _ => none, fun _ => some 2,
          fun _ => some 3⟩ : Env)
        ⟨fun p => if p = "a/f" then some ⟨[7], 6⟩ else none,
          fun p => p = "a" || p = "a/d"⟩ "a" "b"
        (FList.cons (.dir "d" .nil) (FList.cons (.file "f" [7]) .nil))).1 = none :=
  ⟨rfl, by decide,
    (C10_mvdir (⟨fun _ _ => some 1, fun _ => none, fun _ => none, fun _ => some 2,
        fun _ => some 3⟩ : Env)
      ⟨fun p => if p = "a/f" then some ⟨[7], 6⟩ else none,
        fun p => p = "a" || p = "a/d"⟩ "a" "b"
      (FList.cons (.dir "d" .nil) (FList.cons (.file "f" [7]) .nil)) 1 rfl (by decide)).1⟩
